import Mathlib

/-!
Verification of the EBNF compiler-construction toolkit.

Shallow embedding of the JavaScript sources:
* `Base`  — module base.js (symbol inventory, scanner, tuples);
* `EBNF`  — module ebnf.js (LL(1) grammar model, expect/follow analysis);
* `BNF`   — module 11.js (LR grammar model, item sets, table filling,
            value building, EBNF to BNF translation);
* `Six`   — module 06.js (stack virtual machine).

Machine integers are modelled as `Int`, JavaScript object sets as
`Finset String` (a JS object used as a set has distinct keys; all set
operations used by the source — import, length, overlap, membership —
are key-order independent).
-/

namespace BNF

/-! ### Monotone analysis flags (11.js `NT`, `Rule`; base.js `T`)

Source: 11.js lines 1743-1755 (`NT.empty`, `NT.reached`, `NT.finite`),
lines 1819-1836 (`Rule.reached`, `Rule.finite`, `Rule.reduced`), and
base.js lines 267-269 (`T.used`).  Every setter reads
`set flag (_) { this.#flag = true; }` — the assigned value is discarded
and the private field is set to `true`; no other code writes the field.
-/

/-- The seven boolean analysis flags of the BNF grammar model. -/
structure Flags where
  ntEmpty : Bool
  ntReached : Bool
  ntFinite : Bool
  ruleReached : Bool
  ruleFinite : Bool
  ruleReduced : Bool
  tUsed : Bool
deriving Repr, DecidableEq

/-- `NT.set empty (_) { this.#empty = true; }` — value ignored. -/
def Flags.setNtEmpty (s : Flags) (_v : Bool) : Flags := { s with ntEmpty := true }

/-- `NT.set reached (_) { this.#reached = true; }` -/
def Flags.setNtReached (s : Flags) (_v : Bool) : Flags := { s with ntReached := true }

/-- `NT.set finite (_) { this.#finite = true; }` -/
def Flags.setNtFinite (s : Flags) (_v : Bool) : Flags := { s with ntFinite := true }

/-- `Rule.set reached (_) { this.#reached = true; }` -/
def Flags.setRuleReached (s : Flags) (_v : Bool) : Flags := { s with ruleReached := true }

/-- `Rule.set finite (_) { this.#finite = true; }` -/
def Flags.setRuleFinite (s : Flags) (_v : Bool) : Flags := { s with ruleFinite := true }

/-- `Rule.set reduced (_) { this.#reduced = true; }` -/
def Flags.setRuleReduced (s : Flags) (_v : Bool) : Flags := { s with ruleReduced := true }

/-- `T.set used (_) { this.#used = true; }` (base.js). -/
def Flags.setTUsed (s : Flags) (_v : Bool) : Flags := { s with tUsed := true }

/-- The only operations that write any of the seven flag fields:
the seven assignment setters, each carrying the (ignored) assigned value. -/
inductive FlagOp where
  | ntEmpty (v : Bool)
  | ntReached (v : Bool)
  | ntFinite (v : Bool)
  | ruleReached (v : Bool)
  | ruleFinite (v : Bool)
  | ruleReduced (v : Bool)
  | tUsed (v : Bool)
deriving Repr, DecidableEq

/-- Apply one setter. -/
def Flags.apply (s : Flags) : FlagOp → Flags
  | .ntEmpty v => s.setNtEmpty v
  | .ntReached v => s.setNtReached v
  | .ntFinite v => s.setNtFinite v
  | .ruleReached v => s.setRuleReached v
  | .ruleFinite v => s.setRuleFinite v
  | .ruleReduced v => s.setRuleReduced v
  | .tUsed v => s.setTUsed v

/-- Apply a whole lifetime of setter calls, oldest first. -/
def Flags.applyAll (s : Flags) (ops : List FlagOp) : Flags :=
  ops.foldl Flags.apply s

/-- Pointwise boolean implication between flag states. -/
def Flags.le (s t : Flags) : Prop :=
  (s.ntEmpty → t.ntEmpty) ∧ (s.ntReached → t.ntReached) ∧
  (s.ntFinite → t.ntFinite) ∧ (s.ruleReached → t.ruleReached) ∧
  (s.ruleFinite → t.ruleFinite) ∧ (s.ruleReduced → t.ruleReduced) ∧
  (s.tUsed → t.tUsed)

theorem Flags.le_refl (s : Flags) : Flags.le s s := by
  refine ⟨?_, ?_, ?_, ?_, ?_, ?_, ?_⟩ <;> exact id

theorem Flags.le_trans {s t u : Flags} (h1 : Flags.le s t) (h2 : Flags.le t u) :
    Flags.le s u := by
  obtain ⟨a1, b1, c1, d1, e1, f1, g1⟩ := h1
  obtain ⟨a2, b2, c2, d2, e2, f2, g2⟩ := h2
  exact ⟨fun h => a2 (a1 h), fun h => b2 (b1 h), fun h => c2 (c1 h),
    fun h => d2 (d1 h), fun h => e2 (e1 h), fun h => f2 (f1 h), fun h => g2 (g1 h)⟩

theorem Flags.apply_mono (s : Flags) (op : FlagOp) : Flags.le s (s.apply op) := by
  cases op <;>
    simp only [Flags.apply, Flags.setNtEmpty, Flags.setNtReached, Flags.setNtFinite,
      Flags.setRuleReached, Flags.setRuleFinite, Flags.setRuleReduced, Flags.setTUsed] <;>
    refine ⟨?_, ?_, ?_, ?_, ?_, ?_, ?_⟩ <;> simp

theorem Flags.applyAll_mono (ops : List FlagOp) (s : Flags) :
    Flags.le s (s.applyAll ops) := by
  induction ops generalizing s with
  | nil => exact Flags.le_refl s
  | cons op rest ih =>
      exact Flags.le_trans (Flags.apply_mono s op) (ih (s.apply op))

end BNF

/-- C9: the setters of `NT.empty`, `NT.reached`, `NT.finite`, `Rule.reached`,
`Rule.finite`, `Rule.reduced` and `T.used` ignore the assigned value and set
the flag to `true`; since these setters are the only operations that write the
private flag fields, a flag that is `true` stays `true` under any further
sequence of setter calls, for the lifetime of the grammar objects. -/
theorem c9_bnf_flags_monotone :
    (∀ (s : BNF.Flags) (v : Bool),
      (s.setNtEmpty v).ntEmpty = true ∧ (s.setNtReached v).ntReached = true ∧
      (s.setNtFinite v).ntFinite = true ∧ (s.setRuleReached v).ruleReached = true ∧
      (s.setRuleFinite v).ruleFinite = true ∧ (s.setRuleReduced v).ruleReduced = true ∧
      (s.setTUsed v).tUsed = true) ∧
    (∀ (s : BNF.Flags) (ops : List BNF.FlagOp), BNF.Flags.le s (s.applyAll ops)) := by
  constructor
  · intro s v
    exact ⟨rfl, rfl, rfl, rfl, rfl, rfl, rfl⟩
  · intro s ops
    exact BNF.Flags.applyAll_mono ops s

/-- Witness for C9 at a concrete flag state and operation list: a `true`
`ruleReduced` flag survives later assignments of `false` to other and to the
same flag. -/
theorem c9_bnf_flags_monotone_witness :
    ((⟨false, false, false, false, false, true, false⟩ : BNF.Flags).applyAll
      [.ntEmpty false, .ruleReduced false, .tUsed false]).ruleReduced = true := by
  have h := c9_bnf_flags_monotone.2 ⟨false, false, false, false, false, true, false⟩
    [.ntEmpty false, .ruleReduced false, .tUsed false]
  exact h.2.2.2.2.2.1 rfl

namespace Base

/-! ### Literal unescaping (base.js `Lit.unescape`, lines 321-363)

`unescape` walks the quoted representation with an explicit character
index `i`, starting at 1 and stopping before the final delimiter.  The
JavaScript loop always advances `i`; the Lean model adds a fuel argument
(one unit per loop iteration, `s.length` is always enough) so that the
definition is structural and computable. -/

/-- The escape source characters of `'bfnrtv\\\''.indexOf(...)`. -/
def escSrc : List Char := ['b', 'f', 'n', 'r', 't', 'v', '\\', Char.ofNat 39]

/-- The replacement characters of `'\b\f\n\r\t\v\\\''.charAt(...)`. -/
def escDst : List Char :=
  [Char.ofNat 8, Char.ofNat 12, '\n', Char.ofNat 13, '\t', Char.ofNat 11, '\\', Char.ofNat 39]

/-- Index of a character in the escape table, `none` for `indexOf < 0`. -/
def escIdx (c : Char) : Option Nat := escSrc.findIdx? (fun x => x = c)

/-- Replacement character for an escape-table index. -/
def escOut (k : Nat) : Char := escDst.getD k (Char.ofNat 0)

/-- `'0123456789abcdef'.indexOf(c)`: the value of a lowercase hexadecimal
digit, `none` for `indexOf < 0`.  Uppercase digits are rejected. -/
def lcHex (c : Char) : Option Nat :=
  "0123456789abcdef".toList.findIdx? (fun x => x = c)

/-- The loop body of `Lit.unescape` at index `i` (first argument after the
fuel).  Mirrors base.js lines 326-362: a non-backslash character is copied;
a trailing backslash yields a backslash; a named escape is replaced through
the tables; `\xHH` and `\uHHHH` require the digit positions to stay before
the closing delimiter and all digits to be lowercase hexadecimal, otherwise
only the `x`/`u` is consumed; any other escaped character yields itself. -/
def unescapeGo (s : List Char) : Nat → Nat → List Char
  | 0, _ => []
  | fuel + 1, i =>
    if i < s.length - 1 then
      if s.getD i (Char.ofNat 0) ≠ '\\' then s.getD i (Char.ofNat 0) :: unescapeGo s fuel (i + 1)
      else if s.length - 1 ≤ i + 1 then '\\' :: unescapeGo s fuel (i + 1)
      else
        match escIdx (s.getD (i + 1) (Char.ofNat 0)) with
        | some k => escOut k :: unescapeGo s fuel (i + 2)
        | none =>
          if s.getD (i + 1) (Char.ofNat 0) = 'x' then
            if i + 3 < s.length - 1 then
              match lcHex (s.getD (i + 2) (Char.ofNat 0)), lcHex (s.getD (i + 3) (Char.ofNat 0)) with
              | some h1, some h2 => Char.ofNat (16 * h1 + h2) :: unescapeGo s fuel (i + 4)
              | _, _ => 'x' :: unescapeGo s fuel (i + 2)
            else 'x' :: unescapeGo s fuel (i + 2)
          else if s.getD (i + 1) (Char.ofNat 0) = 'u' then
            if i + 5 < s.length - 1 then
              match lcHex (s.getD (i + 2) (Char.ofNat 0)), lcHex (s.getD (i + 3) (Char.ofNat 0)),
                    lcHex (s.getD (i + 4) (Char.ofNat 0)), lcHex (s.getD (i + 5) (Char.ofNat 0)) with
              | some h1, some h2, some h3, some h4 =>
                  Char.ofNat (4096 * h1 + 256 * h2 + 16 * h3 + h4) :: unescapeGo s fuel (i + 6)
              | _, _, _, _ => 'u' :: unescapeGo s fuel (i + 2)
            else 'u' :: unescapeGo s fuel (i + 2)
          else s.getD (i + 1) (Char.ofNat 0) :: unescapeGo s fuel (i + 2)
    else []

/-- `Lit.unescape(s)`: strip delimiters and elaborate backslash escapes. -/
def unescape (s : String) : String := ⟨unescapeGo s.data s.data.length 1⟩

/-- Reference recursion over the body (the representation without its two
delimiter characters), following the amended claim text. -/
def specGo : List Char → List Char
  | [] => []
  | c :: rest =>
    if c ≠ '\\' then c :: specGo rest
    else
      match rest with
      | [] => ['\\']
      | d :: rest1 =>
        match escIdx d with
        | some k => escOut k :: specGo rest1
        | none =>
          if d = 'x' then
            if 2 ≤ rest1.length then
              match lcHex (rest1.getD 0 (Char.ofNat 0)), lcHex (rest1.getD 1 (Char.ofNat 0)) with
              | some h1, some h2 => Char.ofNat (16 * h1 + h2) :: specGo (rest1.drop 2)
              | _, _ => 'x' :: specGo rest1
            else 'x' :: specGo rest1
          else if d = 'u' then
            if 4 ≤ rest1.length then
              match lcHex (rest1.getD 0 (Char.ofNat 0)), lcHex (rest1.getD 1 (Char.ofNat 0)),
                    lcHex (rest1.getD 2 (Char.ofNat 0)), lcHex (rest1.getD 3 (Char.ofNat 0)) with
              | some h1, some h2, some h3, some h4 =>
                  Char.ofNat (4096 * h1 + 256 * h2 + 16 * h3 + h4) :: specGo (rest1.drop 4)
              | _, _, _, _ => 'u' :: specGo rest1
            else 'u' :: specGo rest1
          else d :: specGo rest1
termination_by l => l.length
decreasing_by all_goals simp <;> omega

/-- The claimed unescaping: identical, except that `\xHH` and `\uHHHH`
accept any hexadecimal digit, uppercase included. -/
def anyHex (c : Char) : Option Nat :=
  match lcHex c with
  | some v => some v
  | none => ("ABCDEF".toList.findIdx? (fun x => x = c)).map (· + 10)

/-- `specGo` with uppercase hexadecimal digits allowed as the claim reads. -/
def claimGo : List Char → List Char
  | [] => []
  | c :: rest =>
    if c ≠ '\\' then c :: claimGo rest
    else
      match rest with
      | [] => ['\\']
      | d :: rest1 =>
        match escIdx d with
        | some k => escOut k :: claimGo rest1
        | none =>
          if d = 'x' then
            if 2 ≤ rest1.length then
              match anyHex (rest1.getD 0 (Char.ofNat 0)), anyHex (rest1.getD 1 (Char.ofNat 0)) with
              | some h1, some h2 => Char.ofNat (16 * h1 + h2) :: claimGo (rest1.drop 2)
              | _, _ => 'x' :: claimGo rest1
            else 'x' :: claimGo rest1
          else if d = 'u' then
            if 4 ≤ rest1.length then
              match anyHex (rest1.getD 0 (Char.ofNat 0)), anyHex (rest1.getD 1 (Char.ofNat 0)),
                    anyHex (rest1.getD 2 (Char.ofNat 0)), anyHex (rest1.getD 3 (Char.ofNat 0)) with
              | some h1, some h2, some h3, some h4 =>
                  Char.ofNat (4096 * h1 + 256 * h2 + 16 * h3 + h4) :: claimGo (rest1.drop 4)
              | _, _, _, _ => 'u' :: claimGo rest1
            else 'u' :: claimGo rest1
          else d :: claimGo rest1
termination_by l => l.length
decreasing_by all_goals simp <;> omega

/-- Strip the two delimiters and apply the reference recursion. -/
def specUnescape (s : String) : String := ⟨specGo (s.data.drop 1).dropLast⟩

/-- Strip the two delimiters and apply the claimed recursion. -/
def claimUnescape (s : String) : String := ⟨claimGo (s.data.drop 1).dropLast⟩

/-- The body of the representation from index `i` on: all characters from
position `i` up to, but not including, the final delimiter. -/
def bodyAt (s : List Char) (i : Nat) : List Char := (s.drop i).dropLast

theorem dropLast_eq_nil_of_len_le {l : List Char} (h : l.length ≤ 1) :
    l.dropLast = [] := by
  cases l with
  | nil => rfl
  | cons a t =>
      cases t with
      | nil => rfl
      | cons b u => simp at h

theorem bodyAt_nil {s : List Char} {i : Nat} (h : s.length - 1 ≤ i) :
    bodyAt s i = [] := by
  apply dropLast_eq_nil_of_len_le
  simp only [bodyAt, List.length_drop]
  omega

theorem bodyAt_cons {s : List Char} {i : Nat} (h : i < s.length - 1) :
    bodyAt s i = s.getD i (Char.ofNat 0) :: bodyAt s (i + 1) := by
  have hi : i < s.length := by omega
  have hne : s.drop (i + 1) ≠ [] := by
    intro he
    have := congrArg List.length he
    simp only [List.length_drop, List.length_nil] at this
    omega
  unfold bodyAt
  rw [List.drop_eq_getElem_cons hi, List.dropLast_cons_of_ne_nil hne,
    List.getD_eq_getElem s (Char.ofNat 0) hi]

theorem bodyAt_len (s : List Char) (i : Nat) : (bodyAt s i).length = s.length - i - 1 := by
  simp [bodyAt, List.length_dropLast, List.length_drop]

theorem escIdx_x : escIdx 'x' = none := by decide

theorem escIdx_u : escIdx 'u' = none := by decide

theorem specGo_nil : specGo [] = [] := by rw [specGo.eq_def]

theorem specGo_copy {c : Char} (h : ¬ c = '\\') (rest : List Char) :
    specGo (c :: rest) = c :: specGo rest := by
  rw [specGo.eq_def]
  simp [h]

theorem specGo_bs_only : specGo ['\\'] = ['\\'] := by
  rw [specGo.eq_def]
  simp

theorem specGo_esc {d : Char} {k : Nat} (h : escIdx d = some k) (rest1 : List Char) :
    specGo ('\\' :: d :: rest1) = escOut k :: specGo rest1 := by
  rw [specGo.eq_def]
  simp [h]

theorem specGo_x_hex {rest1 : List Char} {h1 h2 : Nat} (hl : 2 ≤ rest1.length)
    (ha : lcHex (rest1.getD 0 (Char.ofNat 0)) = some h1)
    (hb : lcHex (rest1.getD 1 (Char.ofNat 0)) = some h2) :
    specGo ('\\' :: 'x' :: rest1) = Char.ofNat (16 * h1 + h2) :: specGo (rest1.drop 2) := by
  rw [specGo.eq_def]
  rw [List.getD_eq_getElem?_getD] at ha hb
  simp [escIdx_x, hl, ha, hb]

theorem specGo_x_bad {rest1 : List Char} (hl : 2 ≤ rest1.length)
    (hfail : lcHex (rest1.getD 0 (Char.ofNat 0)) = none ∨
      lcHex (rest1.getD 1 (Char.ofNat 0)) = none) :
    specGo ('\\' :: 'x' :: rest1) = 'x' :: specGo rest1 := by
  rw [specGo.eq_def]
  simp only [List.getD_eq_getElem?_getD] at hfail
  rcases hfail with ha | hb
  · simp [escIdx_x, hl, ha]
  · cases ha : lcHex (rest1[0]?.getD (Char.ofNat 0)) <;> simp [escIdx_x, hl, ha, hb]

theorem specGo_x_stop {rest1 : List Char} (hl : ¬ 2 ≤ rest1.length) :
    specGo ('\\' :: 'x' :: rest1) = 'x' :: specGo rest1 := by
  rw [specGo.eq_def]
  simp [escIdx_x, hl]

theorem specGo_u_hex {rest1 : List Char} {h1 h2 h3 h4 : Nat} (hl : 4 ≤ rest1.length)
    (ha : lcHex (rest1.getD 0 (Char.ofNat 0)) = some h1)
    (hb : lcHex (rest1.getD 1 (Char.ofNat 0)) = some h2)
    (hc : lcHex (rest1.getD 2 (Char.ofNat 0)) = some h3)
    (hd : lcHex (rest1.getD 3 (Char.ofNat 0)) = some h4) :
    specGo ('\\' :: 'u' :: rest1) =
      Char.ofNat (4096 * h1 + 256 * h2 + 16 * h3 + h4) :: specGo (rest1.drop 4) := by
  rw [specGo.eq_def]
  rw [List.getD_eq_getElem?_getD] at ha hb hc hd
  simp [escIdx_u, hl, ha, hb, hc, hd]

theorem specGo_u_bad {rest1 : List Char} (hl : 4 ≤ rest1.length)
    (hfail : lcHex (rest1.getD 0 (Char.ofNat 0)) = none ∨
      lcHex (rest1.getD 1 (Char.ofNat 0)) = none ∨
      lcHex (rest1.getD 2 (Char.ofNat 0)) = none ∨
      lcHex (rest1.getD 3 (Char.ofNat 0)) = none) :
    specGo ('\\' :: 'u' :: rest1) = 'u' :: specGo rest1 := by
  rw [specGo.eq_def]
  simp only [List.getD_eq_getElem?_getD] at hfail
  rcases hfail with ha | hb | hc | hd
  · simp [escIdx_u, hl, ha]
  · cases ha : lcHex (rest1[0]?.getD (Char.ofNat 0)) <;> simp [escIdx_u, hl, ha, hb]
  · cases ha : lcHex (rest1[0]?.getD (Char.ofNat 0)) <;>
      cases hb : lcHex (rest1[1]?.getD (Char.ofNat 0)) <;> simp [escIdx_u, hl, ha, hb, hc]
  · cases ha : lcHex (rest1[0]?.getD (Char.ofNat 0)) <;>
      cases hb : lcHex (rest1[1]?.getD (Char.ofNat 0)) <;>
      cases hc : lcHex (rest1[2]?.getD (Char.ofNat 0)) <;> simp [escIdx_u, hl, ha, hb, hc, hd]

theorem specGo_u_stop {rest1 : List Char} (hl : ¬ 4 ≤ rest1.length) :
    specGo ('\\' :: 'u' :: rest1) = 'u' :: specGo rest1 := by
  rw [specGo.eq_def]
  simp [escIdx_u, hl]

theorem specGo_other {d : Char} (he : escIdx d = none) (hx : ¬ d = 'x') (hu : ¬ d = 'u')
    (rest1 : List Char) : specGo ('\\' :: d :: rest1) = d :: specGo rest1 := by
  rw [specGo.eq_def]
  simp [he, hx, hu]

theorem bodyAt_getD {s : List Char} {i k : Nat} (h : i + k < s.length - 1) :
    (bodyAt s i).getD k (Char.ofNat 0) = s.getD (i + k) (Char.ofNat 0) := by
  have hk : k < (bodyAt s i).length := by rw [bodyAt_len]; omega
  have hik : i + k < s.length := by omega
  rw [List.getD_eq_getElem _ _ hk, List.getD_eq_getElem _ _ hik]
  unfold bodyAt at hk ⊢
  rw [List.getElem_dropLast, List.getElem_drop]

theorem bodyAt_drop (s : List Char) (i k : Nat) : (bodyAt s i).drop k = bodyAt s (i + k) := by
  unfold bodyAt
  rw [List.dropLast_eq_take, List.drop_take, List.drop_drop, List.dropLast_eq_take]
  congr 1
  simp only [List.length_drop]
  omega

theorem unescapeGo_eq_specGo (s : List Char) :
    ∀ (fuel i : Nat), s.length - 1 ≤ i + fuel →
      unescapeGo s fuel i = specGo (bodyAt s i) := by
  intro fuel
  induction fuel with
  | zero =>
      intro i h
      rw [bodyAt_nil (by omega), specGo_nil]
      rfl
  | succ fuel ih =>
      intro i h
      by_cases hc : i < s.length - 1
      case neg =>
        rw [bodyAt_nil (by omega), specGo_nil, unescapeGo, if_neg hc]
      case pos =>
      rw [unescapeGo, if_pos hc, bodyAt_cons hc]
      by_cases hb : s.getD i (Char.ofNat 0) = '\\'
      case neg =>
        rw [if_pos (by exact hb), specGo_copy hb, ih (i + 1) (by omega)]
      case pos =>
      rw [if_neg (not_not_intro hb), hb]
      by_cases ht : s.length - 1 ≤ i + 1
      case pos =>
        have hrest : bodyAt s (i + 1) = [] := bodyAt_nil ht
        rw [if_pos ht, hrest, specGo_bs_only, ih (i + 1) (by omega), hrest, specGo_nil]
      case neg =>
      rw [if_neg ht]
      have ht2 : i + 1 < s.length - 1 := by omega
      rw [bodyAt_cons ht2]
      cases he : escIdx (s.getD (i + 1) (Char.ofNat 0)) with
      | some k => rw [specGo_esc he, ih (i + 2) (by omega)]
      | none =>
        by_cases hx : s.getD (i + 1) (Char.ofNat 0) = 'x'
        case pos =>
          rw [if_pos hx, hx]
          by_cases hd : i + 3 < s.length - 1
          case pos =>
            rw [if_pos hd]
            have hl2 : 2 ≤ (bodyAt s (i + 2)).length := by rw [bodyAt_len]; omega
            have e0 : (bodyAt s (i + 2)).getD 0 (Char.ofNat 0) =
                s.getD (i + 2) (Char.ofNat 0) := by
              have hgg := bodyAt_getD (s := s) (i := i + 2) (k := 0) (by omega)
              simpa using hgg
            have e1 : (bodyAt s (i + 2)).getD 1 (Char.ofNat 0) =
                s.getD (i + 3) (Char.ofNat 0) := by
              have hgg := bodyAt_getD (s := s) (i := i + 2) (k := 1) (by omega)
              simpa using hgg
            cases hv1 : lcHex (s.getD (i + 2) (Char.ofNat 0)) with
            | some v1 =>
                cases hv2 : lcHex (s.getD (i + 3) (Char.ofNat 0)) with
                | some v2 =>
                    rw [specGo_x_hex hl2 (by rw [e0]; exact hv1) (by rw [e1]; exact hv2),
                      bodyAt_drop, show i + 2 + 2 = i + 4 by omega, ih (i + 4) (by omega)]
                | none =>
                    rw [specGo_x_bad hl2 (Or.inr (by rw [e1]; exact hv2)), ih (i + 2) (by omega)]
            | none =>
                rw [specGo_x_bad hl2 (Or.inl (by rw [e0]; exact hv1)), ih (i + 2) (by omega)]
          case neg =>
            rw [if_neg hd, specGo_x_stop (by rw [bodyAt_len]; omega), ih (i + 2) (by omega)]
        case neg =>
        rw [if_neg hx]
        by_cases hu : s.getD (i + 1) (Char.ofNat 0) = 'u'
        case pos =>
          rw [if_pos hu, hu]
          by_cases hd : i + 5 < s.length - 1
          case pos =>
            rw [if_pos hd]
            have hl4 : 4 ≤ (bodyAt s (i + 2)).length := by rw [bodyAt_len]; omega
            have e0 : (bodyAt s (i + 2)).getD 0 (Char.ofNat 0) =
                s.getD (i + 2) (Char.ofNat 0) := by
              have hgg := bodyAt_getD (s := s) (i := i + 2) (k := 0) (by omega)
              simpa using hgg
            have e1 : (bodyAt s (i + 2)).getD 1 (Char.ofNat 0) =
                s.getD (i + 3) (Char.ofNat 0) := by
              have hgg := bodyAt_getD (s := s) (i := i + 2) (k := 1) (by omega)
              simpa using hgg
            have e2 : (bodyAt s (i + 2)).getD 2 (Char.ofNat 0) = s.getD (i + 4) (Char.ofNat 0) := by
              have hgg := bodyAt_getD (s := s) (i := i + 2) (k := 2) (by omega)
              simpa using hgg
            have e3 : (bodyAt s (i + 2)).getD 3 (Char.ofNat 0) = s.getD (i + 5) (Char.ofNat 0) := by
              have hgg := bodyAt_getD (s := s) (i := i + 2) (k := 3) (by omega)
              simpa using hgg
            cases hv1 : lcHex (s.getD (i + 2) (Char.ofNat 0)) with
            | none =>
                rw [specGo_u_bad hl4 (Or.inl (by rw [e0]; exact hv1)), ih (i + 2) (by omega)]
            | some v1 =>
                cases hv2 : lcHex (s.getD (i + 3) (Char.ofNat 0)) with
                | none =>
                    rw [specGo_u_bad hl4 (Or.inr (Or.inl (by rw [e1]; exact hv2))),
                      ih (i + 2) (by omega)]
                | some v2 =>
                    cases hv3 : lcHex (s.getD (i + 4) (Char.ofNat 0)) with
                    | none =>
                        rw [specGo_u_bad hl4 (Or.inr (Or.inr (Or.inl (by rw [e2]; exact hv3)))),
                          ih (i + 2) (by omega)]
                    | some v3 =>
                        cases hv4 : lcHex (s.getD (i + 5) (Char.ofNat 0)) with
                        | none =>
                            rw [specGo_u_bad hl4
                              (Or.inr (Or.inr (Or.inr (by rw [e3]; exact hv4)))),
                              ih (i + 2) (by omega)]
                        | some v4 =>
                            rw [specGo_u_hex hl4 (by rw [e0]; exact hv1) (by rw [e1]; exact hv2)
                              (by rw [e2]; exact hv3) (by rw [e3]; exact hv4),
                              bodyAt_drop, show i + 2 + 4 = i + 6 by omega,
                              ih (i + 6) (by omega)]
          case neg =>
            rw [if_neg hd, specGo_u_stop (by rw [bodyAt_len]; omega), ih (i + 2) (by omega)]
        case neg =>
          rw [if_neg hu, specGo_other he hx hu, ih (i + 2) (by omega)]

/-- C6 (amended): for every quoted literal representation, `Lit.unescape`
strips the surrounding delimiters and replaces each backslash escape among
the named escapes, `\xHH` and `\uHHHH` with H a lowercase hexadecimal
digit, while every other escaped character yields itself — stated as
agreement with the reference recursion `specUnescape` on every string. -/
theorem c6_unescape_lowercase_hex (s : String) : unescape s = specUnescape s := by
  unfold unescape specUnescape
  rcases s with ⟨data⟩
  cases data with
  | nil =>
      congr 1
      rw [show (List.drop 1 ([] : List Char)).dropLast = [] by rfl, specGo_nil]
      rfl
  | cons a t =>
      simp only
      have h := unescapeGo_eq_specGo (a :: t) (a :: t).length 1 (by simp; omega)
      rw [h]
      rfl


/-- C6 (counterexample): on the representation `{q}\x4A{q}` (q the single
quote) the code yields the three characters `x4A` — the uppercase digit `A`
is rejected — while the claimed behavior (any hexadecimal digit) yields the
single character `J` (code 0x4A). -/
theorem c6_claim_counterexample :
    unescape (String.mk [Char.ofNat 39, '\\', 'x', '4', 'A', Char.ofNat 39])
        = String.mk ['x', '4', 'A'] ∧
    claimUnescape (String.mk [Char.ofNat 39, '\\', 'x', '4', 'A', Char.ofNat 39])
        = String.mk ['J'] ∧
    unescape (String.mk [Char.ofNat 39, '\\', 'x', '4', 'A', Char.ofNat 39])
        ≠ claimUnescape (String.mk [Char.ofNat 39, '\\', 'x', '4', 'A', Char.ofNat 39]) := by
  have h0 : claimGo [] = [] := by rw [claimGo.eq_def]
  have h1 : claimGo ['\\', 'x', '4', 'A'] = ['J'] := by
    rw [claimGo.eq_def]
    norm_num [show escIdx 'x' = none from by decide, show anyHex '4' = some 4 from by decide,
      show anyHex 'A' = some 10 from by decide, h0]
  have ha : unescape (String.mk [Char.ofNat 39, '\\', 'x', '4', 'A', Char.ofNat 39])
      = String.mk ['x', '4', 'A'] := by decide
  have hb : claimUnescape (String.mk [Char.ofNat 39, '\\', 'x', '4', 'A', Char.ofNat 39])
      = String.mk ['J'] := by
    unfold claimUnescape
    rw [show ((String.mk [Char.ofNat 39, '\\', 'x', '4', 'A', Char.ofNat 39]).data.drop
        1).dropLast = ['\\', 'x', '4', 'A'] from by decide, h1]
  refine ⟨ha, hb, ?_⟩
  rw [ha, hb]
  decide

/-! ### Scanner construction (base.js `Scanner.constructor`, lines 567-621)

Without an explicit terminal list the constructor filters the used,
non-empty literals and tokens, sorts them, screens literals whose value a
token pattern matches exactly, and lays the pattern groups out as
`skip | tokens… | non-screened literals…`.  Regular-expression matching is
abstracted by the oracle `pm tokName litValue` standing for
`token.pat.exec(lit.value)` matching the whole value. -/

/-- A literal of the factory inventory: quoted representation, unescaped
value, and the `used` flag. -/
structure LitRec where
  name : String
  value : String
  used : Bool
deriving Repr, DecidableEq

/-- A token of the factory inventory. -/
structure TokRec where
  name : String
  used : Bool
deriving Repr, DecidableEq

/-- A literal as the scanner keeps it. -/
structure SLit where
  name : String
  value : String
deriving Repr, DecidableEq

/-- A terminal of the scanner list: a literal, or a token together with its
`screen` map from matched values to screened literals. -/
inductive STerm where
  | lit (l : SLit)
  | tok (name : String) (screen : List (String × SLit))
deriving Repr, DecidableEq

/-- Name of a scanner terminal (token name or literal representation). -/
def termKeyName : STerm → String
  | .lit l => l.name
  | .tok n _ => n

/-- Unescaped value for literal terminals, `""` for tokens. -/
def termValue : STerm → String
  | .lit l => l.value
  | .tok _ _ => ""

/-- True for token terminals. -/
def termIsTok : STerm → Bool
  | .lit _ => false
  | .tok _ _ => true

/-- Screening for one token: walk the sorted literals, record every literal
whose value the token pattern matches exactly, and fail (`assert`) when a
literal is already screened by an earlier token.  The accumulated `scr`
lists the names of already-screened literals. -/
def screenOne (pm : String → String → Bool) (tokName : String) (lits : List SLit)
    (scr : List String) : Option (List (String × SLit) × List String) :=
  lits.foldl
    (fun acc l =>
      match acc with
      | none => none
      | some (map, scr) =>
          if pm tokName l.value then
            if l.name ∈ scr then none
            else some ((map.filter (fun p => p.1 ≠ l.value)) ++ [(l.value, l)], scr ++ [l.name])
          else some (map, scr))
    (some ([], scr))

/-- Screening for all tokens in order, producing one screen map per token
and the final screened-literal names. -/
def screenToks (pm : String → String → Bool) (toks : List String) (lits : List SLit)
    (scr : List String) : Option (List (List (String × SLit)) × List String) :=
  match toks with
  | [] => some ([], scr)
  | t :: rest =>
      match screenOne pm t lits scr with
      | none => none
      | some (map, scr1) =>
          match screenToks pm rest lits scr1 with
          | none => none
          | some (maps, scr2) => some (map :: maps, scr2)

/-- Sort order of the used literals: the comparator
`(a, b) => a === b ? 0 : a.value < b.value ? 1 : -1` keeps `a` before `b`
exactly when `b.value ≤ a.value` (decreasing value), compared
lexicographically on the character data as JavaScript compares strings. -/
def litBefore (a b : LitRec) : Prop := b.value.data ≤ a.value.data

instance : DecidableRel litBefore :=
  fun a b => inferInstanceAs (Decidable (b.value.data ≤ a.value.data))

/-- Sort order of the used tokens: ascending name. -/
def tokBefore (a b : TokRec) : Prop := a.name.data ≤ b.name.data

instance : DecidableRel tokBefore :=
  fun a b => inferInstanceAs (Decidable (a.name.data ≤ b.name.data))

/-- The terminal list the constructor builds when none is supplied:
used non-empty tokens sorted by ascending name (each with its screen map),
followed by the used non-empty literals sorted by decreasing value that no
token screens. -/
def scannerTerminals (lits : List LitRec) (toks : List TokRec)
    (pm : String → String → Bool) : Option (List STerm) :=
  let litsS : List SLit :=
    ((lits.filter (fun l => l.used ∧ l.name ≠ "")).insertionSort litBefore).map
      (fun l => ⟨l.name, l.value⟩)
  let toksS : List TokRec :=
    (toks.filter (fun t => t.used ∧ t.name ≠ "")).insertionSort tokBefore
  match screenToks pm (toksS.map (fun t => t.name)) litsS [] with
  | none => none
  | some (maps, scr) =>
      some (((toksS.map (fun t => t.name)).zip maps).map (fun p => STerm.tok p.1 p.2) ++
        (litsS.filter (fun l => l.name ∉ scr)).map STerm.lit)

/-! ### Scanning (base.js `Scanner.scan`, lines 629-661)

The master pattern is abstracted by an oracle `findPat pos` standing for
`pattern.exec(input)` with `lastIndex = pos`: the match index, the whole
matched text, and the capture groups aligned with the terminal list
(`m.slice(2)`). -/

/-- One oracle match: `m.index`, `m[0]`, and the non-skip capture groups. -/
structure MatchRes where
  index : Nat
  whole : String
  groups : List (Option String)

/-- An input tuple `(lineno, terminal?, value)`; `t = none` is an illegal
character sequence. -/
structure Tup where
  lineno : Nat
  t : Option STerm
  value : String
deriving Repr, DecidableEq

/-- `input.substr(b, len)`. -/
def substr (s : String) (b len : Nat) : String := ⟨(s.data.drop b).take len⟩

/-- Number of newline characters (`s.replaceAll(/[^\n]/g, '').length`). -/
def nlCount (s : String) : Nat := s.data.countP (fun c => c = '\n')

/-- First non-empty capture group with its index
(`m.slice(2).some((input, n) => …)`). -/
def firstGroup : List (Option String) → Option (Nat × String)
  | [] => none
  | g :: rest =>
      match g with
      | some s =>
          if s.length ≠ 0 then some (0, s)
          else (firstGroup rest).map (fun p => (p.1 + 1, p.2))
      | none => (firstGroup rest).map (fun p => (p.1 + 1, p.2))

/-- Screening promotion: a token match whose text is a key of the screen
map becomes the screened literal. -/
def promote (t : STerm) (matched : String) : STerm :=
  match t with
  | .tok name screen =>
      match screen.find? (fun p => p.1 = matched) with
      | some p => .lit p.2
      | none => .tok name screen
  | .lit l => .lit l

/-- The `scan` loop.  `pos` is `pattern.lastIndex` (equal to `begin` at
every loop head), `lineno` the current line.  Fuel bounds the number of
iterations (the JavaScript loop advances `lastIndex` on every productive
match); running out of fuel or an out-of-range group index (the
`tuple()` assertion) yields `none`. -/
def scanGo (ts : List STerm) (findPat : Nat → Option MatchRes) (input : String) :
    Nat → Nat → Nat → Option (List Tup)
  | 0, _, _ => none
  | fuel + 1, pos, lineno =>
    if pos < input.length then
      match findPat pos with
      | some m =>
          let gapStr := substr input pos (m.index - pos)
          let gap : List Tup :=
            if m.index > pos then [⟨lineno, none, gapStr⟩] else []
          let lineno1 := if m.index > pos then lineno + nlCount gapStr else lineno
          let tupOpt : Option (List Tup) :=
            match firstGroup m.groups with
            | some (n, g) =>
                match ts.get? n with
                | some t => some [⟨lineno1, some (promote t g), g⟩]
                | none => none
            | none => some []
          match tupOpt with
          | none => none
          | some tups =>
              match scanGo ts findPat input fuel (m.index + m.whole.length)
                  (lineno1 + nlCount m.whole) with
              | none => none
              | some rest => some (gap ++ tups ++ rest)
      | none => some [⟨lineno, none, substr input pos (input.length - pos)⟩]
    else some []

/-- `scan(input)` from position 0, line 1. -/
def scan (ts : List STerm) (findPat : Nat → Option MatchRes) (input : String)
    (fuel : Nat) : Option (List Tup) :=
  scanGo ts findPat input fuel 0 1

/-- Well-formedness the constructor guarantees: terminal names are
non-empty and all screened literals have non-empty names (so neither the
reserved `$eof` literal nor the `$error` token can appear). -/
def TermOk : STerm → Prop
  | .lit l => l.name ≠ ""
  | .tok n screen => n ≠ "" ∧ ∀ p ∈ screen, p.2.name ≠ ""


instance : IsTotal LitRec litBefore :=
  ⟨fun a b => (le_total b.value.data a.value.data).elim Or.inl Or.inr⟩

instance : IsTrans LitRec litBefore := ⟨fun _ _ _ hab hbc => le_trans hbc hab⟩

instance : IsTotal TokRec tokBefore := ⟨fun a b => le_total a.name.data b.name.data⟩

instance : IsTrans TokRec tokBefore := ⟨fun _ _ _ hab hbc => le_trans hab hbc⟩

theorem screenToks_length {pm : String → String → Bool} :
    ∀ {toks : List String} {lits : List SLit} {scr scr2 : List String}
      {maps : List (List (String × SLit))},
      screenToks pm toks lits scr = some (maps, scr2) → maps.length = toks.length := by
  intro toks
  induction toks with
  | nil =>
      intro lits scr scr2 maps h
      simp only [screenToks] at h
      cases h
      rfl
  | cons t rest ih =>
      intro lits scr scr2 maps h
      simp only [screenToks] at h
      cases h1 : screenOne pm t lits scr with
      | none => rw [h1] at h; cases h
      | some p1 =>
          rcases p1 with ⟨map, scr1⟩
          rw [h1] at h
          dsimp only at h
          cases h2 : screenToks pm rest lits scr1 with
          | none => rw [h2] at h; cases h
          | some p2 =>
              rcases p2 with ⟨maps1, scrx⟩
              rw [h2] at h
              cases h
              simp [ih h2]

theorem screenOne_fold_mem {pm : String → String → Bool} {tokName : String}
    (Q : SLit → Prop) :
    ∀ (lits : List SLit) (acc : Option (List (String × SLit) × List String)),
      (∀ map0 scr0, acc = some (map0, scr0) → ∀ p ∈ map0, Q p.2) →
      (∀ l ∈ lits, Q l) →
      ∀ {map : List (String × SLit)} {scr1 : List String},
        List.foldl
          (fun acc l =>
            match acc with
            | none => none
            | some (map, scr) =>
                if pm tokName l.value then
                  if l.name ∈ scr then none
                  else some ((map.filter (fun p => p.1 ≠ l.value)) ++ [(l.value, l)],
                    scr ++ [l.name])
                else some (map, scr))
          acc lits = some (map, scr1) →
        ∀ p ∈ map, Q p.2 := by
  intro lits
  induction lits with
  | nil =>
      intro acc hacc _ map scr1 h p hp
      exact hacc map scr1 h p hp
  | cons l rest ih =>
      intro acc hacc hq map scr1 h p hp
      refine ih _ ?_ (fun x hx => hq x (List.mem_cons_of_mem l hx)) h p hp
      intro map0 scr0 hacc0 q hq0
      cases acc with
      | none => simp at hacc0
      | some pr =>
          rcases pr with ⟨mapA, scrA⟩
          dsimp only at hacc0
          by_cases hpm : pm tokName l.value
          · rw [if_pos hpm] at hacc0
            by_cases hmem : l.name ∈ scrA
            · rw [if_pos hmem] at hacc0; cases hacc0
            · rw [if_neg hmem] at hacc0
              cases hacc0
              rcases List.mem_append.mp hq0 with hin | hin
              · exact hacc mapA scrA rfl q ((List.mem_filter.mp hin).1)
              · rcases List.mem_singleton.mp hin with rfl
                exact hq l (List.mem_cons_self l rest)
          · rw [if_neg hpm] at hacc0
            cases hacc0
            exact hacc map0 scr0 rfl q hq0

theorem screenOne_mem {pm : String → String → Bool} {tokName : String} {lits : List SLit}
    {scr : List String} {map : List (String × SLit)} {scr1 : List String}
    (h : screenOne pm tokName lits scr = some (map, scr1)) :
    ∀ p ∈ map, p.2 ∈ lits := by
  unfold screenOne at h
  refine screenOne_fold_mem (fun l => l ∈ lits) lits (some ([], scr)) ?_ (fun l hl => hl) h
  intro map0 scr0 hacc p hp
  cases hacc
  simp at hp

theorem screenToks_mem {pm : String → String → Bool} :
    ∀ {toks : List String} {lits : List SLit} {scr scr2 : List String}
      {maps : List (List (String × SLit))},
      screenToks pm toks lits scr = some (maps, scr2) →
      ∀ map ∈ maps, ∀ p ∈ map, p.2 ∈ lits := by
  intro toks
  induction toks with
  | nil =>
      intro lits scr scr2 maps h map hmap
      simp only [screenToks] at h
      cases h
      simp at hmap
  | cons t rest ih =>
      intro lits scr scr2 maps h map hmap
      simp only [screenToks] at h
      cases h1 : screenOne pm t lits scr with
      | none => rw [h1] at h; cases h
      | some p1 =>
          rcases p1 with ⟨mapA, scr1⟩
          rw [h1] at h
          dsimp only at h
          cases h2 : screenToks pm rest lits scr1 with
          | none => rw [h2] at h; cases h
          | some p2 =>
              rcases p2 with ⟨maps1, scrx⟩
              rw [h2] at h
              cases h
              rcases List.mem_cons.mp hmap with rfl | hin
              · exact screenOne_mem h1
              · exact ih h2 map hin

theorem scannerTerminals_termOk {lits : List LitRec} {toks : List TokRec}
    {pm : String → String → Bool} {ts : List STerm}
    (h : scannerTerminals lits toks pm = some ts) : ∀ t ∈ ts, TermOk t := by
  unfold scannerTerminals at h
  set litsS : List SLit :=
    ((lits.filter (fun l => l.used ∧ l.name ≠ "")).insertionSort litBefore).map
      (fun l => ⟨l.name, l.value⟩) with hlitsS
  set toksS : List TokRec :=
    (toks.filter (fun t => t.used ∧ t.name ≠ "")).insertionSort tokBefore with htoksS
  have hlitOk : ∀ l ∈ litsS, l.name ≠ "" := by
    intro l hl
    rcases List.mem_map.mp hl with ⟨r, hr, rfl⟩
    have hr2 := (List.perm_insertionSort litBefore
      (lits.filter (fun l => l.used ∧ l.name ≠ ""))).mem_iff.mp hr
    have := (List.mem_filter.mp hr2).2
    simp only [decide_eq_true_eq] at this
    exact this.2
  have htokOk : ∀ t ∈ toksS, t.name ≠ "" := by
    intro t ht
    have ht2 := (List.perm_insertionSort tokBefore
      (toks.filter (fun t => t.used ∧ t.name ≠ ""))).mem_iff.mp ht
    have := (List.mem_filter.mp ht2).2
    simp only [decide_eq_true_eq] at this
    exact this.2
  dsimp only at h
  cases hs : screenToks pm (toksS.map (fun t => t.name)) litsS [] with
  | none => rw [hs] at h; cases h
  | some pr =>
      rcases pr with ⟨maps, scr⟩
      rw [hs] at h
      cases h
      intro t ht
      rcases List.mem_append.mp ht with hin | hin
      · rcases List.mem_map.mp hin with ⟨p, hp, rfl⟩
        rcases List.of_mem_zip hp with ⟨hn, hm⟩
        constructor
        · rcases List.mem_map.mp hn with ⟨r, hr, heq⟩
          rw [← heq]
          exact htokOk r hr
        · intro q hq
          exact hlitOk q.2 (screenToks_mem hs p.2 hm q hq)
      · rcases List.mem_map.mp hin with ⟨l, hl, rfl⟩
        exact hlitOk l (List.mem_filter.mp hl).1

theorem promote_name_ne {t : STerm} (h : TermOk t) (g : String) :
    termKeyName (promote t g) ≠ "" := by
  cases t with
  | lit l => exact h
  | tok n screen =>
      unfold promote
      dsimp only
      cases hf : screen.find? (fun p => p.1 = g) with
      | none => exact h.1
      | some p => exact h.2 p (List.mem_of_find?_eq_some hf)

theorem scanGo_mem {ts : List STerm} {findPat : Nat → Option MatchRes} {input : String} :
    ∀ {fuel pos lineno : Nat} {res : List Tup},
      scanGo ts findPat input fuel pos lineno = some res →
      ∀ tup ∈ res, tup.t = none ∨ ∃ t ∈ ts, ∃ g, tup.t = some (promote t g) := by
  intro fuel
  induction fuel with
  | zero => intro pos lineno res h; cases h
  | succ fuel ih =>
      intro pos lineno res h tup htup
      rw [scanGo] at h
      by_cases hc : pos < input.length
      case neg =>
        rw [if_neg hc] at h
        cases h
        simp at htup
      case pos =>
      rw [if_pos hc] at h
      cases hm : findPat pos with
      | none =>
          rw [hm] at h
          cases h
          rcases List.mem_singleton.mp htup with rfl
          exact Or.inl rfl
      | some m =>
          rw [hm] at h
          cases hg : firstGroup m.groups with
          | none =>
              simp only [hg] at h
              cases hrec : scanGo ts findPat input fuel (m.index + m.whole.length)
                  ((if m.index > pos then lineno + nlCount (substr input pos (m.index - pos))
                    else lineno) + nlCount m.whole) with
              | none => rw [hrec] at h; cases h
              | some rest =>
                  rw [hrec] at h
                  cases h
                  rcases List.mem_append.mp htup with hin | hin
                  · by_cases hgt : m.index > pos
                    · simp only [if_pos hgt] at hin
                      rcases List.mem_append.mp hin with hin2 | hin2
                      · rcases List.mem_singleton.mp hin2 with rfl
                        exact Or.inl rfl
                      · simp at hin2
                    · simp only [if_neg hgt] at hin
                      simp at hin
                  · exact ih hrec tup hin
          | some ng =>
              rcases ng with ⟨n, g⟩
              simp only [hg] at h
              cases hget : ts.get? n with
              | none => rw [hget] at h; cases h
              | some t =>
                  rw [hget] at h
                  cases hrec : scanGo ts findPat input fuel (m.index + m.whole.length)
                      ((if m.index > pos then lineno + nlCount (substr input pos (m.index - pos))
                        else lineno) + nlCount m.whole) with
                  | none => rw [hrec] at h; cases h
                  | some rest =>
                      rw [hrec] at h
                      cases h
                      rcases List.mem_append.mp htup with hin | hin
                      · by_cases hgt : m.index > pos
                        · simp only [if_pos hgt] at hin
                          rcases List.mem_append.mp hin with hin2 | hin2
                          · rcases List.mem_singleton.mp hin2 with rfl
                            exact Or.inl rfl
                          · rcases List.mem_singleton.mp hin2 with rfl
                            exact Or.inr ⟨t, List.get?_mem hget, g, rfl⟩
                        · simp only [if_neg hgt, List.nil_append] at hin
                          rcases List.mem_singleton.mp hin with rfl
                          exact Or.inr ⟨t, List.get?_mem hget, g, rfl⟩
                      · exact ih hrec tup hin


theorem scan_sound {lits : List LitRec} {toks : List TokRec}
    {pm : String → String → Bool} {ts : List STerm} {findPat : Nat → Option MatchRes}
    {input : String} {fuel : Nat} {res : List Tup}
    (h1 : scannerTerminals lits toks pm = some ts)
    (h2 : scan ts findPat input fuel = some res) :
    ∀ tup ∈ res, ∀ t', tup.t = some t' → termKeyName t' ≠ "" := by
  have hok := scannerTerminals_termOk h1
  unfold scan at h2
  intro tup htup t' ht'
  rcases scanGo_mem h2 tup htup with hnone | ⟨t, htt, g, hpr⟩
  · rw [hnone] at ht'
    cases ht'
  · rw [hpr] at ht'
    cases ht'
    exact promote_name_ne (hok t htt) g

end Base

/-- C4 (amended): when a scanner is constructed without an explicit
terminal list, the used non-empty tokens come first in the master pattern,
sorted by ascending name, followed by the used non-empty non-screened
literals sorted by lexicographically decreasing value (the comparator
compares the unescaped values themselves, not their lengths). -/
theorem c4_scanner_terminal_order (lits : List Base.LitRec) (toks : List Base.TokRec)
    (pm : String → String → Bool) (ts : List Base.STerm)
    (h : Base.scannerTerminals lits toks pm = some ts) :
    ∃ tn ln : List Base.STerm, ts = tn ++ ln ∧
      (∀ t ∈ tn, Base.termIsTok t = true) ∧
      (∀ t ∈ ln, Base.termIsTok t = false) ∧
      List.Pairwise (fun a b => (Base.termKeyName a).data ≤ (Base.termKeyName b).data) tn ∧
      List.Pairwise (fun a b => (Base.termValue b).data ≤ (Base.termValue a).data) ln := by
  unfold Base.scannerTerminals at h
  set litsS : List Base.SLit :=
    ((lits.filter (fun l => l.used ∧ l.name ≠ "")).insertionSort Base.litBefore).map
      (fun l => ⟨l.name, l.value⟩) with hlitsS
  set toksS : List Base.TokRec :=
    (toks.filter (fun t => t.used ∧ t.name ≠ "")).insertionSort Base.tokBefore with htoksS
  dsimp only at h
  cases hs : Base.screenToks pm (toksS.map (fun t => t.name)) litsS [] with
  | none => rw [hs] at h; cases h
  | some pr =>
      rcases pr with ⟨maps, scr⟩
      rw [hs] at h
      cases h
      refine ⟨((toksS.map (fun t => t.name)).zip maps).map (fun p => Base.STerm.tok p.1 p.2),
        (litsS.filter (fun l => l.name ∉ scr)).map Base.STerm.lit, rfl, ?_, ?_, ?_, ?_⟩
      · intro t ht
        rcases List.mem_map.mp ht with ⟨p, _, rfl⟩
        rfl
      · intro t ht
        rcases List.mem_map.mp ht with ⟨l, _, rfl⟩
        rfl
      · rw [List.pairwise_map]
        have hsorted : List.Pairwise Base.tokBefore toksS :=
          List.sorted_insertionSort Base.tokBefore (toks.filter (fun t => t.used ∧ t.name ≠ ""))
        have hnames : List.Pairwise (fun a b : String => a.data ≤ b.data)
            (toksS.map (fun t => t.name)) :=
          List.pairwise_map.mpr hsorted
        rw [List.pairwise_iff_getElem] at hnames ⊢
        intro i j hi hj hij
        have hlen := List.length_zip (toksS.map (fun t => t.name)) maps
        have hi2 : i < (toksS.map (fun t => t.name)).length := by
          rw [hlen] at hi
          exact Nat.lt_of_lt_of_le hi (Nat.min_le_left _ _)
        have hj2 : j < (toksS.map (fun t => t.name)).length := by
          rw [hlen] at hj
          exact Nat.lt_of_lt_of_le hj (Nat.min_le_left _ _)
        rw [List.getElem_zip, List.getElem_zip]
        exact hnames i j hi2 hj2 hij
      · rw [List.pairwise_map]
        have hsorted : List.Pairwise Base.litBefore
            ((lits.filter (fun l => l.used ∧ l.name ≠ "")).insertionSort Base.litBefore) :=
          List.sorted_insertionSort Base.litBefore (lits.filter (fun l => l.used ∧ l.name ≠ ""))
        have hlitsPair : List.Pairwise (fun a b : Base.SLit => b.value.data ≤ a.value.data)
            litsS := by
          rw [hlitsS, List.pairwise_map]
          exact hsorted
        exact List.Pairwise.sublist (List.filter_sublist litsS) hlitsPair

/-- Witness for C4 at a concrete inventory: one used token and two used
literals, one screened. -/
theorem c4_scanner_terminal_order_witness :
    ∃ tn ln : List Base.STerm,
      [Base.STerm.tok "Num" [("b", ⟨"q1", "b"⟩)], Base.STerm.lit ⟨"q2", "aa"⟩] = tn ++ ln ∧
      (∀ t ∈ tn, Base.termIsTok t = true) ∧
      (∀ t ∈ ln, Base.termIsTok t = false) ∧
      List.Pairwise (fun a b => (Base.termKeyName a).data ≤ (Base.termKeyName b).data) tn ∧
      List.Pairwise (fun a b => (Base.termValue b).data ≤ (Base.termValue a).data) ln := by
  exact c4_scanner_terminal_order [⟨"q1", "b", true⟩, ⟨"q2", "aa", true⟩] [⟨"Num", true⟩]
    (fun _ v => v = "b")
    [Base.STerm.tok "Num" [("b", ⟨"q1", "b"⟩)], Base.STerm.lit ⟨"q2", "aa"⟩] (by decide)

/-- C4 (counterexample): two used literals with values `b` and `aa`; the
constructor orders `b` before `aa` (decreasing value), while ordering by
decreasing value length would put `aa` first. -/
theorem c4_claim_counterexample :
    Base.scannerTerminals [⟨"q1", "b", true⟩, ⟨"q2", "aa", true⟩] [] (fun _ _ => false)
      = some [.lit ⟨"q1", "b"⟩, .lit ⟨"q2", "aa"⟩] ∧
    ¬ List.Pairwise (fun a b => (Base.termValue b).length ≤ (Base.termValue a).length)
      [Base.STerm.lit ⟨"q1", "b"⟩, Base.STerm.lit ⟨"q2", "aa"⟩] := by
  constructor
  · decide
  · intro hpair
    have := List.rel_of_pairwise_cons hpair (List.mem_singleton.mpr rfl)
    simp only [Base.termValue] at this
    exact absurd this (by decide)

/-- C5 (amended): `Scanner.scan` never emits a tuple carrying the reserved
`$eof` literal (nor any empty-named terminal): every tuple of the returned
list has either a null terminal (illegal characters) or a terminal of the
scanner with a non-empty name; the end-of-input `$eof` tuple is appended
later by the LR parser when the tuple list is exhausted. -/
theorem c5_scan_no_eof_tuple (lits : List Base.LitRec) (toks : List Base.TokRec)
    (pm : String → String → Bool) (ts : List Base.STerm)
    (findPat : Nat → Option Base.MatchRes) (input : String) (fuel : Nat)
    (res : List Base.Tup)
    (h1 : Base.scannerTerminals lits toks pm = some ts)
    (h2 : Base.scan ts findPat input fuel = some res) :
    ∀ tup ∈ res, ∀ t', tup.t = some t' → Base.termKeyName t' ≠ "" :=
  Base.scan_sound h1 h2

/-- Witness for C5: scanning `b` with the one-literal scanner yields one
literal tuple, whose terminal name is non-empty. -/
theorem c5_scan_no_eof_tuple_witness :
    Base.termKeyName (Base.STerm.lit ⟨"q1", "b"⟩) ≠ "" := by
  refine c5_scan_no_eof_tuple [⟨"q1", "b", true⟩] [] (fun _ _ => false)
    [.lit ⟨"q1", "b"⟩]
    (fun pos => if pos = 0 then some ⟨0, "b", [some "b"]⟩ else none) "b" 5
    [⟨1, some (.lit ⟨"q1", "b"⟩), "b"⟩] (by decide) (by decide)
    ⟨1, some (.lit ⟨"q1", "b"⟩), "b"⟩ (by decide) (Base.STerm.lit ⟨"q1", "b"⟩) rfl

/-- C5 (counterexample): scanning the input `b` with a one-literal scanner
returns a single tuple whose terminal is that literal — the list does not
end with a tuple carrying the `$eof` literal (the empty-named literal),
and scanning the empty input returns the empty list. -/
theorem c5_claim_counterexample :
    Base.scan [.lit ⟨"q1", "b"⟩]
        (fun pos => if pos = 0 then some ⟨0, "b", [some "b"]⟩ else none) "b" 5
      = some [⟨1, some (.lit ⟨"q1", "b"⟩), "b"⟩] ∧
    (∀ v, Base.STerm.lit ⟨"q1", "b"⟩ ≠ .lit ⟨"", v⟩) ∧
    Base.scan [.lit ⟨"q1", "b"⟩]
        (fun pos => if pos = 0 then some ⟨0, "b", [some "b"]⟩ else none) "" 5
      = some [] := by
  refine ⟨by decide, ?_, by decide⟩
  intro v h
  simp at h


namespace BNF

/-! ### LR message filling: shift/reduce resolution (11.js `State.advance`)

Source: 11.js lines 2073-2127.  After state construction the message map
sends every symbol that can follow the state to `null`.  The loop over
complete marks installs `reduce` messages; for a terminal `t` of the
follow set the entry can be vacant (not a key of the map), `null`
(pending, a shift will be installed later), or an already-installed
`reduce`.  The model captures one loop body for one `(rule, t)` pair. -/

/-- Associativity tags of precedence groups. -/
inductive Assoc where
  | left
  | right
  | nonassoc
deriving Repr, DecidableEq

/-- A defined precedence: integer level and associativity (`prec.level`,
`prec.assoc` are always set together by `Factory.precedence`). -/
structure Prec where
  level : Nat
  assoc : Assoc
deriving Repr, DecidableEq

/-- The message-map entry for one terminal while `advance` processes the
complete marks. -/
inductive Entry where
  | vacant
  | pending
  | reduceBy (r : Nat)
deriving Repr, DecidableEq

/-- Effect of one iteration of the complete-mark loop of `advance` on one
follow terminal: new entry, shift/reduce and reduce/reduce counter
increments, and whether `rule.reduced` was set. -/
structure AdvanceOut where
  entry : Entry
  sr : Nat
  rr : Nat
  reduced : Bool
deriving Repr, DecidableEq

/-- One iteration of the complete-mark loop of `State.advance` for the rule
with index `ri`, rule precedence `rp`, and a follow terminal with
precedence `fp`, acting on the current entry. -/
def advanceEntry (e : Entry) (ri : Nat) (rp fp : Option Prec) : AdvanceOut :=
  match e with
  | .vacant => ⟨.reduceBy ri, 0, 0, true⟩
  | .pending =>
      match rp, fp with
      | some rprec, some fprec =>
          if rprec.level > fprec.level then ⟨.reduceBy ri, 0, 0, true⟩
          else if rprec.level < fprec.level then ⟨.pending, 0, 0, false⟩
          else
            match rprec.assoc with
            | .left => ⟨.reduceBy ri, 0, 0, true⟩
            | .right => ⟨.pending, 0, 0, false⟩
            | .nonassoc => ⟨.vacant, 0, 0, true⟩
      | _, _ => ⟨.pending, 1, 0, false⟩
  | .reduceBy r2 => ⟨.reduceBy (if ri < r2 then ri else r2), 0, 1, false⟩

/-- What the terminal ultimately gets in the finished state: the second
phase of `advance` turns every remaining `null` entry into a `shift` (or
`accept` for `$eof`), keeps `reduce` entries, and a deleted entry means the
terminal is an error in this state. -/
inductive MsgOut where
  | shift
  | reduceMsg (r : Nat)
  | errorOut
deriving Repr, DecidableEq

/-- Final message for an entry after the shift-installing phase. -/
def resolveMsg (e : Entry) : MsgOut :=
  match e with
  | .vacant => .errorOut
  | .pending => .shift
  | .reduceBy r => .reduceMsg r

/-! ### LR value building for synthesized rules (11.js `Parser.build`)

Source: 11.js lines 2975-3013, the `reduce` arm of `build`.  When the
grammar was produced by `Grammar.fromEBNF` (`grammar.ebnf` set) and the
reduced rule belongs to a synthesized non-terminal (name starts with
`config.uniq`), the collected values are post-processed without ever
calling `act` on the user-supplied actions object. -/

/-- Parse-time values: `null`, a terminal string, or a collected list. -/
inductive Val where
  | nil
  | str (s : String)
  | list (vs : List Val)

/-- Rule symbols, identified the way the source compares them: terminals by
ordinal, non-terminals by index (`===` on the unique factory objects). -/
inductive RSym where
  | t (ord : Nat)
  | nt (idx : Nat)
deriving Repr, DecidableEq

/-- The parts of a BNF rule that `build` consults on a reduce. -/
structure RRule where
  ntIdx : Nat
  ntName : String
  symbols : List RSym
deriving Repr, DecidableEq

/-- Result of the `reduce` arm of `build`: whether the user actions object
was consulted, and the produced value (`none` models the `TypeError` of
spreading a non-iterable first value; unreachable for translated
grammars). -/
structure BuildOut where
  consulted : Bool
  result : Option Val

/-- JavaScript `name.startsWith(uniq)` on the character data. -/
def strStartsWith (s pre : String) : Bool := pre.data.isPrefixOf s.data

/-- The `reduce` arm of `Parser.build` given the collected value list
(`values.splice(-len, len)`, done by the caller) and the user action
lookup `act`. -/
def buildReduce (ebnf : Bool) (uniq : String) (r : RRule) (collected : List Val)
    (act : String → List Val → Val) : BuildOut :=
  if ebnf ∧ strStartsWith r.ntName uniq then
    if r.symbols.length = 2 ∧ r.symbols.head? = some (.nt r.ntIdx) then
      match collected with
      | .list xs :: rest => ⟨false, some (.list (xs ++ rest))⟩
      | _ => ⟨false, none⟩
    else if r.symbols.length = 0 then ⟨false, some .nil⟩
    else ⟨false, some (.list collected)⟩
  else ⟨true, some (act r.ntName collected)⟩

end BNF

/-- C1: when a complete rule (index `ri`) meets a `null` entry for follow
terminal `t`: with precedence on both sides the higher level wins — the
entry becomes a reduce if the rule level is higher and stays a shift if
lower; at equal levels `%left` installs the reduce, `%right` leaves the
shift, and `%nonassoc` deletes the entry so `t` is an error in that state;
when either side lacks precedence the shift/reduce counter is incremented
once and the conflict is resolved as a shift. -/
theorem c1_advance_conflict_resolution
    (ri : Nat) (rl fl : Nat) (ra fa : BNF.Assoc) :
    (rl > fl →
      BNF.advanceEntry .pending ri (some ⟨rl, ra⟩) (some ⟨fl, fa⟩)
        = ⟨.reduceBy ri, 0, 0, true⟩) ∧
    (rl < fl →
      BNF.advanceEntry .pending ri (some ⟨rl, ra⟩) (some ⟨fl, fa⟩) = ⟨.pending, 0, 0, false⟩ ∧
      BNF.resolveMsg (BNF.advanceEntry .pending ri (some ⟨rl, ra⟩) (some ⟨fl, fa⟩)).entry
        = .shift) ∧
    (rl = fl →
      BNF.advanceEntry .pending ri (some ⟨rl, .left⟩) (some ⟨fl, fa⟩)
        = ⟨.reduceBy ri, 0, 0, true⟩ ∧
      BNF.advanceEntry .pending ri (some ⟨rl, .right⟩) (some ⟨fl, fa⟩)
        = ⟨.pending, 0, 0, false⟩ ∧
      BNF.resolveMsg (BNF.advanceEntry .pending ri (some ⟨rl, .right⟩)
        (some ⟨fl, fa⟩)).entry = .shift ∧
      BNF.advanceEntry .pending ri (some ⟨rl, .nonassoc⟩) (some ⟨fl, fa⟩)
        = ⟨.vacant, 0, 0, true⟩ ∧
      BNF.resolveMsg (BNF.advanceEntry .pending ri (some ⟨rl, .nonassoc⟩)
        (some ⟨fl, fa⟩)).entry = .errorOut) ∧
    (∀ (rp fp : Option BNF.Prec), rp = none ∨ fp = none →
      BNF.advanceEntry .pending ri rp fp = ⟨.pending, 1, 0, false⟩ ∧
      BNF.resolveMsg (BNF.advanceEntry .pending ri rp fp).entry = .shift) := by
  refine ⟨?_, ?_, ?_, ?_⟩
  · intro hgt
    simp [BNF.advanceEntry, hgt]
  · intro hlt
    constructor <;> simp [BNF.advanceEntry, BNF.resolveMsg, hlt, Nat.not_lt.mpr (Nat.le_of_lt hlt)]
  · intro heq
    subst heq
    refine ⟨?_, ?_, ?_, ?_, ?_⟩ <;> simp [BNF.advanceEntry, BNF.resolveMsg]
  · intro rp fp hnone
    cases rp with
    | none => exact ⟨rfl, rfl⟩
    | some p =>
        cases fp with
        | none => exact ⟨rfl, rfl⟩
        | some q => rcases hnone with hn | hn <;> exact absurd hn (by simp)

/-- Witness for C1 at concrete precedence levels and associativities. -/
theorem c1_advance_conflict_resolution_witness :
    BNF.advanceEntry .pending 4 (some ⟨2, .left⟩) (some ⟨1, .left⟩)
      = ⟨.reduceBy 4, 0, 0, true⟩ ∧
    BNF.advanceEntry .pending 4 (some ⟨1, .left⟩) (some ⟨1, .left⟩)
      = ⟨.reduceBy 4, 0, 0, true⟩ ∧
    BNF.advanceEntry .pending 4 none (some ⟨1, .left⟩) = ⟨.pending, 1, 0, false⟩ := by
  refine ⟨?_, ?_, ?_⟩
  · exact (c1_advance_conflict_resolution 4 2 1 .left .left).1 (by omega)
  · exact ((c1_advance_conflict_resolution 4 1 1 .left .left).2.2.1 rfl).1
  · exact ((c1_advance_conflict_resolution 4 0 1 .left .left).2.2.2 none (some ⟨1, .left⟩)
      (Or.inl rfl)).1

/-- C10: on a reduce of a rule whose left-hand-side name starts with the
configured `uniq` name prefix, in a grammar created by `Grammar.fromEBNF`,
the user actions object is never consulted (whatever `act` would return): a
two-symbol rule whose first symbol is the rule's own non-terminal replaces
the first collected value by its elements, an empty rule yields `null`, and
every other such rule yields the plain collected value list. -/
theorem c10_uniq_rules_bypass_actions
    (uniq : String) (r : BNF.RRule) (collected : List BNF.Val)
    (act : String → List BNF.Val → BNF.Val)
    (hname : BNF.strStartsWith r.ntName uniq = true) :
    ((BNF.buildReduce true uniq r collected act).consulted = false) ∧
    (∀ (xs rest : List BNF.Val),
      r.symbols.length = 2 → r.symbols.head? = some (.nt r.ntIdx) →
      collected = .list xs :: rest →
      BNF.buildReduce true uniq r collected act
        = ⟨false, some (.list (xs ++ rest))⟩) ∧
    (r.symbols.length = 0 →
      BNF.buildReduce true uniq r collected act = ⟨false, some .nil⟩) ∧
    (¬ (r.symbols.length = 2 ∧ r.symbols.head? = some (.nt r.ntIdx)) →
      r.symbols.length ≠ 0 →
      BNF.buildReduce true uniq r collected act = ⟨false, some (.list collected)⟩) := by
  refine ⟨?_, ?_, ?_, ?_⟩
  · unfold BNF.buildReduce
    rw [if_pos ⟨rfl, hname⟩]
    split
    · split <;> rfl
    · split <;> rfl
  · intro xs rest hlen hhead hcoll
    subst hcoll
    unfold BNF.buildReduce
    rw [if_pos ⟨rfl, hname⟩, if_pos ⟨hlen, hhead⟩]
  · intro hlen
    unfold BNF.buildReduce
    rw [if_pos ⟨rfl, hname⟩, if_neg (by simp [hlen]), if_pos hlen]
  · intro hnot hne
    unfold BNF.buildReduce
    rw [if_pos ⟨rfl, hname⟩, if_neg hnot, if_neg hne]

/-- Witness for C10: the flattening rule `U2 → U2 U1` of an iteration,
with an actions object that does define a method of the rule name. -/
theorem c10_uniq_rules_bypass_actions_witness :
    BNF.buildReduce true "$-" ⟨3, "$-3", [.nt 3, .nt 4]⟩
      [.list [.str "a"], .str "b"] (fun _ _ => .str "consulted")
      = ⟨false, some (.list [.str "a", .str "b"])⟩ := by
  exact (c10_uniq_rules_bypass_actions "$-" ⟨3, "$-3", [.nt 3, .nt 4]⟩
    [.list [.str "a"], .str "b"] (fun _ _ => .str "consulted") (by decide)).2.1
    [.str "a"] [.str "b"] rfl rfl rfl

namespace Six

/-! ### Stack virtual machine (06.js `Machine10`, `Machine11`)

Source: 06.js lines 370-420 (`Machine10` micro-operations) and lines
485-560 (`Machine11`: `run`, `Branch`, `Bzero`, comparison operations,
`Print`).  The data memory is a JavaScript array holding numbers (here
`Int`; the verified program stays integral), with a `pc` property and,
after a run, a `continue` property.  Host output through the `puts` hook
is collected in an output list. -/

/-- The instructions used by the chapter 6 examples that operate on
integer memory slots.  Each constructor corresponds to one generator
method of `Machine10`/`Machine11`. -/
inductive Ins where
  | Add
  | Subtract
  | Multiply
  | Minus
  | Pop
  | Push (k : Int)
  | Puts
  | Print (n : Nat)
  | Branch (a : Nat)
  | Bzero (a : Nat)
  | Load (a : Nat)
  | Store (a : Nat)
deriving Repr, DecidableEq

/-- Data memory: the slot array, the program counter and the `continue`
flag (absent before the first run; modelled as initially `false`). -/
structure Mem where
  data : List Int
  pc : Nat
  cont : Bool
deriving Repr, DecidableEq

/-- `memory.splice(-2, 2, f(memory.at(-2), memory.at(-1)))` for a binary
micro-operation (modelled for stacks with at least two entries, the only
case the compiled programs produce). -/
def splice2 (f : Int → Int → Int) (d : List Int) : List Int :=
  d.dropLast.dropLast ++ [f (d.getD (d.length - 2) 0) (d.getD (d.length - 1) 0)]

/-- Start index of `memory.splice(-n)`: JavaScript clamps `len - n` at 0,
and `-0` is plain index 0 (so `Print 0` removes the whole stack). -/
def spliceStart (n len : Nat) : Nat := if n = 0 then 0 else len - n

/-- One micro-operation on memory; returns the updated memory and the
values passed to the `puts` host hook. -/
def exec (i : Ins) (m : Mem) : Mem × List Int :=
  match i with
  | .Add => ({ m with data := splice2 (· + ·) m.data }, [])
  | .Subtract => ({ m with data := splice2 (· - ·) m.data }, [])
  | .Multiply => ({ m with data := splice2 (· * ·) m.data }, [])
  | .Minus => ({ m with data := m.data.dropLast ++ [-(m.data.getD (m.data.length - 1) 0)] }, [])
  | .Pop => ({ m with data := m.data.dropLast }, [])
  | .Push k => ({ m with data := m.data ++ [k] }, [])
  | .Puts => (m, [m.data.getD (m.data.length - 1) 0])
  | .Print n =>
      ({ m with data := m.data.take (spliceStart n m.data.length) },
       m.data.drop (spliceStart n m.data.length))
  | .Branch a => ({ m with pc := a }, [])
  | .Bzero a =>
      let v := m.data.getD (m.data.length - 1) 0
      ({ m with data := m.data.dropLast, pc := if v = 0 then a else m.pc }, [])
  | .Load a => ({ m with data := m.data ++ [m.data.getD a 0] }, [])
  | .Store a =>
      let v := m.data.getD (m.data.length - 1) 0
      ({ m with data := (m.data ++ List.replicate (a + 1 - m.data.length) 0).set a v }, [])

/-- `const pc = memory.pc ++; this.code[pc](memory);` — the program counter
advances before the instruction at the previous counter runs (callers
guarantee `pc < code.length`, as the `run` loop does). -/
def stepAt (code : List Ins) (m : Mem) : Mem × List Int :=
  exec (code.getD m.pc .Pop) { m with pc := m.pc + 1 }

/-- One loop iteration threading the collected output. -/
def stepOut (code : List Ins) (s : Mem × List Int) : Mem × List Int :=
  let (m, o) := stepAt code s.1
  (m, s.2 ++ o)

/-- `while (steps -- && memory.pc < this.code.length) …` with a finite
`steps` budget. -/
def loop (code : List Ins) : Nat → Mem × List Int → Mem × List Int
  | 0, s => s
  | n + 1, s => if s.1.pc < code.length then loop code n (stepOut code s) else s

/-- `memory.continue = memory.pc < this.code.length;` after the loop. -/
def finish (code : List Ins) (m : Mem) : Mem :=
  { m with cont := decide (m.pc < code.length) }

/-- `memory = new this.Memory(size).fill(0); memory.pc = startAddr;` -/
def initMem (size startAddr : Nat) : Mem :=
  ⟨List.replicate size 0, startAddr, false⟩

/-- Big-step semantics of the `run` loop with `steps = Infinity` (the
no-budget invocation): iterate `stepOut` until the program counter leaves
the code. -/
inductive Runs (code : List Ins) : Mem × List Int → Mem × List Int → Prop where
  | done (s : Mem × List Int) : ¬ s.1.pc < code.length → Runs code s s
  | more (s t : Mem × List Int) : s.1.pc < code.length →
      Runs code (stepOut code s) t → Runs code s t

/-- A finite-budget run that ends outside the code is a complete run. -/
theorem loop_runs (code : List Ins) :
    ∀ (n : Nat) (s : Mem × List Int), ¬ (loop code n s).1.pc < code.length →
      Runs code s (loop code n s) := by
  intro n
  induction n with
  | zero => intro s h; exact Runs.done s h
  | succ k ih =>
      intro s h
      by_cases hc : s.1.pc < code.length
      · rw [loop, if_pos hc] at h ⊢
        exact Runs.more s _ hc (ih (stepOut code s) h)
      · rw [loop, if_neg hc] at h ⊢
        exact Runs.done s hc

end Six

/-- C8: for the program `Push 3; Push 4; Add; Print 1; Pop;`, the executable
returned by `run(0)` (memory size 0, start address 0), invoked without a step
budget, runs to completion printing `7` and leaves `continue = false`; invoked
with a null memory and `steps = 2` it halts after the second `Push` with
memory contents `[3, 4]`, program counter 2, nothing printed, and the
`continue` flag set to `true`. -/
theorem c8_vm_push_add_print :
    (Six.Runs [.Push 3, .Push 4, .Add, .Print 1, .Pop]
      (Six.initMem 0 0, []) (⟨[], 5, false⟩, [7])) ∧
    (Six.finish [.Push 3, .Push 4, .Add, .Print 1, .Pop] ⟨[], 5, false⟩).cont = false ∧
    Six.loop [.Push 3, .Push 4, .Add, .Print 1, .Pop] 2 (Six.initMem 0 0, [])
      = (⟨[3, 4], 2, false⟩, []) ∧
    (Six.finish [.Push 3, .Push 4, .Add, .Print 1, .Pop] ⟨[3, 4], 2, false⟩).cont = true := by
  refine ⟨?_, by decide, by decide, by decide⟩
  have h : Six.loop [.Push 3, .Push 4, .Add, .Print 1, .Pop] 5 (Six.initMem 0 0, [])
      = (⟨[], 5, false⟩, [7]) := by decide
  have h2 := Six.loop_runs [.Push 3, .Push 4, .Add, .Print 1, .Pop] 5
    (Six.initMem 0 0, []) (by rw [h]; decide)
  rw [h] at h2
  exact h2


namespace EBNF

/-! ### EBNF grammar trees (ebnf.js)

The tree mirrors the node classes of ebnf.js: `Lit`/`Token`/`NT` leaves,
`Opt` and `Some` (each an `Alt` of `Seq` alternatives), `Seq` with an
optional `%prec` terminal, and `Alt`.  The mutable per-node analysis state
(`#expect` as a key set, `#follow` null until first set) is carried inline
in the constructors; terminals have constant `expect = {name}` and their
(write-only, never read) follow field is omitted.  A `Rule` is its `Alt`
together with the `recursed` counter and `reached` flag; the grammar keeps
the rules in creation order and `NT.rule` is the last rule created for a
name. -/

mutual
inductive ESym : Type where
  | lit (name : String)
  | tok (name : String)
  | ref (name : String)
  | opt (a : EAlt)
  | someN (a : EAlt)
inductive ESeq : Type where
  | mk (nodes : List ESym) (term : Option String) (expect : Finset String)
      (follow : Option (Finset String))
inductive EAlt : Type where
  | mk (seqs : List ESeq) (expect : Finset String) (follow : Option (Finset String))
end

/-- Alternatives of an `Alt`. -/
def EAlt.seqs : EAlt → List ESeq
  | .mk s _ _ => s

/-- Stored `#expect` of an `Alt` (also the expect of the rule owning it). -/
def EAlt.expect : EAlt → Finset String
  | .mk _ e _ => e

/-- Stored `#follow` of an `Alt` (`none` models `null`). -/
def EAlt.follow : EAlt → Option (Finset String)
  | .mk _ _ f => f

/-- Nodes of a `Seq`. -/
def ESeq.nodes : ESeq → List ESym
  | .mk n _ _ _ => n

/-- Optional `%prec` terminal of a `Seq`. -/
def ESeq.term : ESeq → Option String
  | .mk _ t _ _ => t

/-- Stored `#expect` of a `Seq`. -/
def ESeq.expect : ESeq → Finset String
  | .mk _ _ e _ => e

/-- Stored `#follow` of a `Seq`. -/
def ESeq.follow : ESeq → Option (Finset String)
  | .mk _ _ _ f => f

/-- `node instanceof Opt`. -/
def ESym.isOpt : ESym → Bool
  | .opt _ => true
  | _ => false

/-- An EBNF rule: owning non-terminal name, and the `Alt` (a `Rule` is an
`Alt`, so `rule.expect`/`rule.follow` are the fields of `alt`), with the
`recursed` nesting counter and `reached` flag. -/
structure ERule where
  nt : String
  alt : EAlt
  recursed : Nat
  reached : Bool

/-- The grammar state for analysis: the rules in creation order, all
created non-terminal names, the number of precedence levels, and the
error counter. -/
structure EGrammar where
  rules : List ERule
  nts : List String
  levels : Nat
  errors : Nat

/-- Index of the rule a non-terminal delegates to: the rule factory
overwrites `nt.rule`, so a name refers to the last rule created for it. -/
def ruleIdx (rules : List ERule) (name : String) : Option Nat :=
  match rules.reverse.findIdx? (fun r => r.nt = name) with
  | some k => some (rules.length - 1 - k)
  | none => none

/-- Replace rule `i`. -/
def setRule (g : EGrammar) (i : Nat) (r : ERule) : EGrammar :=
  { g with rules := g.rules.set i r }

/-- Bump the `recursed` counter of rule `i` by one (a re-entered shallow
computation leaks one count permanently). -/
def bumpRecursed (g : EGrammar) (i : Nat) : EGrammar :=
  match g.rules.get? i with
  | some r => setRule g i { r with recursed := r.recursed + 1 }
  | none => g

end EBNF
namespace EBNF

/-! ### Shallow pass (left-to-right first-of; ebnf.js `shallow` methods)

State threading is exact for the JavaScript object mutations: a shallow
computation of a rule can only touch the trees of rules it completes
(committed on return) and the `recursed` counters (committed immediately);
a re-entered rule returns before touching its tree.  All functions carry
fuel (the source recursion terminates because a re-entered rule aborts);
`none` models a thrown error or exhausted fuel. -/

mutual

/-- `node.shallow()` getter for a `Seq` child. -/
def symShallow : Nat → EGrammar → ESym → Option (Finset String × ESym × EGrammar)
  | 0, _, _ => none
  | fuel + 1, g, s =>
    match s with
    | .lit name => some ({name}, .lit name, g)
    | .tok name => some ({name}, .tok name, g)
    | .ref name =>
        match ruleShallowName fuel g name with
        | none => none
        | some (e, g1) => some (e, .ref name, g1)
    | .opt a =>
        match altShallowGet fuel g a with
        | none => none
        | some (e, a1, g1) => some (e, .opt a1, g1)
    | .someN a =>
        match altShallowGet fuel g a with
        | none => none
        | some (e, a1, g1) => some (e, .someN a1, g1)

/-- The `nodes.some(…)` left-to-right accumulation of `Seq.shallow`:
returns the accumulated set, the updated nodes, and whether a
non-optional child stopped the walk. -/
def seqNodesShallow : Nat → EGrammar → List ESym →
    Option (Finset String × List ESym × EGrammar × Bool)
  | 0, _, _ => none
  | fuel + 1, g, ns =>
    match ns with
    | [] => some (∅, [], g, false)
    | n :: rest =>
        match symShallow fuel g n with
        | none => none
        | some (s, n1, g1) =>
            if n.isOpt then
              match seqNodesShallow fuel g1 rest with
              | none => none
              | some (s2, rest1, g2, stopped) => some (s ∪ s2, n1 :: rest1, g2, stopped)
            else some (s, n1 :: rest, g1, true)

/-- `Seq.shallow()` getter: an already computed (non-empty) set is
returned unchanged; otherwise the children are accumulated up to the
first non-optional one, and a sequence of only optional children throws
(`none`). -/
def seqShallowGet : Nat → EGrammar → ESeq → Option (Finset String × ESeq × EGrammar)
  | 0, _, _ => none
  | fuel + 1, g, sq =>
    if sq.expect ≠ ∅ then some (sq.expect, sq, g)
    else
      match seqNodesShallow fuel g sq.nodes with
      | none => none
      | some (acc, nodes1, g1, stopped) =>
          if stopped then
            some (sq.expect ∪ acc, ⟨nodes1, sq.term, sq.expect ∪ acc, sq.follow⟩, g1)
          else none

/-- The `seqs.reduce(…)` of `Alt.shallow`: union over all alternatives. -/
def seqsShallow : Nat → EGrammar → List ESeq →
    Option (Finset String × List ESeq × EGrammar)
  | 0, _, _ => none
  | fuel + 1, g, sqs =>
    match sqs with
    | [] => some (∅, [], g)
    | sq :: rest =>
        match seqShallowGet fuel g sq with
        | none => none
        | some (e, sq1, g1) =>
            match seqsShallow fuel g1 rest with
            | none => none
            | some (u, rest1, g2) => some (e ∪ u, sq1 :: rest1, g2)

/-- `Alt.shallow()` getter: return the stored set if non-empty, else
compute the union over the alternatives and store it. -/
def altShallowGet : Nat → EGrammar → EAlt → Option (Finset String × EAlt × EGrammar)
  | 0, _, _ => none
  | fuel + 1, g, a =>
    if a.expect ≠ ∅ then some (a.expect, a, g)
    else
      match seqsShallow fuel g a.seqs with
      | none => none
      | some (u, seqs1, g1) =>
          some (a.expect ∪ u, ⟨seqs1, a.expect ∪ u, a.follow⟩, g1)

/-- `Rule.shallow()` getter: a re-entered rule (`recursed ≠ 0`) leaks one
count and returns the empty set; otherwise the counter is raised, the
`Alt` getter runs, the updated tree is committed and the counter lowered
again (`finally`). -/
def ruleShallowIdx : Nat → EGrammar → Nat → Option (Finset String × EGrammar)
  | 0, _, _ => none
  | fuel + 1, g, i =>
    match g.rules.get? i with
    | none => none
    | some r =>
        if r.recursed ≠ 0 then some (∅, bumpRecursed g i)
        else
          match altShallowGet fuel (setRule g i { r with recursed := 1 }) r.alt with
          | none => none
          | some (e, alt1, g2) =>
              match g2.rules.get? i with
              | none => none
              | some r2 =>
                  some (e, setRule g2 i
                    { nt := r.nt, alt := alt1, recursed := r2.recursed - 1,
                      reached := r2.reached })

/-- `NT.shallow()` getter: delegate to the referenced rule; an undefined
non-terminal throws (`none`). -/
def ruleShallowName : Nat → EGrammar → String → Option (Finset String × EGrammar)
  | 0, _, _ => none
  | fuel + 1, g, name =>
    match ruleIdx g.rules name with
    | none => none
    | some i => ruleShallowIdx fuel g i

end

/-- `this.rules.forEach(rule => rule.shallow())` from index `k` on. -/
def shallowPass : Nat → EGrammar → Nat → Option EGrammar
  | 0, _, _ => none
  | fuel + 1, g, k =>
    if k < g.rules.length then
      match ruleShallowIdx fuel g k with
      | none => none
      | some (_, g1) => shallowPass fuel g1 (k + 1)
    else some g

/-! ### Deep pass (right-to-left, propagates through `Opt`) -/

mutual

/-- `node.deep()` for a `Seq` child. -/
def symDeep : Nat → EGrammar → ESym → Option (Finset String × ESym × EGrammar)
  | 0, _, _ => none
  | fuel + 1, g, s =>
    match s with
    | .lit name => some ({name}, .lit name, g)
    | .tok name => some ({name}, .tok name, g)
    | .ref name =>
        match ruleDeepName fuel g name with
        | none => none
        | some (e, g1) => some (e, .ref name, g1)
    | .opt a =>
        match altDeep fuel g a with
        | none => none
        | some (e, a1, g1) => some (e, .opt a1, g1)
    | .someN a =>
        match altDeep fuel g a with
        | none => none
        | some (e, a1, g1) => some (e, .someN a1, g1)

/-- The `reduceRight` of `Seq.deep`: every child is visited from the
right; the running set is merged into it for optional children and
replaced by it otherwise.  Returns the set reaching the left end. -/
def seqNodesDeep : Nat → EGrammar → List ESym →
    Option (Finset String × List ESym × EGrammar)
  | 0, _, _ => none
  | fuel + 1, g, ns =>
    match ns with
    | [] => some (∅, [], g)
    | n :: rest =>
        match seqNodesDeep fuel g rest with
        | none => none
        | some (accR, rest1, g1) =>
            match symDeep fuel g1 n with
            | none => none
            | some (s, n1, g2) =>
                some (if n.isOpt then accR ∪ s else s, n1 :: rest1, g2)

/-- `Seq.deep()`: recompute from the right and merge into the stored set
(the setter imports); returns the full updated set. -/
def seqDeep : Nat → EGrammar → ESeq → Option (Finset String × ESeq × EGrammar)
  | 0, _, _ => none
  | fuel + 1, g, sq =>
    match seqNodesDeep fuel g sq.nodes with
    | none => none
    | some (acc, nodes1, g1) =>
        some (sq.expect ∪ acc, ⟨nodes1, sq.term, sq.expect ∪ acc, sq.follow⟩, g1)

/-- The `seqs.reduce(…)` of `Alt.deep`. -/
def seqsDeep : Nat → EGrammar → List ESeq →
    Option (Finset String × List ESeq × EGrammar)
  | 0, _, _ => none
  | fuel + 1, g, sqs =>
    match sqs with
    | [] => some (∅, [], g)
    | sq :: rest =>
        match seqDeep fuel g sq with
        | none => none
        | some (e, sq1, g1) =>
            match seqsDeep fuel g1 rest with
            | none => none
            | some (u, rest1, g2) => some (e ∪ u, sq1 :: rest1, g2)

/-- `Alt.deep()`: union over all alternatives, merged into the stored
set. -/
def altDeep : Nat → EGrammar → EAlt → Option (Finset String × EAlt × EGrammar)
  | 0, _, _ => none
  | fuel + 1, g, a =>
    match seqsDeep fuel g a.seqs with
    | none => none
    | some (u, seqs1, g1) =>
        some (a.expect ∪ u, ⟨seqs1, a.expect ∪ u, a.follow⟩, g1)

/-- `Rule.deep()`: a rule already reached returns the `Alt` getter (the
identity once the expect set is non-empty); otherwise it is marked
reached first and the `Alt` recomputed. -/
def ruleDeepIdx : Nat → EGrammar → Nat → Option (Finset String × EGrammar)
  | 0, _, _ => none
  | fuel + 1, g, i =>
    match g.rules.get? i with
    | none => none
    | some r =>
        if r.reached then
          match altShallowGet fuel g r.alt with
          | none => none
          | some (e, alt1, g1) => some (e, setRule g1 i { r with alt := alt1 })
        else
          match altDeep fuel (setRule g i { r with reached := true }) r.alt with
          | none => none
          | some (e, alt1, g2) =>
              match g2.rules.get? i with
              | none => none
              | some r2 =>
                  some (e, setRule g2 i
                    { nt := r.nt, alt := alt1, recursed := r2.recursed,
                      reached := r2.reached })

/-- `NT.deep()`: delegate to the referenced rule. -/
def ruleDeepName : Nat → EGrammar → String → Option (Finset String × EGrammar)
  | 0, _, _ => none
  | fuel + 1, g, name =>
    match ruleIdx g.rules name with
    | none => none
    | some i => ruleDeepIdx fuel g i

end

/-- `error()`: count and return the message. -/
def gErr (g : EGrammar) (msg : String) : Option String × EGrammar :=
  (some msg, { g with errors := g.errors + 1 })

/-- `Grammar.expect()` (ebnf.js lines 1011-1045): guards (already called,
precedences present, duplicate or undefined non-terminals — an empty rule
list throws on `rules[0].expect`), then the shallow pass over all rules
with the left-recursion check on the leaked `recursed` counters, then the
deep pass from rule zero with the reachability check.  Returns the error
message (if any) and the final state; `none` models a thrown error. -/
def grammarExpect (fuel : Nat) (g : EGrammar) : Option (Option String × EGrammar) :=
  match g.rules.get? 0 with
  | none => none
  | some r0 =>
    if r0.alt.expect ≠ ∅ then some (gErr g "expect(): already called")
    else if g.levels ≠ 0 then some (gErr g "check(): no precedences for recursive descent")
    else if g.rules.length > g.nts.length then
      some (gErr g "expect(): duplicate rule definition(s)")
    else if g.rules.length < g.nts.length then some (gErr g "expect(): undefined")
    else
      match shallowPass fuel g 0 with
      | none => none
      | some g1 =>
          if g1.rules.any (fun r => r.recursed != 0) then
            some (gErr g1 "expect(): left recursive")
          else
            match ruleDeepIdx fuel g1 0 with
            | none => none
            | some (_, g2) =>
                if g2.rules.any (fun r => !r.reached) then
                  some (gErr g2 "expect(): not reached")
                else some (none, g2)

end EBNF
namespace EBNF

/-! ### State observations and orderings -/

/-- Rule record at an index. -/
def ruleAt (g : EGrammar) (j : Nat) : Option ERule :=
  g.rules.get? j

/-- The `recursed` counter of rule `j` (0 past the end). -/
def recAt (g : EGrammar) (j : Nat) : Nat :=
  ((ruleAt g j).map ERule.recursed).getD 0

/-- The stored expect set of rule `j` (empty past the end). -/
def expAt (g : EGrammar) (j : Nat) : Finset String :=
  ((ruleAt g j).map (fun r => r.alt.expect)).getD ∅

/-- The `reached` flag of rule `j`. -/
def reachAt (g : EGrammar) (j : Nat) : Bool :=
  ((ruleAt g j).map ERule.reached).getD false

/-- Rule count, non-terminal list, level count and error counter agree. -/
def StEq (g g1 : EGrammar) : Prop :=
  g1.rules.length = g.rules.length ∧ g1.nts = g.nts ∧ g1.levels = g.levels ∧
    g1.errors = g.errors

/-- No `recursed` counter decreases. -/
def Mono (g g1 : EGrammar) : Prop :=
  ∀ j, recAt g j ≤ recAt g1 j

/-- Some `recursed` counter strictly increases (a left-recursion abort leaked). -/
def Leak (g g1 : EGrammar) : Prop :=
  ∃ j, recAt g j < recAt g1 j

/-- All `recursed` counters agree. -/
def CntEq (g g1 : EGrammar) : Prop :=
  ∀ j, recAt g1 j = recAt g j

/-- Rule expect sets only grow. -/
def ExpMono (g g1 : EGrammar) : Prop :=
  ∀ j, expAt g j ⊆ expAt g1 j

/-- `reached` flags agree. -/
def ReachEq (g g1 : EGrammar) : Prop :=
  ∀ j, reachAt g1 j = reachAt g j

/-- `reached` flags only turn on. -/
def ReachMono (g g1 : EGrammar) : Prop :=
  ∀ j, reachAt g j = true → reachAt g1 j = true

/-- Every rule's expect set is non-empty. -/
def AllNE (g : EGrammar) : Prop :=
  ∀ r ∈ g.rules, r.alt.expect ≠ ∅

theorem stEq_refl (g : EGrammar) : StEq g g := ⟨rfl, rfl, rfl, rfl⟩

theorem stEq_trans {g g1 g2 : EGrammar} (h : StEq g g1) (h2 : StEq g1 g2) : StEq g g2 :=
  ⟨h2.1.trans h.1, h2.2.1.trans h.2.1, h2.2.2.1.trans h.2.2.1, h2.2.2.2.trans h.2.2.2⟩

theorem mono_refl (g : EGrammar) : Mono g g := fun _ => le_refl _

theorem mono_trans {g g1 g2 : EGrammar} (h : Mono g g1) (h2 : Mono g1 g2) : Mono g g2 :=
  fun j => le_trans (h j) (h2 j)

theorem Leak.trans_mono {g g1 g2 : EGrammar} (h : Leak g g1) (h2 : Mono g1 g2) : Leak g g2 :=
  h.imp (fun j hj => lt_of_lt_of_le hj (h2 j))

theorem Mono.trans_leak {g g1 g2 : EGrammar} (h : Mono g g1) (h2 : Leak g1 g2) : Leak g g2 :=
  h2.imp (fun j hj => lt_of_le_of_lt (h j) hj)

theorem cntEq_refl (g : EGrammar) : CntEq g g := fun _ => rfl

theorem cntEq_trans {g g1 g2 : EGrammar} (h : CntEq g g1) (h2 : CntEq g1 g2) : CntEq g g2 :=
  fun j => (h2 j).trans (h j)

theorem expMono_refl (g : EGrammar) : ExpMono g g := fun _ => Finset.Subset.refl _

theorem expMono_trans {g g1 g2 : EGrammar} (h : ExpMono g g1) (h2 : ExpMono g1 g2) :
    ExpMono g g2 :=
  fun j => Finset.Subset.trans (h j) (h2 j)

theorem reachEq_refl (g : EGrammar) : ReachEq g g := fun _ => rfl

theorem reachEq_trans {g g1 g2 : EGrammar} (h : ReachEq g g1) (h2 : ReachEq g1 g2) :
    ReachEq g g2 :=
  fun j => (h2 j).trans (h j)

theorem reachMono_refl (g : EGrammar) : ReachMono g g := fun _ h => h

theorem reachMono_trans {g g1 g2 : EGrammar} (h : ReachMono g g1) (h2 : ReachMono g1 g2) :
    ReachMono g g2 :=
  fun j hj => h2 j (h j hj)

/-! ### setRule facts -/

theorem ruleAt_setRule_self {g : EGrammar} {i : Nat} (r : ERule) (h : i < g.rules.length) :
    ruleAt (setRule g i r) i = some r := by
  show (g.rules.set i r).get? i = some r
  rw [List.get?_eq_getElem?]
  simp [List.getElem?_set, h]

theorem ruleAt_setRule_ne {g : EGrammar} {i j : Nat} (r : ERule) (h : j ≠ i) :
    ruleAt (setRule g i r) j = ruleAt g j := by
  show (g.rules.set i r).get? j = g.rules.get? j
  rw [List.get?_eq_getElem?, List.get?_eq_getElem?, List.getElem?_set]
  simp [Ne.symm h]

theorem setRule_rules_length (g : EGrammar) (i : Nat) (r : ERule) :
    (setRule g i r).rules.length = g.rules.length :=
  List.length_set g.rules i r

theorem setRule_stEq (g : EGrammar) (i : Nat) (r : ERule) : StEq g (setRule g i r) :=
  ⟨setRule_rules_length g i r, rfl, rfl, rfl⟩

theorem list_set_same {α : Type} (l : List α) : ∀ (i : Nat) (a : α),
    l.get? i = some a → l.set i a = l := by
  induction l with
  | nil => intro i a h; cases h
  | cons x xs ih =>
      intro i a h
      cases i with
      | zero => cases h; rfl
      | succ n => show x :: xs.set n a = x :: xs; rw [ih n a h]

theorem setRule_same {g : EGrammar} {i : Nat} {r : ERule} (h : ruleAt g i = some r) :
    setRule g i r = g := by
  show { g with rules := g.rules.set i r } = g
  rw [list_set_same g.rules i r h]

theorem ruleAt_lt {g : EGrammar} {i : Nat} {r : ERule} (h : ruleAt g i = some r) :
    i < g.rules.length :=
  List.get?_eq_some.mp h |>.1

theorem ruleAt_mem {g : EGrammar} {i : Nat} {r : ERule} (h : ruleAt g i = some r) :
    r ∈ g.rules :=
  List.get?_mem h

theorem recAt_of_ruleAt {g : EGrammar} {i : Nat} {r : ERule} (h : ruleAt g i = some r) :
    recAt g i = r.recursed := by
  unfold recAt; rw [h]; rfl

theorem expAt_of_ruleAt {g : EGrammar} {i : Nat} {r : ERule} (h : ruleAt g i = some r) :
    expAt g i = r.alt.expect := by
  unfold expAt; rw [h]; rfl

theorem reachAt_of_ruleAt {g : EGrammar} {i : Nat} {r : ERule} (h : ruleAt g i = some r) :
    reachAt g i = r.reached := by
  unfold reachAt; rw [h]; rfl

theorem subset_ne_empty {s t : Finset String} (h : s ⊆ t) (h2 : s ≠ ∅) : t ≠ ∅ := by
  intro ht; subst ht; exact h2 (Finset.subset_empty.mp h)

/-! ### Tree well-formedness and expect invariants

`SymWF`:  the factory assertions of ebnf.js: `alt`/`opt`/`some`/`rule` require
at least one alternative (`assert(seqs.length)`).  `WkSym`: the stored
expect of each `Alt`-like node is covered by the union of its alternatives
(trivially true on freshly built trees, where all stored sets are empty).
`InvSym`: the stored expect of each `Alt`-like node is exactly the union
over its alternatives (established by the deep pass). -/

/-- Union of the stored expects of a list of alternatives. -/
def seqsUnion (sqs : List ESeq) : Finset String :=
  (sqs.map ESeq.expect).foldr (· ∪ ·) ∅

mutual
inductive SymWF : ESym → Prop where
  | lit (n : String) : SymWF (.lit n)
  | tok (n : String) : SymWF (.tok n)
  | ref (n : String) : SymWF (.ref n)
  | opt (a : EAlt) : AltWF a → SymWF (.opt a)
  | someN (a : EAlt) : AltWF a → SymWF (.someN a)
inductive SeqWF : ESeq → Prop where
  | mk (ns : List ESym) (t : Option String) (e : Finset String)
      (f : Option (Finset String)) :
      (∀ s ∈ ns, SymWF s) → SeqWF (.mk ns t e f)
inductive AltWF : EAlt → Prop where
  | mk (sqs : List ESeq) (e : Finset String) (f : Option (Finset String)) :
      sqs ≠ [] → (∀ sq ∈ sqs, SeqWF sq) → AltWF (.mk sqs e f)
end

mutual
inductive WkSym : ESym → Prop where
  | lit (n : String) : WkSym (.lit n)
  | tok (n : String) : WkSym (.tok n)
  | ref (n : String) : WkSym (.ref n)
  | opt (a : EAlt) : WkAlt a → WkSym (.opt a)
  | someN (a : EAlt) : WkAlt a → WkSym (.someN a)
inductive WkSeq : ESeq → Prop where
  | mk (ns : List ESym) (t : Option String) (e : Finset String)
      (f : Option (Finset String)) :
      (∀ s ∈ ns, WkSym s) → WkSeq (.mk ns t e f)
inductive WkAlt : EAlt → Prop where
  | mk (sqs : List ESeq) (e : Finset String) (f : Option (Finset String)) :
      e ⊆ seqsUnion sqs → (∀ sq ∈ sqs, WkSeq sq) → WkAlt (.mk sqs e f)
end

mutual
inductive InvSym : ESym → Prop where
  | lit (n : String) : InvSym (.lit n)
  | tok (n : String) : InvSym (.tok n)
  | ref (n : String) : InvSym (.ref n)
  | opt (a : EAlt) : InvAlt a → InvSym (.opt a)
  | someN (a : EAlt) : InvAlt a → InvSym (.someN a)
inductive InvSeq : ESeq → Prop where
  | mk (ns : List ESym) (t : Option String) (e : Finset String)
      (f : Option (Finset String)) :
      (∀ s ∈ ns, InvSym s) → InvSeq (.mk ns t e f)
inductive InvAlt : EAlt → Prop where
  | mk (sqs : List ESeq) (e : Finset String) (f : Option (Finset String)) :
      e = seqsUnion sqs → (∀ sq ∈ sqs, InvSeq sq) → InvAlt (.mk sqs e f)
end

/-- Every rule tree is factory-well-formed. -/
def GrammarWF (g : EGrammar) : Prop :=
  ∀ r ∈ g.rules, AltWF r.alt

/-- Every rule tree satisfies the weak covering invariant. -/
def WkG (g : EGrammar) : Prop :=
  ∀ r ∈ g.rules, WkAlt r.alt

/-- No rule is marked reached (true for freshly built grammars). -/
def FreshReach (g : EGrammar) : Prop :=
  ∀ r ∈ g.rules, r.reached = false

/-- The full expect invariant at rule `j`. -/
def InvAt (g : EGrammar) (j : Nat) : Prop :=
  ∀ r, ruleAt g j = some r → InvAlt r.alt

theorem WkAlt.expect_subset {a : EAlt} (h : WkAlt a) : a.expect ⊆ seqsUnion a.seqs := by
  cases h with
  | mk sqs e f hsub hall => exact hsub

theorem WkAlt.seqs_wk {a : EAlt} (h : WkAlt a) : ∀ sq ∈ a.seqs, WkSeq sq := by
  cases h with
  | mk sqs e f hsub hall => exact hall

theorem AltWF.seqs_ne {a : EAlt} (h : AltWF a) : a.seqs ≠ [] := by
  cases h with
  | mk sqs e f hne hall => exact hne

theorem AltWF.seqs_wf {a : EAlt} (h : AltWF a) : ∀ sq ∈ a.seqs, SeqWF sq := by
  cases h with
  | mk sqs e f hne hall => exact hall

theorem WkSeq.nodes_wk {sq : ESeq} (h : WkSeq sq) : ∀ s ∈ sq.nodes, WkSym s := by
  cases h with
  | mk ns t e f hall => exact hall

theorem SeqWF.nodes_wf {sq : ESeq} (h : SeqWF sq) : ∀ s ∈ sq.nodes, SymWF s := by
  cases h with
  | mk ns t e f hall => exact hall

theorem seqsUnion_cons (sq : ESeq) (rest : List ESeq) :
    seqsUnion (sq :: rest) = sq.expect ∪ seqsUnion rest := rfl

theorem seqsUnion_subset_of_forall₂ :
    ∀ {sqs sqs1 : List ESeq}, List.Forall₂ (fun a b => a.expect ⊆ b.expect) sqs sqs1 →
      seqsUnion sqs ⊆ seqsUnion sqs1 := by
  intro sqs sqs1 h
  induction h with
  | nil => exact Finset.Subset.refl _
  | cons hab _ ih =>
      rw [seqsUnion_cons, seqsUnion_cons]
      exact Finset.union_subset_union hab ih

theorem mem_seqsUnion {sq : ESeq} : ∀ {sqs : List ESeq}, sq ∈ sqs →
    sq.expect ⊆ seqsUnion sqs := by
  intro sqs h
  induction sqs with
  | nil => cases h
  | cons x rest ih =>
      rw [seqsUnion_cons]
      rcases List.mem_cons.mp h with rfl | hin
      · exact Finset.subset_union_left
      · exact Finset.Subset.trans (ih hin) Finset.subset_union_right

end EBNF
namespace EBNF

theorem grammarWF_setRule {g : EGrammar} {i : Nat} {r : ERule} (hwf : GrammarWF g)
    (h : AltWF r.alt) : GrammarWF (setRule g i r) := by
  intro r' hr'
  rcases List.mem_or_eq_of_mem_set hr' with h' | rfl
  · exact hwf r' h'
  · exact h

theorem wkG_setRule {g : EGrammar} {i : Nat} {r : ERule} (hwk : WkG g)
    (h : WkAlt r.alt) : WkG (setRule g i r) := by
  intro r' hr'
  rcases List.mem_or_eq_of_mem_set hr' with h' | rfl
  · exact hwk r' h'
  · exact h

theorem recAt_setRule_self {g : EGrammar} {i : Nat} (r : ERule) (h : i < g.rules.length) :
    recAt (setRule g i r) i = r.recursed := by
  unfold recAt; rw [ruleAt_setRule_self r h]; rfl

theorem recAt_setRule_ne {g : EGrammar} {i j : Nat} (r : ERule) (h : j ≠ i) :
    recAt (setRule g i r) j = recAt g j := by
  unfold recAt; rw [ruleAt_setRule_ne r h]

theorem expAt_setRule_self {g : EGrammar} {i : Nat} (r : ERule) (h : i < g.rules.length) :
    expAt (setRule g i r) i = r.alt.expect := by
  unfold expAt; rw [ruleAt_setRule_self r h]; rfl

theorem expAt_setRule_ne {g : EGrammar} {i j : Nat} (r : ERule) (h : j ≠ i) :
    expAt (setRule g i r) j = expAt g j := by
  unfold expAt; rw [ruleAt_setRule_ne r h]

theorem reachAt_setRule_self {g : EGrammar} {i : Nat} (r : ERule) (h : i < g.rules.length) :
    reachAt (setRule g i r) i = r.reached := by
  unfold reachAt; rw [ruleAt_setRule_self r h]; rfl

theorem reachAt_setRule_ne {g : EGrammar} {i j : Nat} (r : ERule) (h : j ≠ i) :
    reachAt (setRule g i r) j = reachAt g j := by
  unfold reachAt; rw [ruleAt_setRule_ne r h]

theorem bumpRecursed_eq {g : EGrammar} {i : Nat} {r : ERule} (h : ruleAt g i = some r) :
    bumpRecursed g i = setRule g i { r with recursed := r.recursed + 1 } := by
  unfold bumpRecursed
  rw [show g.rules.get? i = some r from h]

/-- Conclusions common to all shallow computations about the grammar state. -/
def ShOut (g g1 : EGrammar) : Prop :=
  StEq g g1 ∧ Mono g g1 ∧ ExpMono g g1 ∧ ReachEq g g1 ∧
    (GrammarWF g → GrammarWF g1) ∧ (WkG g → WkG g1)

theorem shOut_refl (g : EGrammar) : ShOut g g :=
  ⟨stEq_refl g, mono_refl g, expMono_refl g, reachEq_refl g, id, id⟩

theorem shOut_trans {g g1 g2 : EGrammar} (h : ShOut g g1) (h2 : ShOut g1 g2) : ShOut g g2 :=
  ⟨stEq_trans h.1 h2.1, mono_trans h.2.1 h2.2.1, expMono_trans h.2.2.1 h2.2.2.1, reachEq_trans h.2.2.2.1 h2.2.2.2.1,
    fun w => h2.2.2.2.2.1 (h.2.2.2.2.1 w), fun w => h2.2.2.2.2.2 (h.2.2.2.2.2 w)⟩

def ShSymP (fuel : Nat) : Prop :=
  ∀ g s e s1 g1, symShallow fuel g s = some (e, s1, g1) →
    ShOut g g1 ∧ (SymWF s → SymWF s1) ∧ (WkSym s → WkSym s1) ∧
      (GrammarWF g → SymWF s → (e ≠ ∅ ∨ Leak g g1))

def ShNodesP (fuel : Nat) : Prop :=
  ∀ g ns acc ns1 g1 stopped, seqNodesShallow fuel g ns = some (acc, ns1, g1, stopped) →
    ShOut g g1 ∧ ((∀ n ∈ ns, SymWF n) → ∀ n ∈ ns1, SymWF n) ∧
      ((∀ n ∈ ns, WkSym n) → ∀ n ∈ ns1, WkSym n) ∧
      (GrammarWF g → (∀ n ∈ ns, SymWF n) → stopped = true → (acc ≠ ∅ ∨ Leak g g1))

def ShSeqP (fuel : Nat) : Prop :=
  ∀ g sq e sq1 g1, seqShallowGet fuel g sq = some (e, sq1, g1) →
    ShOut g g1 ∧ (SeqWF sq → SeqWF sq1) ∧ (WkSeq sq → WkSeq sq1) ∧
      e = sq1.expect ∧ sq.expect ⊆ sq1.expect ∧
      (GrammarWF g → SeqWF sq → (e ≠ ∅ ∨ Leak g g1))

def ShSeqsP (fuel : Nat) : Prop :=
  ∀ g sqs u sqs1 g1, seqsShallow fuel g sqs = some (u, sqs1, g1) →
    ShOut g g1 ∧ ((∀ sq ∈ sqs, SeqWF sq) → ∀ sq ∈ sqs1, SeqWF sq) ∧
      ((∀ sq ∈ sqs, WkSeq sq) → ∀ sq ∈ sqs1, WkSeq sq) ∧
      u = seqsUnion sqs1 ∧ List.Forall₂ (fun a b => a.expect ⊆ b.expect) sqs sqs1 ∧
      (GrammarWF g → (∀ sq ∈ sqs, SeqWF sq) → sqs ≠ [] → (u ≠ ∅ ∨ Leak g g1))

def ShAltP (fuel : Nat) : Prop :=
  ∀ g a e a1 g1, altShallowGet fuel g a = some (e, a1, g1) →
    ShOut g g1 ∧ (AltWF a → AltWF a1) ∧ (WkAlt a → WkAlt a1) ∧
      e = a1.expect ∧ a.expect ⊆ a1.expect ∧
      (GrammarWF g → AltWF a → (e ≠ ∅ ∨ Leak g g1))

def ShRuleP (fuel : Nat) : Prop :=
  ∀ g i e g1, ruleShallowIdx fuel g i = some (e, g1) →
    ShOut g g1 ∧ (e ≠ ∅ → expAt g1 i = e) ∧ (GrammarWF g → (e ≠ ∅ ∨ Leak g g1))

def ShNameP (fuel : Nat) : Prop :=
  ∀ g n e g1, ruleShallowName fuel g n = some (e, g1) →
    ShOut g g1 ∧ (GrammarWF g → (e ≠ ∅ ∨ Leak g g1))

end EBNF
namespace EBNF

theorem shZero : ShSymP 0 ∧ ShNodesP 0 ∧ ShSeqP 0 ∧ ShSeqsP 0 ∧ ShAltP 0 ∧
    ShRuleP 0 ∧ ShNameP 0 := by
  refine ⟨?_, ?_, ?_, ?_, ?_, ?_, ?_⟩
  · intro g s e s1 g1 h; exact Option.noConfusion h
  · intro g ns acc ns1 g1 stopped h; exact Option.noConfusion h
  · intro g sq e sq1 g1 h; exact Option.noConfusion h
  · intro g sqs u sqs1 g1 h; exact Option.noConfusion h
  · intro g a e a1 g1 h; exact Option.noConfusion h
  · intro g i e g1 h; exact Option.noConfusion h
  · intro g n e g1 h; exact Option.noConfusion h

theorem shSym_step (fuel : Nat) (ihName : ShNameP fuel) (ihAlt : ShAltP fuel) :
    ShSymP (fuel + 1) := by
  intro g s e s1 g1 h
  cases s with
  | lit n =>
      simp only [symShallow, Option.some.injEq, Prod.mk.injEq] at h
      obtain ⟨rfl, rfl, rfl⟩ := h
      exact ⟨shOut_refl g, fun w => w, fun w => w,
        fun _ _ => Or.inl (Finset.singleton_ne_empty n)⟩
  | tok n =>
      simp only [symShallow, Option.some.injEq, Prod.mk.injEq] at h
      obtain ⟨rfl, rfl, rfl⟩ := h
      exact ⟨shOut_refl g, fun w => w, fun w => w,
        fun _ _ => Or.inl (Finset.singleton_ne_empty n)⟩
  | ref n =>
      simp only [symShallow] at h
      cases hm : ruleShallowName fuel g n with
      | none => rw [hm] at h; cases h
      | some pr =>
          obtain ⟨e2, g2⟩ := pr
          rw [hm] at h
          simp only [Option.some.injEq, Prod.mk.injEq] at h
          obtain ⟨rfl, rfl, rfl⟩ := h
          obtain ⟨hout, hleak⟩ := ihName g n e2 g2 hm
          exact ⟨hout, fun w => w, fun w => w, fun hwf _ => hleak hwf⟩
  | opt a =>
      simp only [symShallow] at h
      cases hm : altShallowGet fuel g a with
      | none => rw [hm] at h; cases h
      | some pr =>
          obtain ⟨e2, a2, g2⟩ := pr
          rw [hm] at h
          simp only [Option.some.injEq, Prod.mk.injEq] at h
          obtain ⟨rfl, rfl, rfl⟩ := h
          obtain ⟨hout, hwfA, hwkA, _, _, hleak⟩ := ihAlt g a e2 a2 g2 hm
          refine ⟨hout, ?_, ?_, ?_⟩
          · intro w; cases w with | opt _ ha => exact SymWF.opt _ (hwfA ha)
          · intro w; cases w with | opt _ ha => exact WkSym.opt _ (hwkA ha)
          · intro hwf hs; cases hs with | opt _ ha => exact hleak hwf ha
  | someN a =>
      simp only [symShallow] at h
      cases hm : altShallowGet fuel g a with
      | none => rw [hm] at h; cases h
      | some pr =>
          obtain ⟨e2, a2, g2⟩ := pr
          rw [hm] at h
          simp only [Option.some.injEq, Prod.mk.injEq] at h
          obtain ⟨rfl, rfl, rfl⟩ := h
          obtain ⟨hout, hwfA, hwkA, _, _, hleak⟩ := ihAlt g a e2 a2 g2 hm
          refine ⟨hout, ?_, ?_, ?_⟩
          · intro w; cases w with | someN _ ha => exact SymWF.someN _ (hwfA ha)
          · intro w; cases w with | someN _ ha => exact WkSym.someN _ (hwkA ha)
          · intro hwf hs; cases hs with | someN _ ha => exact hleak hwf ha

end EBNF
namespace EBNF

theorem shNodes_step (fuel : Nat) (ihSym : ShSymP fuel) (ihNodes : ShNodesP fuel) :
    ShNodesP (fuel + 1) := by
  intro g ns acc ns1 g1 stopped h
  cases ns with
  | nil =>
      simp only [seqNodesShallow, Option.some.injEq, Prod.mk.injEq] at h
      obtain ⟨rfl, rfl, rfl, rfl⟩ := h
      exact ⟨shOut_refl g, fun w => w, fun w => w, fun _ _ hst => by cases hst⟩
  | cons n rest =>
      simp only [seqNodesShallow] at h
      cases hm : symShallow fuel g n with
      | none => rw [hm] at h; cases h
      | some pr =>
          obtain ⟨s, n1, gA⟩ := pr
          rw [hm] at h
          obtain ⟨houtA, hwfS, hwkS, hleakS⟩ := ihSym g n s n1 gA hm
          cases hb : n.isOpt with
          | true =>
              rw [hb] at h
              simp only [if_true] at h
              cases hrec : seqNodesShallow fuel gA rest with
              | none => rw [hrec] at h; cases h
              | some pr2 =>
                  obtain ⟨s2, rest1, gB, st⟩ := pr2
                  rw [hrec] at h
                  simp only [Option.some.injEq, Prod.mk.injEq] at h
                  obtain ⟨rfl, rfl, rfl, rfl⟩ := h
                  obtain ⟨houtB, hwfL, hwkL, hleakL⟩ := ihNodes gA rest s2 rest1 gB st hrec
                  refine ⟨shOut_trans houtA houtB, ?_, ?_, ?_⟩
                  · intro hall m hm2
                    rcases List.mem_cons.mp hm2 with rfl | hin
                    · exact hwfS (hall n (List.mem_cons_self n rest))
                    · exact hwfL (fun x hx => hall x (List.mem_cons_of_mem n hx)) m hin
                  · intro hall m hm2
                    rcases List.mem_cons.mp hm2 with rfl | hin
                    · exact hwkS (hall n (List.mem_cons_self n rest))
                    · exact hwkL (fun x hx => hall x (List.mem_cons_of_mem n hx)) m hin
                  · intro hwf hall hst
                    rcases hleakL (houtA.2.2.2.2.1 hwf)
                        (fun x hx => hall x (List.mem_cons_of_mem n hx)) hst with hne | hlk
                    · refine Or.inl ?_
                      intro hemp
                      exact hne (Finset.union_eq_empty.mp hemp).2
                    · exact Or.inr (houtA.2.1.trans_leak hlk)
          | false =>
              rw [hb] at h
              simp only [if_false, Option.some.injEq, Prod.mk.injEq] at h
              obtain ⟨rfl, rfl, rfl, rfl⟩ := h
              refine ⟨houtA, ?_, ?_, ?_⟩
              · intro hall m hm2
                rcases List.mem_cons.mp hm2 with rfl | hin
                · exact hwfS (hall n (List.mem_cons_self n rest))
                · exact hall m (List.mem_cons_of_mem n hin)
              · intro hall m hm2
                rcases List.mem_cons.mp hm2 with rfl | hin
                · exact hwkS (hall n (List.mem_cons_self n rest))
                · exact hall m (List.mem_cons_of_mem n hin)
              · intro hwf hall _
                exact hleakS hwf (hall n (List.mem_cons_self n rest))

theorem shSeq_step (fuel : Nat) (ihNodes : ShNodesP fuel) : ShSeqP (fuel + 1) := by
  intro g sq e sq1 g1 h
  cases sq with
  | mk ns t ex f =>
      simp only [seqShallowGet] at h
      by_cases hne : ex ≠ ∅
      · rw [if_pos (show (ESeq.mk ns t ex f).expect ≠ ∅ from hne)] at h
        simp only [Option.some.injEq, Prod.mk.injEq] at h
        obtain ⟨rfl, rfl, rfl⟩ := h
        exact ⟨shOut_refl g, fun w => w, fun w => w, rfl, Finset.Subset.refl _,
          fun _ _ => Or.inl hne⟩
      · rw [if_neg (show ¬ (ESeq.mk ns t ex f).expect ≠ ∅ from hne)] at h
        cases hm : seqNodesShallow fuel g (ESeq.mk ns t ex f).nodes with
        | none => rw [hm] at h; cases h
        | some pr =>
            obtain ⟨acc, nodes1, gA, stopped⟩ := pr
            rw [hm] at h
            obtain ⟨houtA, hwfL, hwkL, hleakL⟩ := ihNodes g ns acc nodes1 gA stopped hm
            cases stopped with
            | false => simp only [if_false] at h; cases h
            | true =>
                simp only [if_true, Option.some.injEq, Prod.mk.injEq] at h
                obtain ⟨rfl, rfl, rfl⟩ := h
                refine ⟨houtA, ?_, ?_, rfl, Finset.subset_union_left, ?_⟩
                · intro w
                  exact SeqWF.mk _ _ _ _ (hwfL w.nodes_wf)
                · intro w
                  exact WkSeq.mk _ _ _ _ (hwkL w.nodes_wk)
                · intro hwf hsq
                  rcases hleakL hwf hsq.nodes_wf rfl with hne2 | hlk
                  · refine Or.inl ?_
                    intro hemp
                    exact hne2 (Finset.union_eq_empty.mp hemp).2
                  · exact Or.inr hlk

end EBNF
namespace EBNF

theorem shSeqs_step (fuel : Nat) (ihSeq : ShSeqP fuel) (ihSeqs : ShSeqsP fuel) :
    ShSeqsP (fuel + 1) := by
  intro g sqs u sqs1 g1 h
  cases sqs with
  | nil =>
      simp only [seqsShallow, Option.some.injEq, Prod.mk.injEq] at h
      obtain ⟨rfl, rfl, rfl⟩ := h
      exact ⟨shOut_refl g, fun w => w, fun w => w, rfl, List.Forall₂.nil,
        fun _ _ hne => absurd rfl hne⟩
  | cons sq rest =>
      simp only [seqsShallow] at h
      cases hm : seqShallowGet fuel g sq with
      | none => rw [hm] at h; cases h
      | some pr =>
          obtain ⟨e, sq1, gA⟩ := pr
          rw [hm] at h
          dsimp only at h
          cases hrec : seqsShallow fuel gA rest with
          | none => rw [hrec] at h; cases h
          | some pr2 =>
              obtain ⟨u2, rest1, gB⟩ := pr2
              rw [hrec] at h
              simp only [Option.some.injEq, Prod.mk.injEq] at h
              obtain ⟨rfl, rfl, rfl⟩ := h
              obtain ⟨houtA, hwfS, hwkS, heq, hsub, hleakS⟩ := ihSeq g sq e sq1 gA hm
              obtain ⟨houtB, hwfL, hwkL, hu, hf2, _⟩ := ihSeqs gA rest u2 rest1 gB hrec
              refine ⟨shOut_trans houtA houtB, ?_, ?_, ?_, ?_, ?_⟩
              · intro hall m hm2
                rcases List.mem_cons.mp hm2 with rfl | hin
                · exact hwfS (hall sq (List.mem_cons_self sq rest))
                · exact hwfL (fun x hx => hall x (List.mem_cons_of_mem sq hx)) m hin
              · intro hall m hm2
                rcases List.mem_cons.mp hm2 with rfl | hin
                · exact hwkS (hall sq (List.mem_cons_self sq rest))
                · exact hwkL (fun x hx => hall x (List.mem_cons_of_mem sq hx)) m hin
              · rw [seqsUnion_cons, heq, hu]
              · exact List.Forall₂.cons hsub hf2
              · intro hwf hall _
                rcases hleakS hwf (hall sq (List.mem_cons_self sq rest)) with hne | hlk
                · refine Or.inl ?_
                  intro hemp
                  exact hne (Finset.union_eq_empty.mp hemp).1
                · exact Or.inr (hlk.trans_mono houtB.2.1)

theorem shAlt_step (fuel : Nat) (ihSeqs : ShSeqsP fuel) : ShAltP (fuel + 1) := by
  intro g a e a1 g1 h
  cases a with
  | mk sqs ex f =>
      simp only [altShallowGet] at h
      by_cases hne : ex ≠ ∅
      · rw [if_pos (show (EAlt.mk sqs ex f).expect ≠ ∅ from hne)] at h
        simp only [Option.some.injEq, Prod.mk.injEq] at h
        obtain ⟨rfl, rfl, rfl⟩ := h
        exact ⟨shOut_refl g, fun w => w, fun w => w, rfl, Finset.Subset.refl _,
          fun _ _ => Or.inl hne⟩
      · rw [if_neg (show ¬ (EAlt.mk sqs ex f).expect ≠ ∅ from hne)] at h
        cases hm : seqsShallow fuel g (EAlt.mk sqs ex f).seqs with
        | none => rw [hm] at h; cases h
        | some pr =>
            obtain ⟨u, seqs1, gA⟩ := pr
            rw [hm] at h
            simp only [Option.some.injEq, Prod.mk.injEq] at h
            obtain ⟨rfl, rfl, rfl⟩ := h
            obtain ⟨houtA, hwfL, hwkL, hu, hf2, hleakL⟩ := ihSeqs g sqs u seqs1 gA hm
            subst hu
            refine ⟨houtA, ?_, ?_, rfl, Finset.subset_union_left, ?_⟩
            · intro w
              refine AltWF.mk _ _ _ ?_ (hwfL w.seqs_wf)
              intro hnil
              have hlen := hf2.length_eq
              rw [hnil] at hlen
              simp only [List.length_nil, List.length_eq_zero] at hlen
              exact w.seqs_ne hlen
            · intro w
              refine WkAlt.mk _ _ _ ?_ (hwkL w.seqs_wk)
              refine Finset.union_subset ?_ (Finset.Subset.refl _)
              exact Finset.Subset.trans w.expect_subset (seqsUnion_subset_of_forall₂ hf2)
            · intro hwf hwfa
              rcases hleakL hwf hwfa.seqs_wf hwfa.seqs_ne with hne2 | hlk
              · refine Or.inl ?_
                intro hemp
                exact hne2 (Finset.union_eq_empty.mp hemp).2
              · exact Or.inr hlk

end EBNF
namespace EBNF

theorem shRule_step (fuel : Nat) (ihAlt : ShAltP fuel) : ShRuleP (fuel + 1) := by
  intro g i e g1 h
  simp only [ruleShallowIdx] at h
  cases hr : g.rules.get? i with
  | none => rw [hr] at h; cases h
  | some r =>
      rw [hr] at h
      dsimp only at h
      have hrA : ruleAt g i = some r := hr
      have hi : i < g.rules.length := ruleAt_lt hrA
      by_cases hrec : r.recursed ≠ 0
      · rw [if_pos hrec] at h
        simp only [Option.some.injEq, Prod.mk.injEq] at h
        obtain ⟨rfl, rfl⟩ := h
        rw [bumpRecursed_eq hrA]
        refine ⟨⟨setRule_stEq g i _, ?_, ?_, ?_, ?_, ?_⟩, fun hne => absurd rfl hne, ?_⟩
        · intro j
          by_cases hj : j = i
          · subst hj
            rw [recAt_setRule_self _ hi, recAt_of_ruleAt hrA]
            exact Nat.le_succ _
          · rw [recAt_setRule_ne _ hj]
        · intro j
          by_cases hj : j = i
          · subst hj
            rw [expAt_setRule_self _ hi, expAt_of_ruleAt hrA]
          · rw [expAt_setRule_ne _ hj]
        · intro j
          by_cases hj : j = i
          · subst hj
            rw [reachAt_setRule_self _ hi, reachAt_of_ruleAt hrA]
          · rw [reachAt_setRule_ne _ hj]
        · intro hwf
          exact grammarWF_setRule hwf (hwf r (ruleAt_mem hrA))
        · intro hwk
          exact wkG_setRule hwk (hwk r (ruleAt_mem hrA))
        · intro _
          refine Or.inr ⟨i, ?_⟩
          rw [recAt_setRule_self _ hi, recAt_of_ruleAt hrA]
          exact Nat.lt_succ_self _
      · rw [if_neg hrec] at h
        have hrec0 : r.recursed = 0 := by omega
        cases hm : altShallowGet fuel (setRule g i { r with recursed := 1 }) r.alt with
        | none => rw [hm] at h; cases h
        | some pr =>
            obtain ⟨e2, alt1, g2⟩ := pr
            rw [hm] at h
            dsimp only at h
            cases hr2 : g2.rules.get? i with
            | none => rw [hr2] at h; cases h
            | some r2 =>
                rw [hr2] at h
                simp only [Option.some.injEq, Prod.mk.injEq] at h
                obtain ⟨rfl, rfl⟩ := h
                have hr2A : ruleAt g2 i = some r2 := hr2
                obtain ⟨houtA, hwfA, hwkA, heq, hsub, hleakA⟩ :=
                  ihAlt (setRule g i { r with recursed := 1 }) r.alt e2 alt1 g2 hm
                have hiIn : i < (setRule g i { r with recursed := 1 }).rules.length := by
                  rw [setRule_rules_length]; exact hi
                have hi2 : i < g2.rules.length := by
                  rw [houtA.1.1, setRule_rules_length]; exact hi
                have hrecIn : recAt (setRule g i { r with recursed := 1 }) i = 1 :=
                  recAt_setRule_self _ hi
                have hg0 : recAt g i = 0 := by rw [recAt_of_ruleAt hrA, hrec0]
                refine ⟨⟨?_, ?_, ?_, ?_, ?_, ?_⟩, ?_, ?_⟩
                · exact stEq_trans (stEq_trans (setRule_stEq g i _) houtA.1) (setRule_stEq g2 i _)
                · intro j
                  by_cases hj : j = i
                  · subst hj
                    rw [recAt_setRule_self _ hi2, hg0]
                    exact Nat.zero_le _
                  · rw [recAt_setRule_ne _ hj]
                    have := houtA.2.1 j
                    rw [recAt_setRule_ne _ hj] at this
                    exact this
                · intro j
                  by_cases hj : j = i
                  · subst hj
                    rw [expAt_setRule_self _ hi2, expAt_of_ruleAt hrA]
                    exact hsub
                  · rw [expAt_setRule_ne _ hj]
                    have := houtA.2.2.1 j
                    rw [expAt_setRule_ne _ hj] at this
                    exact this
                · intro j
                  by_cases hj : j = i
                  · subst hj
                    rw [reachAt_setRule_self _ hi2, reachAt_of_ruleAt hrA]
                    have := houtA.2.2.2.1 j
                    rw [reachAt_setRule_self _ hi, reachAt_of_ruleAt hr2A] at this
                    exact this
                  · rw [reachAt_setRule_ne _ hj]
                    have := houtA.2.2.2.1 j
                    rw [reachAt_setRule_ne _ hj] at this
                    exact this
                · intro hwf
                  have hwfIn : GrammarWF (setRule g i { r with recursed := 1 }) :=
                    grammarWF_setRule hwf (hwf r (ruleAt_mem hrA))
                  exact grammarWF_setRule (houtA.2.2.2.2.1 hwfIn)
                    (hwfA (hwf r (ruleAt_mem hrA)))
                · intro hwk
                  have hwkIn : WkG (setRule g i { r with recursed := 1 }) :=
                    wkG_setRule hwk (hwk r (ruleAt_mem hrA))
                  exact wkG_setRule (houtA.2.2.2.2.2 hwkIn) (hwkA (hwk r (ruleAt_mem hrA)))
                · intro _
                  rw [expAt_setRule_self _ hi2, heq]
                · intro hwf
                  have hwfIn : GrammarWF (setRule g i { r with recursed := 1 }) :=
                    grammarWF_setRule hwf (hwf r (ruleAt_mem hrA))
                  rcases hleakA hwfIn (hwf r (ruleAt_mem hrA)) with hne | ⟨j, hj⟩
                  · exact Or.inl hne
                  · refine Or.inr ?_
                    by_cases hji : j = i
                    · subst hji
                      rw [hrecIn, recAt_of_ruleAt hr2A] at hj
                      refine ⟨j, ?_⟩
                      rw [recAt_setRule_self _ hi2, hg0]
                      show 0 < r2.recursed - 1
                      omega
                    · refine ⟨j, ?_⟩
                      rw [recAt_setRule_ne _ hji] at hj
                      rw [recAt_setRule_ne _ hji]
                      exact hj

theorem shName_step (fuel : Nat) (ihRule : ShRuleP fuel) : ShNameP (fuel + 1) := by
  intro g n e g1 h
  simp only [ruleShallowName] at h
  cases hm : ruleIdx g.rules n with
  | none => rw [hm] at h; cases h
  | some i =>
      rw [hm] at h
      obtain ⟨hout, _, hleak⟩ := ihRule g i e g1 h
      exact ⟨hout, hleak⟩

theorem shallowBundle : ∀ fuel, ShSymP fuel ∧ ShNodesP fuel ∧ ShSeqP fuel ∧ ShSeqsP fuel ∧
    ShAltP fuel ∧ ShRuleP fuel ∧ ShNameP fuel := by
  intro fuel
  induction fuel with
  | zero => exact shZero
  | succ f ih =>
      obtain ⟨ihSym, ihNodes, ihSeq, ihSeqs, ihAlt, ihRule, ihName⟩ := ih
      exact ⟨shSym_step f ihName ihAlt, shNodes_step f ihSym ihNodes, shSeq_step f ihNodes,
        shSeqs_step f ihSeq ihSeqs, shAlt_step f ihSeqs, shRule_step f ihAlt,
        shName_step f ihRule⟩

end EBNF
namespace EBNF

theorem shallowPass_out : ∀ (fuel : Nat) (g : EGrammar) (k : Nat) (g1 : EGrammar),
    shallowPass fuel g k = some g1 →
    ShOut g g1 ∧
      (GrammarWF g → ∀ i, k ≤ i → i < g1.rules.length → (expAt g1 i ≠ ∅ ∨ Leak g g1)) := by
  intro fuel
  induction fuel with
  | zero => intro g k g1 h; exact Option.noConfusion h
  | succ fuel ih =>
      intro g k g1 h
      simp only [shallowPass] at h
      by_cases hk : k < g.rules.length
      · rw [if_pos hk] at h
        cases hm : ruleShallowIdx fuel g k with
        | none => rw [hm] at h; cases h
        | some pr =>
            obtain ⟨e, gA⟩ := pr
            rw [hm] at h
            obtain ⟨houtA, hexp, hleak⟩ := (shallowBundle fuel).2.2.2.2.2.1 g k e gA hm
            obtain ⟨houtB, hrest⟩ := ih gA (k + 1) g1 h
            refine ⟨shOut_trans houtA houtB, ?_⟩
            intro hwf i hki hi
            by_cases hik : i = k
            · subst hik
              rcases hleak hwf with hne | hlk
              · refine Or.inl ?_
                have := houtB.2.2.1 i
                rw [hexp hne] at this
                exact subset_ne_empty this hne
              · exact Or.inr (hlk.trans_mono houtB.2.1)
            · have hk1 : k + 1 ≤ i := by omega
              rcases hrest (houtA.2.2.2.2.1 hwf) i hk1 hi with hne | hlk
              · exact Or.inl hne
              · exact Or.inr (houtA.2.1.trans_leak hlk)
      · rw [if_neg hk] at h
        simp only [Option.some.injEq] at h
        subst h
        refine ⟨shOut_refl g, ?_⟩
        intro _ i hki hi
        exact absurd (lt_of_le_of_lt hki hi) hk

/-- Rules already reached are never modified by the deep pass. -/
def ModEq (g g1 : EGrammar) : Prop :=
  ∀ j, reachAt g j = true → ruleAt g1 j = ruleAt g j

/-- Rules newly reached by the deep pass carry the exact-union invariant. -/
def NewInv (g g1 : EGrammar) : Prop :=
  ∀ j, reachAt g j = false → reachAt g1 j = true → InvAt g1 j

/-- Conclusions common to all deep computations about the grammar state
(under the standing hypotheses that every rule expect is already non-empty
and weakly covered, which hold after a successful shallow pass). -/
def DpOut (g g1 : EGrammar) : Prop :=
  StEq g g1 ∧ CntEq g g1 ∧ ReachMono g g1 ∧ ModEq g g1 ∧ NewInv g g1 ∧
    AllNE g1 ∧ WkG g1

theorem dpOut_refl {g : EGrammar} (h1 : AllNE g) (h2 : WkG g) : DpOut g g :=
  ⟨stEq_refl g, cntEq_refl g, reachMono_refl g, fun _ _ => rfl,
    fun _ hf ht => absurd (hf ▸ ht) (by simp), h1, h2⟩

theorem invAt_of_ruleAt_eq {g g1 : EGrammar} {j : Nat} (h : ruleAt g1 j = ruleAt g j)
    (hinv : InvAt g j) : InvAt g1 j := by
  intro r hr
  rw [h] at hr
  exact hinv r hr

theorem dpOut_trans {g g1 g2 : EGrammar} (h : DpOut g g1) (h2 : DpOut g1 g2) : DpOut g g2 := by
  obtain ⟨hst, hcnt, hrm, hmod, hnew, hne, hwk⟩ := h
  obtain ⟨hst2, hcnt2, hrm2, hmod2, hnew2, hne2, hwk2⟩ := h2
  refine ⟨stEq_trans hst hst2, cntEq_trans hcnt hcnt2, reachMono_trans hrm hrm2, ?_, ?_, hne2, hwk2⟩
  · intro j hj
    rw [hmod2 j (hrm j hj), hmod j hj]
  · intro j hf ht
    cases hb : reachAt g1 j with
    | true => exact invAt_of_ruleAt_eq (hmod2 j hb) (hnew j hf hb)
    | false => exact hnew2 j hb ht

def DpSymP (fuel : Nat) : Prop :=
  ∀ g s e s1 g1, AllNE g → WkG g → symDeep fuel g s = some (e, s1, g1) →
    DpOut g g1 ∧ (WkSym s → InvSym s1 ∧ WkSym s1)

def DpNodesP (fuel : Nat) : Prop :=
  ∀ g ns acc ns1 g1, AllNE g → WkG g → seqNodesDeep fuel g ns = some (acc, ns1, g1) →
    DpOut g g1 ∧ ((∀ n ∈ ns, WkSym n) → ∀ n ∈ ns1, InvSym n ∧ WkSym n)

def DpSeqP (fuel : Nat) : Prop :=
  ∀ g sq e sq1 g1, AllNE g → WkG g → seqDeep fuel g sq = some (e, sq1, g1) →
    DpOut g g1 ∧ (WkSeq sq → InvSeq sq1 ∧ WkSeq sq1) ∧ e = sq1.expect ∧ sq.expect ⊆ e

def DpSeqsP (fuel : Nat) : Prop :=
  ∀ g sqs u sqs1 g1, AllNE g → WkG g → seqsDeep fuel g sqs = some (u, sqs1, g1) →
    DpOut g g1 ∧ ((∀ sq ∈ sqs, WkSeq sq) → ∀ sq1 ∈ sqs1, InvSeq sq1 ∧ WkSeq sq1) ∧
      u = seqsUnion sqs1 ∧ List.Forall₂ (fun a b => a.expect ⊆ b.expect) sqs sqs1

def DpAltP (fuel : Nat) : Prop :=
  ∀ g a e a1 g1, AllNE g → WkG g → altDeep fuel g a = some (e, a1, g1) →
    DpOut g g1 ∧ (WkAlt a → InvAlt a1 ∧ WkAlt a1) ∧ e = a1.expect ∧ a.expect ⊆ e

def DpRuleP (fuel : Nat) : Prop :=
  ∀ g i e g1, AllNE g → WkG g → ruleDeepIdx fuel g i = some (e, g1) → DpOut g g1

def DpNameP (fuel : Nat) : Prop :=
  ∀ g n e g1, AllNE g → WkG g → ruleDeepName fuel g n = some (e, g1) → DpOut g g1

end EBNF
namespace EBNF

theorem dpZero : DpSymP 0 ∧ DpNodesP 0 ∧ DpSeqP 0 ∧ DpSeqsP 0 ∧ DpAltP 0 ∧
    DpRuleP 0 ∧ DpNameP 0 := by
  refine ⟨?_, ?_, ?_, ?_, ?_, ?_, ?_⟩
  · intro g s e s1 g1 _ _ h; exact Option.noConfusion h
  · intro g ns acc ns1 g1 _ _ h; exact Option.noConfusion h
  · intro g sq e sq1 g1 _ _ h; exact Option.noConfusion h
  · intro g sqs u sqs1 g1 _ _ h; exact Option.noConfusion h
  · intro g a e a1 g1 _ _ h; exact Option.noConfusion h
  · intro g i e g1 _ _ h; exact Option.noConfusion h
  · intro g n e g1 _ _ h; exact Option.noConfusion h

theorem dpSym_step (fuel : Nat) (ihName : DpNameP fuel) (ihAlt : DpAltP fuel) :
    DpSymP (fuel + 1) := by
  intro g s e s1 g1 hne hwk h
  cases s with
  | lit n =>
      simp only [symDeep, Option.some.injEq, Prod.mk.injEq] at h
      obtain ⟨rfl, rfl, rfl⟩ := h
      exact ⟨dpOut_refl hne hwk, fun _ => ⟨InvSym.lit n, WkSym.lit n⟩⟩
  | tok n =>
      simp only [symDeep, Option.some.injEq, Prod.mk.injEq] at h
      obtain ⟨rfl, rfl, rfl⟩ := h
      exact ⟨dpOut_refl hne hwk, fun _ => ⟨InvSym.tok n, WkSym.tok n⟩⟩
  | ref n =>
      simp only [symDeep] at h
      cases hm : ruleDeepName fuel g n with
      | none => rw [hm] at h; cases h
      | some pr =>
          obtain ⟨e2, g2⟩ := pr
          rw [hm] at h
          simp only [Option.some.injEq, Prod.mk.injEq] at h
          obtain ⟨rfl, rfl, rfl⟩ := h
          exact ⟨ihName g n e2 g2 hne hwk hm, fun _ => ⟨InvSym.ref n, WkSym.ref n⟩⟩
  | opt a =>
      simp only [symDeep] at h
      cases hm : altDeep fuel g a with
      | none => rw [hm] at h; cases h
      | some pr =>
          obtain ⟨e2, a2, g2⟩ := pr
          rw [hm] at h
          simp only [Option.some.injEq, Prod.mk.injEq] at h
          obtain ⟨rfl, rfl, rfl⟩ := h
          obtain ⟨hout, hinv, _, _⟩ := ihAlt g a e2 a2 g2 hne hwk hm
          refine ⟨hout, ?_⟩
          intro w
          cases w with
          | opt _ ha =>
              exact ⟨InvSym.opt _ (hinv ha).1, WkSym.opt _ (hinv ha).2⟩
  | someN a =>
      simp only [symDeep] at h
      cases hm : altDeep fuel g a with
      | none => rw [hm] at h; cases h
      | some pr =>
          obtain ⟨e2, a2, g2⟩ := pr
          rw [hm] at h
          simp only [Option.some.injEq, Prod.mk.injEq] at h
          obtain ⟨rfl, rfl, rfl⟩ := h
          obtain ⟨hout, hinv, _, _⟩ := ihAlt g a e2 a2 g2 hne hwk hm
          refine ⟨hout, ?_⟩
          intro w
          cases w with
          | someN _ ha =>
              exact ⟨InvSym.someN _ (hinv ha).1, WkSym.someN _ (hinv ha).2⟩

theorem dpNodes_step (fuel : Nat) (ihSym : DpSymP fuel) (ihNodes : DpNodesP fuel) :
    DpNodesP (fuel + 1) := by
  intro g ns acc ns1 g1 hne hwk h
  cases ns with
  | nil =>
      simp only [seqNodesDeep, Option.some.injEq, Prod.mk.injEq] at h
      obtain ⟨rfl, rfl, rfl⟩ := h
      exact ⟨dpOut_refl hne hwk, fun _ n hn => absurd hn (List.not_mem_nil n)⟩
  | cons n rest =>
      simp only [seqNodesDeep] at h
      cases hrec : seqNodesDeep fuel g rest with
      | none => rw [hrec] at h; cases h
      | some pr =>
          obtain ⟨accR, rest1, gA⟩ := pr
          rw [hrec] at h
          dsimp only at h
          cases hm : symDeep fuel gA n with
          | none => rw [hm] at h; cases h
          | some pr2 =>
              obtain ⟨s, n1, gB⟩ := pr2
              rw [hm] at h
              simp only [Option.some.injEq, Prod.mk.injEq] at h
              obtain ⟨rfl, rfl, rfl⟩ := h
              obtain ⟨houtA, hinvL⟩ := ihNodes g rest accR rest1 gA hne hwk hrec
              obtain ⟨houtB, hinvS⟩ :=
                ihSym gA n s n1 gB houtA.2.2.2.2.2.1 houtA.2.2.2.2.2.2 hm
              refine ⟨dpOut_trans houtA houtB, ?_⟩
              intro hall m hm2
              rcases List.mem_cons.mp hm2 with rfl | hin
              · exact hinvS (hall n (List.mem_cons_self n rest))
              · exact hinvL (fun x hx => hall x (List.mem_cons_of_mem n hx)) m hin

theorem dpSeq_step (fuel : Nat) (ihNodes : DpNodesP fuel) : DpSeqP (fuel + 1) := by
  intro g sq e sq1 g1 hne hwk h
  cases sq with
  | mk ns t ex f =>
      simp only [seqDeep] at h
      cases hm : seqNodesDeep fuel g (ESeq.mk ns t ex f).nodes with
      | none => rw [hm] at h; cases h
      | some pr =>
          obtain ⟨acc, nodes1, gA⟩ := pr
          rw [hm] at h
          simp only [Option.some.injEq, Prod.mk.injEq] at h
          obtain ⟨rfl, rfl, rfl⟩ := h
          obtain ⟨hout, hinvL⟩ := ihNodes g ns acc nodes1 gA hne hwk hm
          refine ⟨hout, ?_, rfl, Finset.subset_union_left⟩
          intro w
          exact ⟨InvSeq.mk _ _ _ _ (fun m hm2 => (hinvL w.nodes_wk m hm2).1),
            WkSeq.mk _ _ _ _ (fun m hm2 => (hinvL w.nodes_wk m hm2).2)⟩

theorem dpSeqs_step (fuel : Nat) (ihSeq : DpSeqP fuel) (ihSeqs : DpSeqsP fuel) :
    DpSeqsP (fuel + 1) := by
  intro g sqs u sqs1 g1 hne hwk h
  cases sqs with
  | nil =>
      simp only [seqsDeep, Option.some.injEq, Prod.mk.injEq] at h
      obtain ⟨rfl, rfl, rfl⟩ := h
      exact ⟨dpOut_refl hne hwk, fun _ sq1 hsq1 => absurd hsq1 (List.not_mem_nil sq1), rfl,
        List.Forall₂.nil⟩
  | cons sq rest =>
      simp only [seqsDeep] at h
      cases hm : seqDeep fuel g sq with
      | none => rw [hm] at h; cases h
      | some pr =>
          obtain ⟨e, sq1, gA⟩ := pr
          rw [hm] at h
          dsimp only at h
          cases hrec : seqsDeep fuel gA rest with
          | none => rw [hrec] at h; cases h
          | some pr2 =>
              obtain ⟨u2, rest1, gB⟩ := pr2
              rw [hrec] at h
              simp only [Option.some.injEq, Prod.mk.injEq] at h
              obtain ⟨rfl, rfl, rfl⟩ := h
              obtain ⟨houtA, hinvS, heq, hsub⟩ := ihSeq g sq e sq1 gA hne hwk hm
              obtain ⟨houtB, hinvL, hu, hf2⟩ :=
                ihSeqs gA rest u2 rest1 gB houtA.2.2.2.2.2.1 houtA.2.2.2.2.2.2 hrec
              refine ⟨dpOut_trans houtA houtB, ?_, ?_, ?_⟩
              · intro hall m hm2
                rcases List.mem_cons.mp hm2 with rfl | hin
                · exact hinvS (hall sq (List.mem_cons_self sq rest))
                · exact hinvL (fun x hx => hall x (List.mem_cons_of_mem sq hx)) m hin
              · rw [seqsUnion_cons, heq, hu]
              · refine List.Forall₂.cons ?_ hf2
                rw [heq] at hsub
                exact hsub
-- nothing

end EBNF
namespace EBNF

theorem altShallowGet_guard {fuel : Nat} {g : EGrammar} {a : EAlt} (h : a.expect ≠ ∅) :
    altShallowGet (fuel + 1) g a = some (a.expect, a, g) := by
  simp only [altShallowGet, if_pos h]

theorem dpAlt_step (fuel : Nat) (ihSeqs : DpSeqsP fuel) : DpAltP (fuel + 1) := by
  intro g a e a1 g1 hne hwk h
  cases a with
  | mk sqs ex f =>
      simp only [altDeep] at h
      cases hm : seqsDeep fuel g (EAlt.mk sqs ex f).seqs with
      | none => rw [hm] at h; cases h
      | some pr =>
          obtain ⟨u, seqs1, gA⟩ := pr
          rw [hm] at h
          simp only [Option.some.injEq, Prod.mk.injEq] at h
          obtain ⟨rfl, rfl, rfl⟩ := h
          obtain ⟨hout, hinvL, hu, hf2⟩ := ihSeqs g sqs u seqs1 gA hne hwk hm
          subst hu
          refine ⟨hout, ?_, rfl, Finset.subset_union_left⟩
          intro w
          have hsub : ex ⊆ seqsUnion seqs1 :=
            Finset.Subset.trans w.expect_subset (seqsUnion_subset_of_forall₂ hf2)
          have hunion : ex ∪ seqsUnion seqs1 = seqsUnion seqs1 :=
            Finset.union_eq_right.mpr hsub
          refine ⟨InvAlt.mk _ _ _ hunion (fun m hm2 => (hinvL w.seqs_wk m hm2).1), ?_⟩
          refine WkAlt.mk _ _ _ ?_ (fun m hm2 => (hinvL w.seqs_wk m hm2).2)
          show ex ∪ seqsUnion seqs1 ⊆ seqsUnion seqs1
          rw [hunion]

theorem dpRule_step (fuel : Nat) (ihAlt : DpAltP fuel) : DpRuleP (fuel + 1) := by
  intro g i e g1 hne hwk h
  simp only [ruleDeepIdx] at h
  cases hr : g.rules.get? i with
  | none => rw [hr] at h; cases h
  | some r =>
      rw [hr] at h
      dsimp only at h
      have hrA : ruleAt g i = some r := hr
      have hi : i < g.rules.length := ruleAt_lt hrA
      have hrne : r.alt.expect ≠ ∅ := hne r (ruleAt_mem hrA)
      cases hb : r.reached with
      | true =>
          rw [hb] at h
          simp only [if_true] at h
          cases fuel with
          | zero =>
              rw [show altShallowGet 0 g r.alt = none from rfl] at h
              cases h
          | succ f =>
              rw [altShallowGet_guard hrne] at h
              dsimp only at h
              simp only [Option.some.injEq, Prod.mk.injEq] at h
              obtain ⟨rfl, rfl⟩ := h
              have hrr : ({ r with reached := true } : ERule) = r := by
                rw [← hb]
              rw [hrr, setRule_same hrA]
              exact dpOut_refl hne hwk
      | false =>
          rw [hb] at h
          rw [if_neg Bool.false_ne_true] at h
          cases hm : altDeep fuel (setRule g i { r with reached := true }) r.alt with
          | none => rw [hm] at h; cases h
          | some pr =>
              obtain ⟨e2, alt1, g2⟩ := pr
              rw [hm] at h
              dsimp only at h
              cases hr2 : g2.rules.get? i with
              | none => rw [hr2] at h; cases h
              | some r2 =>
                  rw [hr2] at h
                  simp only [Option.some.injEq, Prod.mk.injEq] at h
                  obtain ⟨rfl, rfl⟩ := h
                  have hr2A : ruleAt g2 i = some r2 := hr2
                  have hneM : AllNE (setRule g i { r with reached := true }) := by
                    intro r2 hr2m
                    rcases List.mem_or_eq_of_mem_set hr2m with h2 | rfl
                    · exact hne r2 h2
                    · exact hrne
                  have hwkM : WkG (setRule g i { r with reached := true }) :=
                    wkG_setRule hwk (hwk r (ruleAt_mem hrA))
                  obtain ⟨hout, hinvF, heqA, hsubE⟩ :=
                    ihAlt (setRule g i { r with reached := true }) r.alt e2 alt1 g2
                      hneM hwkM hm
                  obtain ⟨hst, hcnt, hrm, hmod, hnew, hne2, hwk2⟩ := hout
                  have hi2 : i < g2.rules.length := by
                    rw [hst.1, setRule_rules_length]; exact hi
                  have hinvA : InvAlt alt1 ∧ WkAlt alt1 := hinvF (hwk r (ruleAt_mem hrA))
                  have hsubA : r.alt.expect ⊆ alt1.expect := by
                    rw [heqA] at hsubE
                    exact hsubE
                  refine ⟨?_, ?_, ?_, ?_, ?_, ?_, ?_⟩
                  · exact stEq_trans (stEq_trans (setRule_stEq g i _) hst) (setRule_stEq g2 i _)
                  · intro j
                    by_cases hj : j = i
                    · subst hj
                      rw [recAt_setRule_self _ hi2]
                      have h1 := hcnt j
                      rw [recAt_setRule_self _ hi] at h1
                      rw [recAt_of_ruleAt hrA]
                      rw [recAt_of_ruleAt hr2A] at h1
                      exact h1
                    · rw [recAt_setRule_ne _ hj]
                      have h1 := hcnt j
                      rw [recAt_setRule_ne _ hj] at h1
                      exact h1
                  · intro j hj
                    by_cases hij : j = i
                    · subst hij
                      rw [reachAt_of_ruleAt hrA, hb] at hj
                      cases hj
                    · rw [reachAt_setRule_ne _ hij]
                      refine hrm j ?_
                      rw [reachAt_setRule_ne _ hij]
                      exact hj
                  · intro j hj
                    have hij : j ≠ i := by
                      intro hcontra
                      subst hcontra
                      rw [reachAt_of_ruleAt hrA, hb] at hj
                      cases hj
                    rw [ruleAt_setRule_ne _ hij]
                    have h1 := hmod j (by rw [reachAt_setRule_ne _ hij]; exact hj)
                    rw [ruleAt_setRule_ne _ hij] at h1
                    exact h1
                  · intro j hjf hjt
                    by_cases hij : j = i
                    · subst hij
                      intro r3 hr3
                      rw [ruleAt_setRule_self _ hi2] at hr3
                      cases hr3
                      exact hinvA.1
                    · rw [reachAt_setRule_ne _ hij] at hjt
                      have hnewj := hnew j
                        (by rw [reachAt_setRule_ne _ hij]; exact hjf) hjt
                      exact invAt_of_ruleAt_eq (ruleAt_setRule_ne _ hij) hnewj
                  · intro r3 hr3
                    rcases List.mem_or_eq_of_mem_set hr3 with h3 | rfl
                    · exact hne2 r3 h3
                    · exact subset_ne_empty hsubA hrne
                  · intro r3 hr3
                    rcases List.mem_or_eq_of_mem_set hr3 with h3 | rfl
                    · exact hwk2 r3 h3
                    · exact hinvA.2

theorem dpName_step (fuel : Nat) (ihRule : DpRuleP fuel) : DpNameP (fuel + 1) := by
  intro g n e g1 hne hwk h
  simp only [ruleDeepName] at h
  cases hm : ruleIdx g.rules n with
  | none => rw [hm] at h; cases h
  | some i =>
      rw [hm] at h
      exact ihRule g i e g1 hne hwk h

theorem deepBundle : ∀ fuel, DpSymP fuel ∧ DpNodesP fuel ∧ DpSeqP fuel ∧ DpSeqsP fuel ∧
    DpAltP fuel ∧ DpRuleP fuel ∧ DpNameP fuel := by
  intro fuel
  induction fuel with
  | zero => exact dpZero
  | succ f ih =>
      obtain ⟨ihSym, ihNodes, ihSeq, ihSeqs, ihAlt, ihRule, ihName⟩ := ih
      exact ⟨dpSym_step f ihName ihAlt, dpNodes_step f ihSym ihNodes, dpSeq_step f ihNodes,
        dpSeqs_step f ihSeq ihSeqs, dpAlt_step f ihSeqs, dpRule_step f ihAlt,
        dpName_step f ihRule⟩

end EBNF
namespace EBNF

theorem recAt_eq_zero {g : EGrammar} (h : ∀ r ∈ g.rules, r.recursed = 0) (j : Nat) :
    recAt g j = 0 := by
  unfold recAt
  cases hr : ruleAt g j with
  | none => rfl
  | some r =>
      show r.recursed = 0
      exact h r (ruleAt_mem hr)

theorem reachAt_eq_false {g : EGrammar} (h : ∀ r ∈ g.rules, r.reached = false) (j : Nat) :
    reachAt g j = false := by
  unfold reachAt
  cases hr : ruleAt g j with
  | none => rfl
  | some r =>
      show r.reached = false
      exact h r (ruleAt_mem hr)

/-- A successful run of `Grammar.expect()` (no error message) leaves a state
with the same inventory in which every rule's expect set is non-empty, every
`recursed` counter is zero, and (for a fresh grammar) every rule tree carries
the exact-union expect invariant. -/
theorem grammarExpect_success {fuel : Nat} {g g2 : EGrammar}
    (hwf : GrammarWF g) (hwk : WkG g) (hfr : FreshReach g)
    (h : grammarExpect fuel g = some (none, g2)) :
    StEq g g2 ∧ AllNE g2 ∧ (∀ r ∈ g2.rules, r.recursed = 0) ∧
      (∀ r ∈ g2.rules, InvAlt r.alt) := by
  unfold grammarExpect at h
  cases hr0 : g.rules.get? 0 with
  | none => rw [hr0] at h; cases h
  | some r0 =>
      rw [hr0] at h
      dsimp only at h
      by_cases hg1 : r0.alt.expect ≠ ∅
      · rw [if_pos hg1] at h
        simp only [gErr, Option.some.injEq, Prod.mk.injEq] at h
        cases h.1
      · rw [if_neg hg1] at h
        by_cases hg2 : g.levels ≠ 0
        · rw [if_pos hg2] at h
          simp only [gErr, Option.some.injEq, Prod.mk.injEq] at h
          cases h.1
        · rw [if_neg hg2] at h
          by_cases hg3 : g.rules.length > g.nts.length
          · rw [if_pos hg3] at h
            simp only [gErr, Option.some.injEq, Prod.mk.injEq] at h
            cases h.1
          · rw [if_neg hg3] at h
            by_cases hg4 : g.rules.length < g.nts.length
            · rw [if_pos hg4] at h
              simp only [gErr, Option.some.injEq, Prod.mk.injEq] at h
              cases h.1
            · rw [if_neg hg4] at h
              cases hsp : shallowPass fuel g 0 with
              | none => rw [hsp] at h; cases h
              | some g1 =>
                  rw [hsp] at h
                  dsimp only at h
                  obtain ⟨houtS, hres⟩ := shallowPass_out fuel g 0 g1 hsp
                  cases hany : g1.rules.any (fun r => r.recursed != 0) with
                  | true =>
                      rw [hany] at h
                      simp only [if_true, gErr, Option.some.injEq, Prod.mk.injEq] at h
                      cases h.1
                  | false =>
                      rw [hany] at h
                      rw [if_neg Bool.false_ne_true] at h
                      simp only [List.any_eq_false, bne_iff_ne, ne_eq, not_not] at hany
                      have hcnt1 : ∀ j, recAt g1 j = 0 := recAt_eq_zero hany
                      have hnoleak : ¬ Leak g g1 := by
                        rintro ⟨j, hj⟩
                        rw [hcnt1 j] at hj
                        omega
                      have hne1 : AllNE g1 := by
                        intro r hr
                        obtain ⟨i, hi⟩ := List.mem_iff_get?.mp hr
                        have hilt : i < g1.rules.length := (List.get?_eq_some.mp hi).1
                        rcases hres hwf i (Nat.zero_le i) hilt with hne | hlk
                        · rw [expAt_of_ruleAt (show ruleAt g1 i = some r from hi)] at hne
                          exact hne
                        · exact absurd hlk hnoleak
                      have hwk1 : WkG g1 := houtS.2.2.2.2.2 hwk
                      cases hdp : ruleDeepIdx fuel g1 0 with
                      | none => rw [hdp] at h; cases h
                      | some pr =>
                          obtain ⟨e, g2x⟩ := pr
                          rw [hdp] at h
                          dsimp only at h
                          obtain ⟨hst2, hcnt2, hrm2, hmod2, hnew2, hne2, hwk2⟩ :=
                            (deepBundle fuel).2.2.2.2.2.1 g1 0 e g2x hne1 hwk1 hdp
                          cases hany2 : g2x.rules.any (fun r => !r.reached) with
                          | true =>
                              rw [hany2] at h
                              simp only [if_true, gErr, Option.some.injEq,
                                Prod.mk.injEq] at h
                              cases h.1
                          | false =>
                              rw [hany2] at h
                              rw [if_neg Bool.false_ne_true] at h
                              simp only [Option.some.injEq, Prod.mk.injEq] at h
                              obtain ⟨-, rfl⟩ := h
                              simp only [List.any_eq_false, Bool.not_eq_true',
                                Bool.not_eq_false] at hany2
                              refine ⟨stEq_trans houtS.1 hst2, hne2, ?_, ?_⟩
                              · intro r hr
                                obtain ⟨i, hi⟩ := List.mem_iff_get?.mp hr
                                have := hcnt2 i
                                rw [hcnt1 i,
                                  recAt_of_ruleAt (show ruleAt g2x i = some r from hi)]
                                  at this
                                exact this
                              · intro r hr
                                obtain ⟨i, hi⟩ := List.mem_iff_get?.mp hr
                                have hfr1 : reachAt g1 i = false := by
                                  rw [houtS.2.2.2.1 i]
                                  exact reachAt_eq_false hfr i
                                have hrt : reachAt g2x i = true := by
                                  rw [reachAt_of_ruleAt
                                    (show ruleAt g2x i = some r from hi)]
                                  exact hany2 r hr
                                exact hnew2 i hfr1 hrt r hi

end EBNF
namespace EBNF

/-- A one-rule witness grammar: `S: "x";` freshly built. -/
def wSeq : ESeq := .mk [.lit "x"] none ∅ none

def wAlt : EAlt := .mk [wSeq] ∅ none

def wG : EGrammar := ⟨[⟨"S", wAlt, 0, false⟩], ["S"], 0, 0⟩

theorem wG_wf : GrammarWF wG := by
  intro r hr
  rcases List.mem_singleton.mp hr with rfl
  show AltWF (.mk [wSeq] ∅ none)
  refine AltWF.mk _ _ _ (by simp) ?_
  intro sq hsq
  rcases List.mem_singleton.mp hsq with rfl
  show SeqWF (.mk [.lit "x"] none ∅ none)
  refine SeqWF.mk _ _ _ _ ?_
  intro s hs
  rcases List.mem_singleton.mp hs with rfl
  exact SymWF.lit "x"

theorem wG_wk : WkG wG := by
  intro r hr
  rcases List.mem_singleton.mp hr with rfl
  show WkAlt (.mk [wSeq] ∅ none)
  refine WkAlt.mk _ _ _ (Finset.empty_subset _) ?_
  intro sq hsq
  rcases List.mem_singleton.mp hsq with rfl
  show WkSeq (.mk [.lit "x"] none ∅ none)
  refine WkSeq.mk _ _ _ _ ?_
  intro s hs
  rcases List.mem_singleton.mp hs with rfl
  exact WkSym.lit "x"

theorem wG_fresh : FreshReach wG := by
  intro r hr
  rcases List.mem_singleton.mp hr with rfl
  rfl

end EBNF

/-- C3: whenever `Grammar.expect()` returns without an error message on a
well-formed fresh EBNF grammar, every rule's expect set is non-empty and
every rule's `recursed` counter is zero (no rule is left-recursive); the
detection mechanism is that a re-entered shallow computation of a rule
(`recursed` not zero) immediately returns the empty set and leaves the
counter incremented, marking the rule recursive. -/
theorem c3_expect_invariants (fuel : Nat) (g g2 : EBNF.EGrammar)
    (hwf : EBNF.GrammarWF g) (hwk : EBNF.WkG g) (hfr : EBNF.FreshReach g)
    (h : EBNF.grammarExpect fuel g = some (none, g2)) :
    (∀ r ∈ g2.rules, r.alt.expect ≠ ∅) ∧
      (∀ r ∈ g2.rules, r.recursed = 0) ∧
      (∀ (g3 : EBNF.EGrammar) (i : Nat) (r : EBNF.ERule) (fu : Nat),
        EBNF.ruleAt g3 i = some r → r.recursed ≠ 0 →
        EBNF.ruleShallowIdx (fu + 1) g3 i = some (∅, EBNF.bumpRecursed g3 i)) := by
  obtain ⟨-, hne, hcnt, -⟩ := EBNF.grammarExpect_success hwf hwk hfr h
  refine ⟨hne, hcnt, ?_⟩
  intro g3 i r fu hr hrec
  simp only [EBNF.ruleShallowIdx]
  rw [show g3.rules.get? i = some r from hr]
  dsimp only
  rw [if_pos hrec]

/-- Witness for C3 at the concrete grammar `S: "x";`. -/
theorem c3_expect_invariants_witness :
    (∀ r ∈ ((EBNF.grammarExpect 12 EBNF.wG).getD (none, EBNF.wG)).2.rules,
        r.alt.expect ≠ ∅) ∧
      (∀ r ∈ ((EBNF.grammarExpect 12 EBNF.wG).getD (none, EBNF.wG)).2.rules,
        r.recursed = 0) ∧
      (∀ (g3 : EBNF.EGrammar) (i : Nat) (r : EBNF.ERule) (fu : Nat),
        EBNF.ruleAt g3 i = some r → r.recursed ≠ 0 →
        EBNF.ruleShallowIdx (fu + 1) g3 i = some (∅, EBNF.bumpRecursed g3 i)) :=
  c3_expect_invariants 12 EBNF.wG
    ((EBNF.grammarExpect 12 EBNF.wG).getD (none, EBNF.wG)).2
    EBNF.wG_wf EBNF.wG_wk EBNF.wG_fresh rfl
namespace EBNF

/-! ### Ambiguity checks (`check` methods of ebnf.js)

The check methods read only `expect` and `follow` fields and the error
counter; `error()` increments the counter and returns the message (modelled
without the rule-name interpolation).  The outer `Option` models a thrown
error: `Set.overlap(null)` in `Opt.check`/`Some.check` throws unless the
expect set is empty (`Object.keys` of an empty set never touches the null
argument). -/

mutual

/-- `node.check(error, name)`: terminals and non-terminals use the `Node`
default (no check); `Opt`/`Some` check the nested alternatives and the
expect/follow overlap. -/
def checkSym : Nat → Nat → ESym → Option (Option String × Nat)
  | 0, _, _ => none
  | fuel + 1, errs, s =>
    match s with
    | .lit _ => some (none, errs)
    | .tok _ => some (none, errs)
    | .ref _ => some (none, errs)
    | .opt a => checkOptSome fuel errs a "ambiguous, need not select optional part"
    | .someN a => checkOptSome fuel errs a "ambiguous, need not select repeatable part"
termination_by structural fuel => fuel

/-- The `forEach` of `Seq.check`: the last truthy descendant error wins. -/
def checkNodes : Nat → Nat → Option String → List ESym → Option (Option String × Nat)
  | 0, _, _, _ => none
  | fuel + 1, errs, any, ns =>
    match ns with
    | [] => some (any, errs)
    | n :: rest =>
        match checkSym fuel errs n with
        | none => none
        | some (e, errs1) =>
            checkNodes fuel errs1 (match e with | some m => some m | none => any) rest
termination_by structural fuel => fuel

/-- `Seq.check`. -/
def checkSeq : Nat → Nat → ESeq → Option (Option String × Nat)
  | 0, _, _ => none
  | fuel + 1, errs, sq => checkNodes fuel errs none sq.nodes
termination_by structural fuel => fuel

/-- The `reduce` of `Alt.check`: checks every alternative and sums the
sizes of their expect sets. -/
def checkSeqs : Nat → Nat → List ESeq → Option (Option String × Nat × Nat)
  | 0, _, _ => none
  | fuel + 1, errs, sqs =>
    match sqs with
    | [] => some (none, 0, errs)
    | sq :: rest =>
        match checkSeq fuel errs sq with
        | none => none
        | some (e, errs1) =>
            match checkSeqs fuel errs1 rest with
            | none => none
            | some (any, sum, errs2) =>
                some ((match any with | some m => some m | none => e),
                  sq.expect.card + sum, errs2)
termination_by structural fuel => fuel

/-- `Alt.check`: ambiguous when the size of the node's expect set differs
from the sum over the alternatives. -/
def checkAlt : Nat → Nat → EAlt → Option (Option String × Nat)
  | 0, _, _ => none
  | fuel + 1, errs, a =>
    match checkSeqs fuel errs a.seqs with
    | none => none
    | some (any, sum, errs1) =>
        if a.expect.card ≠ sum then
          some (some "ambiguous, lookahead can select more than one alternative", errs1 + 1)
        else some (any, errs1)
termination_by structural fuel => fuel

/-- `Opt.check`/`Some.check`: the inherited `Alt.check` first, then the
expect/follow overlap. -/
def checkOptSome : Nat → Nat → EAlt → String → Option (Option String × Nat)
  | 0, _, _, _ => none
  | fuel + 1, errs, a, msg =>
    match checkAlt fuel errs a with
    | none => none
    | some (any, errs1) =>
        match a.follow with
        | none => if a.expect = ∅ then some (any, errs1) else none
        | some f =>
            if a.expect ∩ f ≠ ∅ then some (some msg, errs1 + 1)
            else some (any, errs1)
termination_by structural fuel => fuel

end

/-- The `reduce` of `Grammar.check`: count rules whose check reports an
error. -/
def rulesCheck : Nat → Nat → Nat → List ERule → Option (Nat × Nat)
  | 0, _, _, _ => none
  | fuel + 1, errs, cnt, rules =>
    match rules with
    | [] => some (cnt, errs)
    | r :: rest =>
        match checkAlt fuel errs r.alt with
        | none => none
        | some (e, errs1) =>
            rulesCheck fuel errs1 (match e with | some _ => cnt + 1 | none => cnt) rest

/-- The tail of `Grammar.check()` after the expect and follow passes
(ebnf.js lines 1068-1074): with a non-zero error counter it returns
silently without any ambiguity checking; otherwise every rule is checked
and a message is produced only if some rule reported an error. -/
def grammarCheckPost (fuel : Nat) (g : EGrammar) : Option (Option String × EGrammar) :=
  if g.errors ≠ 0 then some (none, g)
  else
    match rulesCheck fuel g.errors 0 g.rules with
    | none => none
    | some (cnt, errs1) =>
        if cnt ≠ 0 then some (some "check(): found ambiguities", { g with errors := errs1 })
        else some (none, { g with errors := errs1 })

/-! ### The disjointness properties claimed for accepted grammars -/

mutual
inductive DisSym : ESym → Prop where
  | lit (n : String) : DisSym (.lit n)
  | tok (n : String) : DisSym (.tok n)
  | ref (n : String) : DisSym (.ref n)
  | opt (a : EAlt) : DisAlt a → a.expect ∩ (a.follow.getD ∅) = ∅ → DisSym (.opt a)
  | someN (a : EAlt) : DisAlt a → a.expect ∩ (a.follow.getD ∅) = ∅ → DisSym (.someN a)
inductive DisSeq : ESeq → Prop where
  | mk (ns : List ESym) (t : Option String) (e : Finset String)
      (f : Option (Finset String)) :
      (∀ s ∈ ns, DisSym s) → DisSeq (.mk ns t e f)
inductive DisAlt : EAlt → Prop where
  | mk (sqs : List ESeq) (e : Finset String) (f : Option (Finset String)) :
      List.Pairwise (fun s1 s2 => Disjoint s1.expect s2.expect) sqs →
      (∀ sq ∈ sqs, DisSeq sq) → DisAlt (.mk sqs e f)
end

/-! ### Follow-field erasure

The follow pass of `Grammar.check()` (the `follow` setters) assigns only
the private `#follow` fields and never touches node structure or expect
sets; a state reachable from `g` by the follow pass is therefore one whose
rules erase (follow fields dropped) to the same trees. -/

mutual
def eraseSym : Nat → ESym → Option ESym
  | 0, _ => none
  | fuel + 1, s =>
    match s with
    | .lit n => some (.lit n)
    | .tok n => some (.tok n)
    | .ref n => some (.ref n)
    | .opt a => (eraseAlt fuel a).map .opt
    | .someN a => (eraseAlt fuel a).map .someN

def eraseNodes : Nat → List ESym → Option (List ESym)
  | 0, _ => none
  | fuel + 1, ns =>
    match ns with
    | [] => some []
    | n :: rest =>
        match eraseSym fuel n, eraseNodes fuel rest with
        | some n1, some rest1 => some (n1 :: rest1)
        | _, _ => none

def eraseSeq : Nat → ESeq → Option ESeq
  | 0, _ => none
  | fuel + 1, sq =>
    match sq with
    | .mk ns t e _ => (eraseNodes fuel ns).map (fun ns1 => .mk ns1 t e none)

def eraseSeqs : Nat → List ESeq → Option (List ESeq)
  | 0, _ => none
  | fuel + 1, sqs =>
    match sqs with
    | [] => some []
    | sq :: rest =>
        match eraseSeq fuel sq, eraseSeqs fuel rest with
        | some sq1, some rest1 => some (sq1 :: rest1)
        | _, _ => none

def eraseAlt : Nat → EAlt → Option EAlt
  | 0, _ => none
  | fuel + 1, a =>
    match a with
    | .mk sqs e _ => (eraseSeqs fuel sqs).map (fun sqs1 => .mk sqs1 e none)

end

/-- A follow assignment: the state after the follow pass, related to the
state before it — same rule count, same error counter, same non-terminals,
and rule trees equal up to the follow fields. -/
def FollowAssign (fuel : Nat) (g g3 : EGrammar) : Prop :=
  g3.rules.length = g.rules.length ∧ g3.errors = g.errors ∧
    ∀ i r r3, ruleAt g i = some r → ruleAt g3 i = some r3 →
      r3.nt = r.nt ∧ eraseAlt fuel r3.alt = eraseAlt fuel r.alt ∧
        eraseAlt fuel r.alt ≠ none

end EBNF
namespace EBNF

theorem card_foldr_union_le (l : List (Finset String)) :
    (l.foldr (· ∪ ·) ∅).card ≤ (l.map Finset.card).sum := by
  induction l with
  | nil => simp
  | cons a rest ih =>
      simp only [List.foldr_cons, List.map_cons, List.sum_cons]
      exact le_trans (Finset.card_union_le a _) (Nat.add_le_add_left ih _)

theorem subset_foldr_union {b : Finset String} : ∀ {l : List (Finset String)}, b ∈ l →
    b ⊆ l.foldr (· ∪ ·) ∅ := by
  intro l h
  induction l with
  | nil => cases h
  | cons a rest ih =>
      simp only [List.foldr_cons]
      rcases List.mem_cons.mp h with rfl | hin
      · exact Finset.subset_union_left
      · exact Finset.Subset.trans (ih hin) Finset.subset_union_right

theorem pairwise_disjoint_of_card : ∀ (l : List (Finset String)),
    (l.foldr (· ∪ ·) ∅).card = (l.map Finset.card).sum →
    l.Pairwise (fun s t => Disjoint s t) := by
  intro l
  induction l with
  | nil => intro _; exact List.Pairwise.nil
  | cons a rest ih =>
      intro h
      simp only [List.foldr_cons, List.map_cons, List.sum_cons] at h
      have h1 : (a ∪ rest.foldr (· ∪ ·) ∅).card ≤ a.card + (rest.foldr (· ∪ ·) ∅).card :=
        Finset.card_union_le a _
      have h2 : (rest.foldr (· ∪ ·) ∅).card ≤ (rest.map Finset.card).sum :=
        card_foldr_union_le rest
      have hUeq : (rest.foldr (· ∪ ·) ∅).card = (rest.map Finset.card).sum := by omega
      have hcard : (a ∪ rest.foldr (· ∪ ·) ∅).card = a.card + (rest.foldr (· ∪ ·) ∅).card := by
        omega
      have hint : Disjoint a (rest.foldr (· ∪ ·) ∅) := by
        have := Finset.card_union_add_card_inter a (rest.foldr (· ∪ ·) ∅)
        have hzero : (a ∩ rest.foldr (· ∪ ·) ∅).card = 0 := by omega
        rw [Finset.card_eq_zero] at hzero
        exact Finset.disjoint_iff_inter_eq_empty.mpr hzero
      refine List.Pairwise.cons ?_ (ih hUeq)
      intro b hb
      exact hint.mono_right (subset_foldr_union hb)

theorem eraseSeq_expect {fuel : Nat} {sq u : ESeq} (h : eraseSeq fuel sq = some u) :
    u.expect = sq.expect := by
  cases fuel with
  | zero => exact Option.noConfusion h
  | succ f =>
      cases sq with
      | mk ns t e fo =>
          simp only [eraseSeq] at h
          cases hm : eraseNodes f ns with
          | none => rw [hm] at h; cases h
          | some ns1 =>
              rw [hm] at h
              simp only [Option.map_some', Option.some.injEq] at h
              subst h
              rfl

def ErSymP (fuel : Nat) : Prop :=
  ∀ s t u, eraseSym fuel s = some u → eraseSym fuel t = some u → InvSym s → InvSym t

def ErNodesP (fuel : Nat) : Prop :=
  ∀ ns ms us, eraseNodes fuel ns = some us → eraseNodes fuel ms = some us →
    (∀ n ∈ ns, InvSym n) → ∀ m ∈ ms, InvSym m

def ErSeqP (fuel : Nat) : Prop :=
  ∀ sq tq u, eraseSeq fuel sq = some u → eraseSeq fuel tq = some u → InvSeq sq → InvSeq tq

def ErSeqsP (fuel : Nat) : Prop :=
  ∀ sqs tqs us, eraseSeqs fuel sqs = some us → eraseSeqs fuel tqs = some us →
    seqsUnion tqs = seqsUnion sqs ∧
      ((∀ sq ∈ sqs, InvSeq sq) → ∀ tq ∈ tqs, InvSeq tq)

def ErAltP (fuel : Nat) : Prop :=
  ∀ a b u, eraseAlt fuel a = some u → eraseAlt fuel b = some u → InvAlt a → InvAlt b

theorem eraseBundle : ∀ fuel, ErSymP fuel ∧ ErNodesP fuel ∧ ErSeqP fuel ∧ ErSeqsP fuel ∧
    ErAltP fuel := by
  intro fuel
  induction fuel with
  | zero =>
      refine ⟨?_, ?_, ?_, ?_, ?_⟩
      · intro s t u h; exact Option.noConfusion h
      · intro ns ms us h; exact Option.noConfusion h
      · intro sq tq u h; exact Option.noConfusion h
      · intro sqs tqs us h; exact Option.noConfusion h
      · intro a b u h; exact Option.noConfusion h
  | succ f ih =>
      obtain ⟨ihSym, ihNodes, ihSeq, ihSeqs, ihAlt⟩ := ih
      refine ⟨?_, ?_, ?_, ?_, ?_⟩
      · intro s t u hs ht hinv
        cases s with
        | lit n =>
            simp only [eraseSym, Option.some.injEq] at hs
            subst hs
            cases t with
            | lit m =>
                simp only [eraseSym, Option.some.injEq, ESym.lit.injEq] at ht
                subst ht
                exact InvSym.lit _
            | tok m => simp [eraseSym] at ht
            | ref m => simp [eraseSym] at ht
            | opt b =>
                simp only [eraseSym] at ht
                cases hm : eraseAlt f b with
                | none => rw [hm] at ht; cases ht
                | some ub => rw [hm] at ht; simp at ht
            | someN b =>
                simp only [eraseSym] at ht
                cases hm : eraseAlt f b with
                | none => rw [hm] at ht; cases ht
                | some ub => rw [hm] at ht; simp at ht
        | tok n =>
            simp only [eraseSym, Option.some.injEq] at hs
            subst hs
            cases t with
            | tok m =>
                simp only [eraseSym, Option.some.injEq, ESym.tok.injEq] at ht
                subst ht
                exact InvSym.tok _
            | lit m => simp [eraseSym] at ht
            | ref m => simp [eraseSym] at ht
            | opt b =>
                simp only [eraseSym] at ht
                cases hm : eraseAlt f b with
                | none => rw [hm] at ht; cases ht
                | some ub => rw [hm] at ht; simp at ht
            | someN b =>
                simp only [eraseSym] at ht
                cases hm : eraseAlt f b with
                | none => rw [hm] at ht; cases ht
                | some ub => rw [hm] at ht; simp at ht
        | ref n =>
            simp only [eraseSym, Option.some.injEq] at hs
            subst hs
            cases t with
            | ref m =>
                simp only [eraseSym, Option.some.injEq, ESym.ref.injEq] at ht
                subst ht
                exact InvSym.ref _
            | lit m => simp [eraseSym] at ht
            | tok m => simp [eraseSym] at ht
            | opt b =>
                simp only [eraseSym] at ht
                cases hm : eraseAlt f b with
                | none => rw [hm] at ht; cases ht
                | some ub => rw [hm] at ht; simp at ht
            | someN b =>
                simp only [eraseSym] at ht
                cases hm : eraseAlt f b with
                | none => rw [hm] at ht; cases ht
                | some ub => rw [hm] at ht; simp at ht
        | opt a =>
            simp only [eraseSym] at hs
            cases hma : eraseAlt f a with
            | none => rw [hma] at hs; cases hs
            | some ua =>
                rw [hma] at hs
                simp only [Option.map_some', Option.some.injEq] at hs
                subst hs
                cases t with
                | lit m => simp [eraseSym] at ht
                | tok m => simp [eraseSym] at ht
                | ref m => simp [eraseSym] at ht
                | someN b =>
                    simp only [eraseSym] at ht
                    cases hmb : eraseAlt f b with
                    | none => rw [hmb] at ht; cases ht
                    | some ub => rw [hmb] at ht; simp at ht
                | opt b =>
                    simp only [eraseSym] at ht
                    cases hmb : eraseAlt f b with
                    | none => rw [hmb] at ht; cases ht
                    | some ub =>
                        rw [hmb] at ht
                        simp only [Option.map_some', Option.some.injEq,
                          ESym.opt.injEq] at ht
                        subst ht
                        cases hinv with
                        | opt _ ha => exact InvSym.opt _ (ihAlt a b _ hma hmb ha)
        | someN a =>
            simp only [eraseSym] at hs
            cases hma : eraseAlt f a with
            | none => rw [hma] at hs; cases hs
            | some ua =>
                rw [hma] at hs
                simp only [Option.map_some', Option.some.injEq] at hs
                subst hs
                cases t with
                | lit m => simp [eraseSym] at ht
                | tok m => simp [eraseSym] at ht
                | ref m => simp [eraseSym] at ht
                | opt b =>
                    simp only [eraseSym] at ht
                    cases hmb : eraseAlt f b with
                    | none => rw [hmb] at ht; cases ht
                    | some ub => rw [hmb] at ht; simp at ht
                | someN b =>
                    simp only [eraseSym] at ht
                    cases hmb : eraseAlt f b with
                    | none => rw [hmb] at ht; cases ht
                    | some ub =>
                        rw [hmb] at ht
                        simp only [Option.map_some', Option.some.injEq,
                          ESym.someN.injEq] at ht
                        subst ht
                        cases hinv with
                        | someN _ ha => exact InvSym.someN _ (ihAlt a b _ hma hmb ha)
      · intro ns ms us hs ht hall
        cases ns with
        | nil =>
            simp only [eraseNodes, Option.some.injEq] at hs
            subst hs
            cases ms with
            | nil => intro m hm; cases hm
            | cons m mrest =>
                simp only [eraseNodes] at ht
                cases h3 : eraseSym f m with
                | none => rw [h3] at ht; cases ht
                | some m1 =>
                    cases h4 : eraseNodes f mrest with
                    | none => rw [h3, h4] at ht; cases ht
                    | some mrest1 => rw [h3, h4] at ht; simp at ht
        | cons n rest =>
            simp only [eraseNodes] at hs
            cases h1 : eraseSym f n with
            | none => rw [h1] at hs; cases hs
            | some n1 =>
                cases h2 : eraseNodes f rest with
                | none => rw [h1, h2] at hs; cases hs
                | some rest1 =>
                    rw [h1, h2] at hs
                    simp only [Option.some.injEq] at hs
                    subst hs
                    cases ms with
                    | nil =>
                        simp only [eraseNodes, Option.some.injEq] at ht
                        cases ht
                    | cons m mrest =>
                        simp only [eraseNodes] at ht
                        cases h3 : eraseSym f m with
                        | none => rw [h3] at ht; cases ht
                        | some m1 =>
                            cases h4 : eraseNodes f mrest with
                            | none => rw [h3, h4] at ht; cases ht
                            | some mrest1 =>
                                rw [h3, h4] at ht
                                simp only [Option.some.injEq, List.cons.injEq] at ht
                                obtain ⟨hm1, hr1⟩ := ht
                                subst hm1
                                subst hr1
                                intro x hx
                                rcases List.mem_cons.mp hx with rfl | hin
                                · exact ihSym n x _ h1 h3
                                    (hall n (List.mem_cons_self n rest))
                                · exact ihNodes rest mrest _ h2 h4
                                    (fun y hy => hall y (List.mem_cons_of_mem n hy)) x hin
      · intro sq tq u hs ht hinv
        cases sq with
        | mk ns t0 e fo =>
            cases tq with
            | mk ms t2 e2 fo2 =>
                simp only [eraseSeq] at hs ht
                cases h1 : eraseNodes f ns with
                | none => rw [h1] at hs; cases hs
                | some ns1 =>
                    rw [h1] at hs
                    simp only [Option.map_some', Option.some.injEq] at hs
                    cases h2 : eraseNodes f ms with
                    | none => rw [h2] at ht; cases ht
                    | some ms1 =>
                        rw [h2] at ht
                        simp only [Option.map_some', Option.some.injEq] at ht
                        rw [← hs] at ht
                        simp only [ESeq.mk.injEq] at ht
                        obtain ⟨hms, -, -⟩ := ht
                        subst hms
                        cases hinv with
                        | mk _ _ _ _ hall =>
                            exact InvSeq.mk _ _ _ _ (ihNodes ns ms _ h1 h2 hall)
      · intro sqs tqs us hs ht
        cases sqs with
        | nil =>
            simp only [eraseSeqs, Option.some.injEq] at hs
            subst hs
            cases tqs with
            | nil => exact ⟨rfl, fun _ tq htq => absurd htq (List.not_mem_nil tq)⟩
            | cons tq trest =>
                simp only [eraseSeqs] at ht
                cases h3 : eraseSeq f tq with
                | none => rw [h3] at ht; cases ht
                | some tq1 =>
                    cases h4 : eraseSeqs f trest with
                    | none => rw [h3, h4] at ht; cases ht
                    | some trest1 => rw [h3, h4] at ht; simp at ht
        | cons sq rest =>
            simp only [eraseSeqs] at hs
            cases h1 : eraseSeq f sq with
            | none => rw [h1] at hs; cases hs
            | some sq1 =>
                cases h2 : eraseSeqs f rest with
                | none => rw [h1, h2] at hs; cases hs
                | some rest1 =>
                    rw [h1, h2] at hs
                    simp only [Option.some.injEq] at hs
                    subst hs
                    cases tqs with
                    | nil =>
                        simp only [eraseSeqs, Option.some.injEq] at ht
                        cases ht
                    | cons tq trest =>
                        simp only [eraseSeqs] at ht
                        cases h3 : eraseSeq f tq with
                        | none => rw [h3] at ht; cases ht
                        | some tq1 =>
                            cases h4 : eraseSeqs f trest with
                            | none => rw [h3, h4] at ht; cases ht
                            | some trest1 =>
                                rw [h3, h4] at ht
                                simp only [Option.some.injEq, List.cons.injEq] at ht
                                obtain ⟨hm1, hr1⟩ := ht
                                subst hm1
                                subst hr1
                                obtain ⟨hun, htr⟩ := ihSeqs rest trest _ h2 h4
                                refine ⟨?_, ?_⟩
                                · rw [seqsUnion_cons, seqsUnion_cons, hun]
                                  have hexp : tq.expect = sq.expect := by
                                    rw [← eraseSeq_expect h3]
                                    exact eraseSeq_expect h1
                                  rw [hexp]
                                · intro hall x hx
                                  rcases List.mem_cons.mp hx with rfl | hin
                                  · exact ihSeq sq x _ h1 h3
                                      (hall sq (List.mem_cons_self sq rest))
                                  · exact htr (fun y hy =>
                                      hall y (List.mem_cons_of_mem sq hy)) x hin
      · intro a b u ha hb hinv
        cases a with
        | mk sqs e fo =>
            cases b with
            | mk tqs e2 fo2 =>
                simp only [eraseAlt] at ha hb
                cases hma : eraseSeqs f sqs with
                | none => rw [hma] at ha; cases ha
                | some us1 =>
                    rw [hma] at ha
                    simp only [Option.map_some', Option.some.injEq] at ha
                    cases hmb : eraseSeqs f tqs with
                    | none => rw [hmb] at hb; cases hb
                    | some us2 =>
                        rw [hmb] at hb
                        simp only [Option.map_some', Option.some.injEq] at hb
                        rw [← ha] at hb
                        simp only [EAlt.mk.injEq] at hb
                        obtain ⟨h1, h2, -⟩ := hb
                        subst h1
                        obtain ⟨hun, htr⟩ := ihSeqs sqs tqs _ hma hmb
                        cases hinv with
                        | mk _ _ _ heq hall =>
                            refine InvAlt.mk _ _ _ ?_ (htr hall)
                            rw [h2, hun]
                            exact heq

end EBNF
namespace EBNF

theorem InvSeq.nodes_inv {sq : ESeq} (h : InvSeq sq) : ∀ s ∈ sq.nodes, InvSym s := by
  cases h with
  | mk ns t e f hall => exact hall

def CkSymP (fuel : Nat) : Prop :=
  ∀ errs s m errs1, checkSym fuel errs s = some (m, errs1) → InvSym s → m = none → DisSym s

def CkNodesP (fuel : Nat) : Prop :=
  ∀ errs any ns m errs1, checkNodes fuel errs any ns = some (m, errs1) → m = none →
    any = none ∧ ((∀ n ∈ ns, InvSym n) → ∀ n ∈ ns, DisSym n)

def CkSeqP (fuel : Nat) : Prop :=
  ∀ errs sq m errs1, checkSeq fuel errs sq = some (m, errs1) → InvSeq sq → m = none →
    DisSeq sq

def CkSeqsP (fuel : Nat) : Prop :=
  ∀ errs sqs m sum errs1, checkSeqs fuel errs sqs = some (m, sum, errs1) →
    sum = (sqs.map (fun sq => sq.expect.card)).sum ∧
      (m = none → (∀ sq ∈ sqs, InvSeq sq) → ∀ sq ∈ sqs, DisSeq sq)

def CkAltP (fuel : Nat) : Prop :=
  ∀ errs a m errs1, checkAlt fuel errs a = some (m, errs1) → InvAlt a → m = none → DisAlt a

def CkOptP (fuel : Nat) : Prop :=
  ∀ errs a msg m errs1, checkOptSome fuel errs a msg = some (m, errs1) → InvAlt a →
    m = none → DisAlt a ∧ a.expect ∩ (a.follow.getD ∅) = ∅

theorem checkBundle : ∀ fuel, CkSymP fuel ∧ CkNodesP fuel ∧ CkSeqP fuel ∧ CkSeqsP fuel ∧
    CkAltP fuel ∧ CkOptP fuel := by
  intro fuel
  induction fuel with
  | zero =>
      refine ⟨?_, ?_, ?_, ?_, ?_, ?_⟩
      · intro errs s m errs1 h; simp only [checkSym] at h; cases h
      · intro errs any ns m errs1 h; simp only [checkNodes] at h; cases h
      · intro errs sq m errs1 h; simp only [checkSeq] at h; cases h
      · intro errs sqs m sum errs1 h; simp only [checkSeqs] at h; cases h
      · intro errs a m errs1 h; simp only [checkAlt] at h; cases h
      · intro errs a msg m errs1 h; simp only [checkOptSome] at h; cases h
  | succ f ih =>
      obtain ⟨ihSym, ihNodes, ihSeq, ihSeqs, ihAlt, ihOpt⟩ := ih
      refine ⟨?_, ?_, ?_, ?_, ?_, ?_⟩
      · intro errs s m errs1 h hinv hm
        cases s with
        | lit n =>
            simp only [checkSym] at h
            exact DisSym.lit n
        | tok n =>
            simp only [checkSym] at h
            exact DisSym.tok n
        | ref n =>
            simp only [checkSym] at h
            exact DisSym.ref n
        | opt a =>
            simp only [checkSym] at h
            have hia : InvAlt a := by cases hinv with | opt _ ha => exact ha
            obtain ⟨hd, hov⟩ := ihOpt errs a _ m errs1 h hia hm
            exact DisSym.opt a hd hov
        | someN a =>
            simp only [checkSym] at h
            have hia : InvAlt a := by cases hinv with | someN _ ha => exact ha
            obtain ⟨hd, hov⟩ := ihOpt errs a _ m errs1 h hia hm
            exact DisSym.someN a hd hov
      · intro errs any ns m errs1 h hm
        subst hm
        cases ns with
        | nil =>
            simp only [checkNodes, Option.some.injEq, Prod.mk.injEq] at h
            exact ⟨h.1, fun _ n hn => absurd hn (List.not_mem_nil n)⟩
        | cons n rest =>
            simp only [checkNodes] at h
            cases hc : checkSym f errs n with
            | none => rw [hc] at h; cases h
            | some pr =>
                obtain ⟨e, errsA⟩ := pr
                rw [hc] at h
                dsimp only at h
                cases e with
                | some m1 =>
                    obtain ⟨hany, -⟩ := ihNodes errsA (some m1) rest none errs1 h rfl
                    cases hany
                | none =>
                    obtain ⟨hany, hdis⟩ := ihNodes errsA any rest none errs1 h rfl
                    refine ⟨hany, ?_⟩
                    intro hall x hx
                    rcases List.mem_cons.mp hx with rfl | hin
                    · exact ihSym errs x none errsA hc
                        (hall x (List.mem_cons_self x rest)) rfl
                    · exact hdis (fun y hy => hall y (List.mem_cons_of_mem n hy)) x hin
      · intro errs sq m errs1 h hinv hm
        simp only [checkSeq] at h
        obtain ⟨-, hdis⟩ := ihNodes errs none sq.nodes m errs1 h hm
        cases sq with
        | mk ns t e fo =>
            exact DisSeq.mk _ _ _ _ (hdis hinv.nodes_inv)
      · intro errs sqs m sum errs1 h
        cases sqs with
        | nil =>
            simp only [checkSeqs, Option.some.injEq, Prod.mk.injEq] at h
            exact ⟨h.2.1.symm, fun _ _ sq hsq => absurd hsq (List.not_mem_nil sq)⟩
        | cons sq rest =>
            simp only [checkSeqs] at h
            cases hc : checkSeq f errs sq with
            | none => rw [hc] at h; cases h
            | some pr =>
                obtain ⟨e, errsA⟩ := pr
                rw [hc] at h
                dsimp only at h
                cases hr : checkSeqs f errsA rest with
                | none => rw [hr] at h; cases h
                | some pr2 =>
                    obtain ⟨any2, sum2, errsB⟩ := pr2
                    rw [hr] at h
                    simp only [Option.some.injEq, Prod.mk.injEq] at h
                    obtain ⟨hmm, hsum, -⟩ := h
                    obtain ⟨hsum2, hdis2⟩ := ihSeqs errsA rest any2 sum2 errsB hr
                    refine ⟨?_, ?_⟩
                    · rw [← hsum, hsum2]
                      simp
                    · intro hmnone hall x hx
                      subst hmnone
                      cases any2 with
                      | some m1 =>
                          dsimp only at hmm
                          cases hmm
                      | none =>
                          dsimp only at hmm
                          subst hmm
                          rcases List.mem_cons.mp hx with rfl | hin
                          · exact ihSeq errs x none errsA hc
                              (hall x (List.mem_cons_self x rest)) rfl
                          · exact hdis2 rfl
                              (fun y hy => hall y (List.mem_cons_of_mem sq hy)) x hin
      · intro errs a m errs1 h hinv hm
        simp only [checkAlt] at h
        cases hc : checkSeqs f errs a.seqs with
        | none => rw [hc] at h; cases h
        | some pr =>
            obtain ⟨any, sum, errsA⟩ := pr
            rw [hc] at h
            dsimp only at h
            by_cases hcard : a.expect.card ≠ sum
            · rw [if_pos hcard] at h
              simp only [Option.some.injEq, Prod.mk.injEq] at h
              rw [← h.1] at hm
              cases hm
            · rw [if_neg hcard] at h
              simp only [Option.some.injEq, Prod.mk.injEq] at h
              obtain ⟨rfl, -⟩ := h
              obtain ⟨hsum, hdis⟩ := ihSeqs errs a.seqs any sum errsA hc
              cases a with
              | mk sqs e fo =>
                  cases hinv with
                  | mk _ _ _ heq hall =>
                      refine DisAlt.mk _ _ _ ?_ (hdis hm hall)
                      rw [not_not] at hcard
                      refine List.pairwise_map.mp
                        (pairwise_disjoint_of_card (sqs.map ESeq.expect) ?_)
                      have hfold : (sqs.map ESeq.expect).foldr (· ∪ ·) ∅ = seqsUnion sqs :=
                        rfl
                      rw [hfold, ← heq]
                      show (EAlt.mk sqs e fo).expect.card
                        = ((sqs.map ESeq.expect).map Finset.card).sum
                      rw [hcard, hsum, List.map_map]
                      rfl
      · intro errs a msg m errs1 h hinv hm
        simp only [checkOptSome] at h
        cases hc : checkAlt f errs a with
        | none => rw [hc] at h; cases h
        | some pr =>
            obtain ⟨any, errsA⟩ := pr
            rw [hc] at h
            dsimp only at h
            cases hfol : a.follow with
            | none =>
                rw [hfol] at h
                dsimp only at h
                by_cases hexp : a.expect = ∅
                · rw [if_pos hexp] at h
                  simp only [Option.some.injEq, Prod.mk.injEq] at h
                  obtain ⟨rfl, -⟩ := h
                  refine ⟨ihAlt errs a any errsA hc hinv hm, ?_⟩
                  rw [hexp]
                  exact Finset.empty_inter _
                · rw [if_neg hexp] at h
                  cases h
            | some fs =>
                rw [hfol] at h
                dsimp only at h
                by_cases hov : a.expect ∩ fs ≠ ∅
                · rw [if_pos hov] at h
                  simp only [Option.some.injEq, Prod.mk.injEq] at h
                  rw [← h.1] at hm
                  cases hm
                · rw [if_neg hov] at h
                  simp only [Option.some.injEq, Prod.mk.injEq] at h
                  obtain ⟨rfl, -⟩ := h
                  refine ⟨ihAlt errs a any errsA hc hinv hm, ?_⟩
                  rw [not_not] at hov
                  exact hov

end EBNF
namespace EBNF

theorem rulesCheck_pass : ∀ (fuel errs cnt : Nat) (rules : List ERule) (cnt1 errs1 : Nat),
    rulesCheck fuel errs cnt rules = some (cnt1, errs1) →
    cnt ≤ cnt1 ∧ (cnt1 = cnt → (∀ r ∈ rules, InvAlt r.alt) → ∀ r ∈ rules, DisAlt r.alt) := by
  intro fuel
  induction fuel with
  | zero => intro errs cnt rules cnt1 errs1 h; exact Option.noConfusion h
  | succ f ih =>
      intro errs cnt rules cnt1 errs1 h
      cases rules with
      | nil =>
          simp only [rulesCheck, Option.some.injEq, Prod.mk.injEq] at h
          obtain ⟨rfl, -⟩ := h
          exact ⟨le_refl _, fun _ _ r hr => absurd hr (List.not_mem_nil r)⟩
      | cons r rest =>
          simp only [rulesCheck] at h
          cases hc : checkAlt f errs r.alt with
          | none => rw [hc] at h; cases h
          | some pr =>
              obtain ⟨e, errsA⟩ := pr
              rw [hc] at h
              dsimp only at h
              cases e with
              | some m1 =>
                  obtain ⟨hle, -⟩ := ih errsA (cnt + 1) rest cnt1 errs1 h
                  refine ⟨by omega, ?_⟩
                  intro heq
                  omega
              | none =>
                  obtain ⟨hle, himp⟩ := ih errsA cnt rest cnt1 errs1 h
                  refine ⟨hle, ?_⟩
                  intro hcnt hall x hx
                  rcases List.mem_cons.mp hx with rfl | hin
                  · exact (checkBundle f).2.2.2.2.1 errs x.alt none errsA hc
                      (hall x (List.mem_cons_self x rest)) rfl
                  · exact himp hcnt (fun y hy => hall y (List.mem_cons_of_mem r hy)) x hin

end EBNF

/-- C7 (amended): for a fresh well-formed EBNF grammar on which
`Grammar.check()` reports no error AND whose error counter is zero (a
non-zero counter makes `check()` return silently, skipping all ambiguity
checks), the expect sets of the alternatives inside every `Alt`, `Opt` and
`Some` node of every rule are pairwise disjoint, and every `Opt`/`Some`
node's expect and follow sets are disjoint.  The pipeline is modelled as
`expect()` (hexp), the follow pass — which only assigns `#follow` fields —
as a `FollowAssign` step (hfa), and the error guard and per-rule checks as
`grammarCheckPost` (hchk). -/
theorem c7_check_disjoint (fuel fuel2 fuel3 : Nat) (g g2 g3 g4 : EBNF.EGrammar)
    (hwf : EBNF.GrammarWF g) (hwk : EBNF.WkG g) (hfr : EBNF.FreshReach g)
    (hexp : EBNF.grammarExpect fuel g = some (none, g2))
    (hfa : EBNF.FollowAssign fuel2 g2 g3)
    (herr : g3.errors = 0)
    (hchk : EBNF.grammarCheckPost fuel3 g3 = some (none, g4)) :
    ∀ r ∈ g3.rules, EBNF.DisAlt r.alt := by
  obtain ⟨-, -, -, hinv2⟩ := EBNF.grammarExpect_success hwf hwk hfr hexp
  have hinv3 : ∀ r ∈ g3.rules, EBNF.InvAlt r.alt := by
    intro r3 hr3
    obtain ⟨i, hi⟩ := List.mem_iff_get?.mp hr3
    have hlen : i < g3.rules.length := (List.get?_eq_some.mp hi).1
    have hlen2 : i < g2.rules.length := by rw [hfa.1] at hlen; exact hlen
    cases hr2 : g2.rules.get? i with
    | none =>
        have := List.get?_eq_none.mp hr2
        omega
    | some r2 =>
        obtain ⟨-, herase, hnn⟩ := hfa.2.2 i r2 r3 hr2 hi
        cases hu : EBNF.eraseAlt fuel2 r2.alt with
        | none => exact absurd hu hnn
        | some u =>
            have h3 : EBNF.eraseAlt fuel2 r3.alt = some u := by rw [herase, hu]
            exact (EBNF.eraseBundle fuel2).2.2.2.2 r2.alt r3.alt u hu h3
              (hinv2 r2 (EBNF.ruleAt_mem hr2))
  unfold EBNF.grammarCheckPost at hchk
  rw [if_neg (by simp [herr])] at hchk
  cases hrc : EBNF.rulesCheck fuel3 g3.errors 0 g3.rules with
  | none => rw [hrc] at hchk; cases hchk
  | some pr =>
      obtain ⟨cnt, errsF⟩ := pr
      rw [hrc] at hchk
      dsimp only at hchk
      by_cases hcnt : cnt ≠ 0
      · rw [if_pos hcnt] at hchk
        simp only [Option.some.injEq, Prod.mk.injEq] at hchk
        cases hchk.1
      · rw [if_neg hcnt] at hchk
        rw [not_not] at hcnt
        subst hcnt
        exact (EBNF.rulesCheck_pass fuel3 g3.errors 0 g3.rules 0 errsF hrc).2 rfl hinv3
/-- Witness for C7 at the grammar `S: "x";` with the identity follow
assignment: the start rule of the analysed grammar has pairwise disjoint
alternatives. -/
theorem c7_check_disjoint_witness :
    EBNF.DisAlt (EBNF.EAlt.mk [EBNF.ESeq.mk [EBNF.ESym.lit "x"] none {"x"} none]
      {"x"} none) := by
  have hall : ∀ r ∈ ((EBNF.grammarExpect 12 EBNF.wG).getD (none, EBNF.wG)).2.rules,
      EBNF.DisAlt r.alt := by
    refine c7_check_disjoint 12 12 20 EBNF.wG
      ((EBNF.grammarExpect 12 EBNF.wG).getD (none, EBNF.wG)).2
      ((EBNF.grammarExpect 12 EBNF.wG).getD (none, EBNF.wG)).2
      ((EBNF.grammarExpect 12 EBNF.wG).getD (none, EBNF.wG)).2
      EBNF.wG_wf EBNF.wG_wk EBNF.wG_fresh rfl ⟨rfl, rfl, ?_⟩ rfl rfl
    intro i r r3 hr hr3
    rw [hr] at hr3
    injection hr3 with h3
    subst h3
    refine ⟨rfl, rfl, ?_⟩
    cases i with
    | zero =>
        injection hr with h
        subst h
        exact fun hcon => Option.noConfusion hcon
    | succ n => exact Option.noConfusion hr
  exact hall ⟨"S", EBNF.EAlt.mk [EBNF.ESeq.mk [EBNF.ESym.lit "x"] none {"x"} none]
    {"x"} none, 0, true⟩ (List.mem_singleton.mpr rfl)

namespace EBNF

/-- A grammar `S: "x" | "x" "y";` carrying one construction error (for
example from a `%prec` operand that is not a terminal): structurally fine,
but ambiguous. -/
def gBad : EGrammar :=
  ⟨[⟨"S", .mk [.mk [.lit "x"] none ∅ none, .mk [.lit "x", .lit "y"] none ∅ none] ∅ none,
    0, false⟩], ["S"], 0, 1⟩

end EBNF

/-- C7 (counterexample to the unamended claim): on a grammar with one
recorded construction error, `expect()` succeeds without a message and the
tail of `check()` returns silently — no ambiguity error is reported — yet
the two alternatives of the start rule both expect `x`, so their expect
sets are not pairwise disjoint. -/
theorem c7_claim_counterexample :
    EBNF.grammarExpect 12 EBNF.gBad
        = some (none, ((EBNF.grammarExpect 12 EBNF.gBad).getD (none, EBNF.gBad)).2) ∧
      EBNF.grammarCheckPost 20 ((EBNF.grammarExpect 12 EBNF.gBad).getD (none, EBNF.gBad)).2
        = some (none, ((EBNF.grammarExpect 12 EBNF.gBad).getD (none, EBNF.gBad)).2) ∧
      ∀ r, EBNF.ruleAt ((EBNF.grammarExpect 12 EBNF.gBad).getD (none, EBNF.gBad)).2 0
          = some r → ¬ EBNF.DisAlt r.alt := by
  refine ⟨rfl, rfl, ?_⟩
  intro r hr
  injection hr with h
  subst h
  intro hd
  cases hd with
  | mk _ _ _ hpw _ =>
      have hdis := List.rel_of_pairwise_cons hpw (List.mem_singleton.mpr rfl)
      have hx : "x" ∈ ({"x"} : Finset String) := Finset.mem_singleton_self "x"
      exact Finset.disjoint_left.mp hdis hx hx
namespace BNF

/-! ### Grammar.fromEBNF (11.js): translation of Opt and Some constructs

`g.nt({})` generates the name `config.uniq + nts.length` (JavaScript string
concatenation of the decimal rendering) and then behaves as the ordinary
lookup-or-create factory; `g.nt(name)` registers an unseen name.  The
translation functions thread the non-terminal inventory and the rule list;
literal and token factory calls touch neither.  `g.rule(nt, symbols)`
appends one rule.  The `$error` token has the empty name. -/

theorem digitChar_val {d : Nat} (h : d < 10) : (Nat.digitChar d).toNat - 48 = d := by
  interval_cases d <;> rfl

theorem toDigitsCore_foldl : ∀ (f n : Nat) (l : List Char) (a : Nat), n < f →
    ∃ k, (Nat.toDigitsCore 10 f n l).foldl (fun acc c => acc * 10 + (c.toNat - 48)) a
      = l.foldl (fun acc c => acc * 10 + (c.toNat - 48)) (a * 10 ^ k + n) := by
  intro f
  induction f with
  | zero => intro n l a h; omega
  | succ f ih =>
      intro n l a h
      by_cases hz : n / 10 = 0
      · refine ⟨1, ?_⟩
        have hn : n < 10 := by omega
        have hred : Nat.toDigitsCore 10 (f + 1) n l = Nat.digitChar (n % 10) :: l := by
          simp only [Nat.toDigitsCore, hz, if_true]
        rw [hred]
        simp only [List.foldl_cons]
        rw [digitChar_val (Nat.mod_lt n (by norm_num))]
        rw [Nat.mod_eq_of_lt hn]
        norm_num
      · have hn10 : n / 10 < f := by
          have h1 : n / 10 < n := Nat.div_lt_self (by omega) (by norm_num)
          omega
        have hred : Nat.toDigitsCore 10 (f + 1) n l
            = Nat.toDigitsCore 10 f (n / 10) (Nat.digitChar (n % 10) :: l) := by
          simp only [Nat.toDigitsCore, hz, if_false]
        rw [hred]
        obtain ⟨k, hk⟩ := ih (n / 10) (Nat.digitChar (n % 10) :: l) a hn10
        refine ⟨k + 1, ?_⟩
        rw [hk]
        simp only [List.foldl_cons]
        rw [digitChar_val (Nat.mod_lt n (by omega))]
        have heq : (a * 10 ^ k + n / 10) * 10 + n % 10 = a * 10 ^ (k + 1) + n := by
          have hdm := Nat.div_add_mod n 10
          ring_nf
          omega
        rw [heq]

/-- Reading a decimal string back: a left inverse of `Nat.repr`. -/
def natUndigit (s : String) : Nat :=
  s.data.foldl (fun acc c => acc * 10 + (c.toNat - 48)) 0

theorem natUndigit_repr (n : Nat) : natUndigit (Nat.repr n) = n := by
  obtain ⟨k, hk⟩ := toDigitsCore_foldl (n + 1) n [] 0 (Nat.lt_succ_self n)
  show (Nat.toDigitsCore 10 (n + 1) n []).foldl (fun acc c => acc * 10 + (c.toNat - 48)) 0 = n
  rw [hk]
  simp

theorem repr_injective : Function.Injective Nat.repr := by
  intro m n h
  have hm := natUndigit_repr m
  rw [h, natUndigit_repr] at hm
  exact hm.symm

theorem str_ext {a b : String} (h : a.data = b.data) : a = b := by
  cases a with
  | mk d1 =>
      cases b with
      | mk d2 =>
          cases h
          rfl

/-- `p` starts the string `s`. -/
def strPre (p s : String) : Prop :=
  s.data.take p.data.length = p.data

instance (p s : String) : Decidable (strPre p s) := by
  unfold strPre
  infer_instance

theorem strPre_append (u v : String) : strPre u (u ++ v) := by
  show ((u ++ v).data).take u.data.length = u.data
  rw [String.data_append]
  exact List.take_left u.data v.data

theorem append_repr_inj {u : String} {i j : Nat} (h : u ++ Nat.repr i = u ++ Nat.repr j) :
    i = j := by
  have hd := congrArg String.data h
  rw [String.data_append, String.data_append] at hd
  exact repr_injective (str_ext (List.append_cancel_left hd))

/-- A right-hand-side symbol of a generated BNF rule. -/
inductive TSym : Type where
  | term (name : String)
  | nonterm (name : String)
deriving DecidableEq, Repr

/-- The state threaded through the translation: the `uniq` prefix and
`error` flag of the configuration, the non-terminal names in creation
order, and the rules created so far. -/
structure TrSt where
  uniq : String
  errFlag : Bool
  nts : List String
  rules : List (String × List TSym)
deriving DecidableEq, Repr

/-- The lookup-or-create behaviour of the `nt` factory on a name. -/
def addNt (st : TrSt) (n : String) : TrSt :=
  if n ∈ st.nts then st else { st with nts := st.nts ++ [n] }

/-- The unique name generated by `g.nt({})`. -/
def freshName (st : TrSt) : String :=
  st.uniq ++ Nat.repr st.nts.length

mutual

/-- One entry of the `seq` closure of fromEBNF: terminals pass through,
a non-terminal is registered, `Opt`/`Some` expand to fresh non-terminals. -/
def symTr : Nat → TrSt → EBNF.ESym → Option (TSym × TrSt)
  | 0, _, _ => none
  | fuel + 1, st, s =>
    match s with
    | .lit n => some (.term n, st)
    | .tok n => some (.term n, st)
    | .ref n => some (.nonterm n, addNt st n)
    | .opt a =>
        match optTr fuel st a with
        | none => none
        | some (u, st1) => some (.nonterm u, st1)
    | .someN a =>
        match someTr fuel st a with
        | none => none
        | some (u, st1) => some (.nonterm u, st1)
termination_by structural fuel => fuel

/-- The `reduce` of the `seq` closure. -/
def seqTr : Nat → TrSt → List EBNF.ESym → Option (List TSym × TrSt)
  | 0, _, _ => none
  | fuel + 1, st, ns =>
    match ns with
    | [] => some ([], st)
    | n :: rest =>
        match symTr fuel st n with
        | none => none
        | some (t, st1) =>
            match seqTr fuel st1 rest with
            | none => none
            | some (ts, st2) => some (t :: ts, st2)
termination_by structural fuel => fuel

/-- `seqs.forEach(s => g.rule(lhs, seq(s)))`: the argument `seq(s)` is
evaluated (emitting any nested rules) before the rule itself is pushed. -/
def seqsTr : Nat → TrSt → String → List EBNF.ESeq → Option TrSt
  | 0, _, _, _ => none
  | fuel + 1, st, lhs, sqs =>
    match sqs with
    | [] => some st
    | sq :: rest =>
        match seqTr fuel st sq.nodes with
        | none => none
        | some (ts, st1) =>
            seqsTr fuel { st1 with rules := st1.rules ++ [(lhs, ts)] } lhs rest
termination_by structural fuel => fuel

/-- The `opt` closure: one fresh `U` with `U: ;` and `U: Sᵢ;` for each
alternative. -/
def optTr : Nat → TrSt → EBNF.EAlt → Option (String × TrSt)
  | 0, _, _ => none
  | fuel + 1, st, a =>
    let u := freshName st
    let st1 := addNt st u
    let st2 := { st1 with rules := st1.rules ++ [(u, [])] }
    match seqsTr fuel st2 u a.seqs with
    | none => none
    | some st3 => some (u, st3)
termination_by structural fuel => fuel

/-- The `some` closure: fresh `U₂` then `U₁`, rules `U₁: Sᵢ;`,
`U₂: U₁;`, `U₂: U₂ U₁;`, and with the error flag additionally
`U₂: $error;` and `U₂: U₂ $error;` (the `$error` token has the empty
name). -/
def someTr : Nat → TrSt → EBNF.EAlt → Option (String × TrSt)
  | 0, _, _ => none
  | fuel + 1, st, a =>
    let u2 := freshName st
    let st1 := addNt st u2
    let u1 := freshName st1
    let st2 := addNt st1 u1
    match seqsTr fuel st2 u1 a.seqs with
    | none => none
    | some st3 =>
        let st4 := { st3 with rules :=
          st3.rules ++ [(u2, [.nonterm u1]), (u2, [.nonterm u2, .nonterm u1])] }
        some (u2,
          if st.errFlag then
            { st4 with rules := st4.rules ++ [(u2, [.term ""]), (u2, [.nonterm u2, .term ""])] }
          else st4)
termination_by structural fuel => fuel

end

/-- Correspondence between an EBNF node and the symbol that replaces it:
terminals and non-terminal references keep their names, an `Opt` or `Some`
construct is replaced by a non-terminal carrying the `uniq` prefix. -/
inductive SymRel (uniq : String) : EBNF.ESym → TSym → Prop where
  | lit (n : String) : SymRel uniq (.lit n) (.term n)
  | tok (n : String) : SymRel uniq (.tok n) (.term n)
  | ref (n : String) : SymRel uniq (.ref n) (.nonterm n)
  | opt (a : EBNF.EAlt) (v : String) : strPre uniq v → SymRel uniq (.opt a) (.nonterm v)
  | someN (a : EBNF.EAlt) (v : String) : strPre uniq v → SymRel uniq (.someN a) (.nonterm v)

/-! Source-tree sanity: no non-terminal reference carries the reserved
`uniq` prefix (such a name could collide with a generated one). -/
mutual
inductive RSymOk (uniq : String) : EBNF.ESym → Prop where
  | lit (n : String) : RSymOk uniq (.lit n)
  | tok (n : String) : RSymOk uniq (.tok n)
  | ref (n : String) : ¬ strPre uniq n → RSymOk uniq (.ref n)
  | opt (a : EBNF.EAlt) : RAltOk uniq a → RSymOk uniq (.opt a)
  | someN (a : EBNF.EAlt) : RAltOk uniq a → RSymOk uniq (.someN a)
inductive RSeqOk (uniq : String) : EBNF.ESeq → Prop where
  | mk (ns : List EBNF.ESym) (t : Option String) (e : Finset String)
      (f : Option (Finset String)) :
      (∀ s ∈ ns, RSymOk uniq s) → RSeqOk uniq (.mk ns t e f)
inductive RAltOk (uniq : String) : EBNF.EAlt → Prop where
  | mk (sqs : List EBNF.ESeq) (e : Finset String) (f : Option (Finset String)) :
      (∀ sq ∈ sqs, RSeqOk uniq sq) → RAltOk uniq (.mk sqs e f)
end

/-- Inventory invariant: every registered name with the `uniq` prefix is
a generated one, indexed below the current inventory size. -/
def NtInv (st : TrSt) : Prop :=
  ∀ n ∈ st.nts, strPre st.uniq n → ∃ j, j < st.nts.length ∧ n = st.uniq ++ Nat.repr j

theorem freshName_not_mem {st : TrSt} (h : NtInv st) : freshName st ∉ st.nts := by
  intro hmem
  obtain ⟨j, hj, hjeq⟩ := h _ hmem (strPre_append st.uniq _)
  have := append_repr_inj hjeq
  omega

end BNF
namespace BNF

theorem addNt_uniq (st : TrSt) (n : String) : (addNt st n).uniq = st.uniq := by
  unfold addNt
  split <;> rfl

theorem addNt_errFlag (st : TrSt) (n : String) : (addNt st n).errFlag = st.errFlag := by
  unfold addNt
  split <;> rfl

theorem addNt_rules (st : TrSt) (n : String) : (addNt st n).rules = st.rules := by
  unfold addNt
  split <;> rfl

theorem addNt_nts (st : TrSt) (n : String) : ∃ Δ, (addNt st n).nts = st.nts ++ Δ := by
  unfold addNt
  split
  · exact ⟨[], by simp⟩
  · exact ⟨[n], rfl⟩

theorem ntInv_addNt_user {st : TrSt} {n : String} (h : NtInv st) (hn : ¬ strPre st.uniq n) :
    NtInv (addNt st n) := by
  unfold addNt
  split
  · exact h
  · intro m hm hpre
    rcases List.mem_append.mp hm with hin | hin
    · obtain ⟨j, hj, hjeq⟩ := h m hin hpre
      exact ⟨j, by simp; omega, hjeq⟩
    · rcases List.mem_singleton.mp hin with rfl
      exact absurd hpre hn

theorem addNt_fresh_eq {st : TrSt} (h : NtInv st) :
    addNt st (freshName st) = { st with nts := st.nts ++ [freshName st] } := by
  unfold addNt
  rw [if_neg (freshName_not_mem h)]

theorem ntInv_addNt_fresh {st : TrSt} (h : NtInv st) : NtInv (addNt st (freshName st)) := by
  rw [addNt_fresh_eq h]
  intro m hm hpre
  rcases List.mem_append.mp hm with hin | hin
  · obtain ⟨j, hj, hjeq⟩ := h m hin hpre
    exact ⟨j, by simp; omega, hjeq⟩
  · rcases List.mem_singleton.mp hin with rfl
    exact ⟨st.nts.length, by simp, rfl⟩

theorem ntInv_rules {st : TrSt} (h : NtInv st) (R : List (String × List TSym)) :
    NtInv { st with rules := R } :=
  h

/-- Static parts common to all translation steps: configuration unchanged,
non-terminal inventory only appended. -/
def TrBase (st st1 : TrSt) : Prop :=
  st1.uniq = st.uniq ∧ st1.errFlag = st.errFlag ∧ ∃ Δ, st1.nts = st.nts ++ Δ

theorem trBase_refl (st : TrSt) : TrBase st st := ⟨rfl, rfl, [], by simp⟩

theorem trBase_trans {st st1 st2 : TrSt} (h : TrBase st st1) (h2 : TrBase st1 st2) :
    TrBase st st2 := by
  obtain ⟨hu, he, Δ1, hn⟩ := h
  obtain ⟨hu2, he2, Δ2, hn2⟩ := h2
  exact ⟨hu2.trans hu, he2.trans he, Δ1 ++ Δ2, by rw [hn2, hn, List.append_assoc]⟩

theorem TrBase.len_le {st st1 : TrSt} (h : TrBase st st1) :
    st.nts.length ≤ st1.nts.length := by
  obtain ⟨-, -, Δ, hn⟩ := h
  rw [hn]
  simp

def C2SymP (fuel : Nat) : Prop :=
  ∀ st s t st1, NtInv st → RSymOk st.uniq s → symTr fuel st s = some (t, st1) →
    TrBase st st1 ∧ NtInv st1 ∧ SymRel st.uniq s t ∧
    ∃ Δr, st1.rules = st.rules ++ Δr ∧
      ∀ p ∈ Δr, ∃ j, st.nts.length ≤ j ∧ p.1 = st.uniq ++ Nat.repr j

def C2SeqP (fuel : Nat) : Prop :=
  ∀ st ns ts st1, NtInv st → (∀ n ∈ ns, RSymOk st.uniq n) →
    seqTr fuel st ns = some (ts, st1) →
    TrBase st st1 ∧ NtInv st1 ∧ List.Forall₂ (SymRel st.uniq) ns ts ∧
    ∃ Δr, st1.rules = st.rules ++ Δr ∧
      ∀ p ∈ Δr, ∃ j, st.nts.length ≤ j ∧ p.1 = st.uniq ++ Nat.repr j

def C2SeqsP (fuel : Nat) : Prop :=
  ∀ st lhs sqs st1, NtInv st → (∀ sq ∈ sqs, RSeqOk st.uniq sq) →
    (∀ j, st.nts.length ≤ j → lhs ≠ st.uniq ++ Nat.repr j) →
    seqsTr fuel st lhs sqs = some st1 →
    TrBase st st1 ∧ NtInv st1 ∧
    ∃ rhss Δr, st1.rules = st.rules ++ Δr ∧ rhss.length = sqs.length ∧
      Δr.filter (fun p => p.1 = lhs) = rhss.map (fun ts => (lhs, ts)) ∧
      List.Forall₂ (fun sq ts => List.Forall₂ (SymRel st.uniq) sq.nodes ts) sqs rhss ∧
      ∀ p ∈ Δr, p.1 = lhs ∨ ∃ j, st.nts.length ≤ j ∧ p.1 = st.uniq ++ Nat.repr j

def C2OptP (fuel : Nat) : Prop :=
  ∀ st a u st1, NtInv st → RAltOk st.uniq a → optTr fuel st a = some (u, st1) →
    u = freshName st ∧ TrBase st st1 ∧ NtInv st1 ∧ u ∈ st1.nts ∧
    ∃ rhss Δr, st1.rules = st.rules ++ Δr ∧ rhss.length = a.seqs.length ∧
      Δr.filter (fun p => p.1 = u) = (u, []) :: rhss.map (fun ts => (u, ts)) ∧
      List.Forall₂ (fun sq ts => List.Forall₂ (SymRel st.uniq) sq.nodes ts) a.seqs rhss ∧
      ∀ p ∈ Δr, ∃ j, st.nts.length ≤ j ∧ p.1 = st.uniq ++ Nat.repr j

def C2SomeP (fuel : Nat) : Prop :=
  ∀ st a u2 st1, NtInv st → RAltOk st.uniq a → someTr fuel st a = some (u2, st1) →
    u2 = freshName st ∧ TrBase st st1 ∧ NtInv st1 ∧ u2 ∈ st1.nts ∧
    ∃ u1, u1 = st.uniq ++ Nat.repr (st.nts.length + 1) ∧ u1 ∈ st1.nts ∧ u1 ≠ u2 ∧
    ∃ rhss Δr, st1.rules = st.rules ++ Δr ∧ rhss.length = a.seqs.length ∧
      Δr.filter (fun p => p.1 = u1) = rhss.map (fun ts => (u1, ts)) ∧
      Δr.filter (fun p => p.1 = u2)
        = [(u2, [.nonterm u1]), (u2, [.nonterm u2, .nonterm u1])]
          ++ (if st.errFlag then [(u2, [.term ""]), (u2, [.nonterm u2, .term ""])]
            else []) ∧
      List.Forall₂ (fun sq ts => List.Forall₂ (SymRel st.uniq) sq.nodes ts) a.seqs rhss ∧
      ∀ p ∈ Δr, ∃ j, st.nts.length ≤ j ∧ p.1 = st.uniq ++ Nat.repr j

end BNF
namespace BNF

theorem RSeqOk.nodes_ok {uniq : String} {sq : EBNF.ESeq} (h : RSeqOk uniq sq) :
    ∀ n ∈ sq.nodes, RSymOk uniq n := by
  cases h with
  | mk ns t e f hall => exact hall

theorem RAltOk.seqs_ok {uniq : String} {a : EBNF.EAlt} (h : RAltOk uniq a) :
    ∀ sq ∈ a.seqs, RSeqOk uniq sq := by
  cases h with
  | mk sqs e f hall => exact hall

theorem c2Sym_step (fuel : Nat) (ihOpt : C2OptP fuel) (ihSome : C2SomeP fuel) :
    C2SymP (fuel + 1) := by
  intro st s t st1 hinv hok h
  cases s with
  | lit n =>
      simp only [symTr, Option.some.injEq, Prod.mk.injEq] at h
      obtain ⟨rfl, rfl⟩ := h
      exact ⟨trBase_refl st, hinv, SymRel.lit n,
        [], by simp, fun p hp => absurd hp (List.not_mem_nil p)⟩
  | tok n =>
      simp only [symTr, Option.some.injEq, Prod.mk.injEq] at h
      obtain ⟨rfl, rfl⟩ := h
      exact ⟨trBase_refl st, hinv, SymRel.tok n,
        [], by simp, fun p hp => absurd hp (List.not_mem_nil p)⟩
  | ref n =>
      simp only [symTr, Option.some.injEq, Prod.mk.injEq] at h
      obtain ⟨rfl, rfl⟩ := h
      cases hok with
      | ref _ hn =>
          refine ⟨⟨addNt_uniq st n, addNt_errFlag st n, addNt_nts st n⟩,
            ntInv_addNt_user hinv hn, SymRel.ref n, [], ?_,
            fun p hp => absurd hp (List.not_mem_nil p)⟩
          rw [addNt_rules]
          simp
  | opt a =>
      simp only [symTr] at h
      cases hm : optTr fuel st a with
      | none => rw [hm] at h; cases h
      | some pr =>
          obtain ⟨u, stA⟩ := pr
          rw [hm] at h
          simp only [Option.some.injEq, Prod.mk.injEq] at h
          obtain ⟨rfl, rfl⟩ := h
          have hA : RAltOk st.uniq a := by cases hok with | opt _ ha => exact ha
          obtain ⟨hu, hbase, hinv1, -, -, Δr, hr, -, -, -, hchar⟩ :=
            ihOpt st a u stA hinv hA hm
          refine ⟨hbase, hinv1, ?_, Δr, hr, hchar⟩
          refine SymRel.opt a u ?_
          rw [hu]
          exact strPre_append st.uniq (Nat.repr st.nts.length)
  | someN a =>
      simp only [symTr] at h
      cases hm : someTr fuel st a with
      | none => rw [hm] at h; cases h
      | some pr =>
          obtain ⟨u, stA⟩ := pr
          rw [hm] at h
          simp only [Option.some.injEq, Prod.mk.injEq] at h
          obtain ⟨rfl, rfl⟩ := h
          have hA : RAltOk st.uniq a := by cases hok with | someN _ ha => exact ha
          obtain ⟨hu, hbase, hinv1, -, -, -, -, -, -, Δr, hr, -, -, -, -, hchar⟩ :=
            ihSome st a u stA hinv hA hm
          refine ⟨hbase, hinv1, ?_, Δr, hr, hchar⟩
          refine SymRel.someN a u ?_
          rw [hu]
          exact strPre_append st.uniq (Nat.repr st.nts.length)

theorem c2Seq_step (fuel : Nat) (ihSym : C2SymP fuel) (ihSeq : C2SeqP fuel) :
    C2SeqP (fuel + 1) := by
  intro st ns ts st1 hinv hall h
  cases ns with
  | nil =>
      simp only [seqTr, Option.some.injEq, Prod.mk.injEq] at h
      obtain ⟨rfl, rfl⟩ := h
      exact ⟨trBase_refl st, hinv, List.Forall₂.nil,
        [], by simp, fun p hp => absurd hp (List.not_mem_nil p)⟩
  | cons n rest =>
      simp only [seqTr] at h
      cases hm : symTr fuel st n with
      | none => rw [hm] at h; cases h
      | some pr =>
          obtain ⟨t, stA⟩ := pr
          rw [hm] at h
          dsimp only at h
          cases hrec : seqTr fuel stA rest with
          | none => rw [hrec] at h; cases h
          | some pr2 =>
              obtain ⟨ts2, stB⟩ := pr2
              rw [hrec] at h
              simp only [Option.some.injEq, Prod.mk.injEq] at h
              obtain ⟨rfl, rfl⟩ := h
              obtain ⟨hbaseA, hinvA, hrel, Δr1, hr1, hchar1⟩ :=
                ihSym st n t stA hinv (hall n (List.mem_cons_self n rest)) hm
              have hallA : ∀ m ∈ rest, RSymOk stA.uniq m := by
                rw [hbaseA.1]
                exact fun m hm2 => hall m (List.mem_cons_of_mem n hm2)
              obtain ⟨hbaseB, hinvB, hf2, Δr2, hr2, hchar2⟩ :=
                ihSeq stA rest ts2 stB hinvA hallA hrec
              have hf2s : List.Forall₂ (SymRel st.uniq) rest ts2 := by
                rw [← hbaseA.1]
                exact hf2
              refine ⟨trBase_trans hbaseA hbaseB, hinvB, List.Forall₂.cons hrel hf2s,
                Δr1 ++ Δr2, ?_, ?_⟩
              · rw [hr2, hr1, List.append_assoc]
              · intro p hp
                rcases List.mem_append.mp hp with hin | hin
                · exact hchar1 p hin
                · obtain ⟨j, hj, hjeq⟩ := hchar2 p hin
                  refine ⟨j, le_trans hbaseA.len_le hj, ?_⟩
                  rw [hjeq, hbaseA.1]

end BNF
namespace BNF

theorem c2Seqs_step (fuel : Nat) (ihSeq : C2SeqP fuel) (ihSeqs : C2SeqsP fuel) :
    C2SeqsP (fuel + 1) := by
  intro st lhs sqs st1 hinv hall hlhs h
  cases sqs with
  | nil =>
      simp only [seqsTr, Option.some.injEq] at h
      subst h
      exact ⟨trBase_refl st, hinv, [], [], by simp, rfl, rfl, List.Forall₂.nil,
        fun p hp => absurd hp (List.not_mem_nil p)⟩
  | cons sq rest =>
      simp only [seqsTr] at h
      cases hm : seqTr fuel st sq.nodes with
      | none => rw [hm] at h; cases h
      | some pr =>
          obtain ⟨ts, stA⟩ := pr
          rw [hm] at h
          dsimp only at h
          obtain ⟨hbaseA, hinvA, hf2A, Δr1, hr1, hchar1⟩ :=
            ihSeq st sq.nodes ts stA hinv
              ((hall sq (List.mem_cons_self sq rest)).nodes_ok) hm
          have hinvB : NtInv { stA with rules := stA.rules ++ [(lhs, ts)] } :=
            ntInv_rules hinvA _
          have hallB : ∀ q ∈ rest,
              RSeqOk ({ stA with rules := stA.rules ++ [(lhs, ts)] } : TrSt).uniq q := by
            show ∀ q ∈ rest, RSeqOk stA.uniq q
            rw [hbaseA.1]
            exact fun q hq => hall q (List.mem_cons_of_mem sq hq)
          have hlhsB : ∀ j, ({ stA with rules := stA.rules ++ [(lhs, ts)] } : TrSt).nts.length
              ≤ j → lhs ≠ ({ stA with rules := stA.rules ++ [(lhs, ts)] } : TrSt).uniq
                ++ Nat.repr j := by
            show ∀ j, stA.nts.length ≤ j → lhs ≠ stA.uniq ++ Nat.repr j
            rw [hbaseA.1]
            intro j hj
            exact hlhs j (le_trans hbaseA.len_le hj)
          obtain ⟨hbaseB, hinvB2, rhss2, Δr2, hr2, hlen2, hfil2, hf2B, hchar2⟩ :=
            ihSeqs { stA with rules := stA.rules ++ [(lhs, ts)] } lhs rest st1
              hinvB hallB hlhsB h
          have hbaseAB : TrBase st { stA with rules := stA.rules ++ [(lhs, ts)] } :=
            trBase_trans hbaseA ⟨rfl, rfl, [], by simp⟩
          have hfil1 : Δr1.filter (fun p => p.1 = lhs) = [] := by
            rw [List.filter_eq_nil_iff]
            intro p hp
            obtain ⟨j, hj, hjeq⟩ := hchar1 p hp
            simp only [decide_eq_true_eq]
            rw [hjeq]
            exact fun heq => hlhs j hj heq.symm
          refine ⟨trBase_trans hbaseAB hbaseB, hinvB2, ts :: rhss2, Δr1 ++ [(lhs, ts)] ++ Δr2,
            ?_, ?_, ?_, ?_, ?_⟩
          · rw [hr2]
            show (stA.rules ++ [(lhs, ts)]) ++ Δr2 = st.rules ++ (Δr1 ++ [(lhs, ts)] ++ Δr2)
            rw [hr1]
            simp [List.append_assoc]
          · simp [hlen2]
          · rw [List.filter_append, List.filter_append, hfil1, hfil2]
            simp
          · refine List.Forall₂.cons hf2A ?_
            have : List.Forall₂ (fun sq2 ts2 => List.Forall₂ (SymRel stA.uniq) sq2.nodes ts2)
                rest rhss2 := hf2B
            rw [hbaseA.1] at this
            exact this
          · intro p hp
            rcases List.mem_append.mp hp with hp1 | hp2
            rcases List.mem_append.mp hp1 with hin | hin
            · obtain ⟨j, hj, hjeq⟩ := hchar1 p hin
              exact Or.inr ⟨j, hj, hjeq⟩
            · rcases List.mem_singleton.mp hin with rfl
              exact Or.inl rfl
            · rcases hchar2 p hp2 with heq | ⟨j, hj, hjeq⟩
              · exact Or.inl heq
              · refine Or.inr ⟨j, le_trans hbaseA.len_le hj, ?_⟩
                rw [hjeq]
                show stA.uniq ++ Nat.repr j = st.uniq ++ Nat.repr j
                rw [hbaseA.1]

end BNF
namespace BNF

theorem c2Opt_step (fuel : Nat) (ihSeqs : C2SeqsP fuel) : C2OptP (fuel + 1) := by
  intro st a u st1 hinv hok h
  simp only [optTr] at h
  rw [addNt_fresh_eq hinv] at h
  split at h
  · cases h
  · rename_i st3 heq
    simp only [Option.some.injEq, Prod.mk.injEq] at h
    obtain ⟨rfl, rfl⟩ := h
    have hinvM : NtInv ⟨st.uniq, st.errFlag, st.nts ++ [freshName st],
        st.rules ++ [(freshName st, [])]⟩ := by
      intro n hn hpre
      rcases List.mem_append.mp hn with hin | hin
      · obtain ⟨j, hj, hjeq⟩ := hinv n hin hpre
        exact ⟨j, by simp; omega, hjeq⟩
      · rcases List.mem_singleton.mp hin with rfl
        exact ⟨st.nts.length, by simp, rfl⟩
    have hallM : ∀ sq ∈ a.seqs, RSeqOk (TrSt.mk st.uniq st.errFlag
        (st.nts ++ [freshName st]) (st.rules ++ [(freshName st, [])])).uniq sq :=
      hok.seqs_ok
    have hlhsM : ∀ j, (TrSt.mk st.uniq st.errFlag (st.nts ++ [freshName st])
        (st.rules ++ [(freshName st, [])])).nts.length ≤ j →
        freshName st ≠ (TrSt.mk st.uniq st.errFlag (st.nts ++ [freshName st])
          (st.rules ++ [(freshName st, [])])).uniq ++ Nat.repr j := by
      show ∀ j, (st.nts ++ [freshName st]).length ≤ j →
        freshName st ≠ st.uniq ++ Nat.repr j
      intro j hj heq2
      have hij := append_repr_inj heq2
      simp only [List.length_append, List.length_singleton] at hj
      omega
    obtain ⟨hbaseB, hinvB, rhss, Δr2, hr2, hlen2, hfil2, hf2B, hchar2⟩ :=
      ihSeqs _ (freshName st) a.seqs st3 hinvM hallM hlhsM heq
    refine ⟨rfl, ?_, hinvB, ?_, rhss, (freshName st, []) :: Δr2, ?_, hlen2, ?_, hf2B, ?_⟩
    · refine trBase_trans ?_ hbaseB
      exact ⟨rfl, rfl, [freshName st], rfl⟩
    · obtain ⟨-, -, Δ, hn⟩ := hbaseB
      rw [hn]
      simp
    · rw [hr2]
      show (st.rules ++ [(freshName st, [])]) ++ Δr2
        = st.rules ++ ((freshName st, []) :: Δr2)
      simp
    · rw [List.filter_cons]
      rw [if_pos (by simp)]
      rw [hfil2]
    · intro p hp
      rcases List.mem_cons.mp hp with rfl | hin
      · exact ⟨st.nts.length, le_refl _, rfl⟩
      · rcases hchar2 p hin with heqp | ⟨j, hj, hjeq⟩
        · refine ⟨st.nts.length, le_refl _, ?_⟩
          rw [heqp]
          rfl
        · refine ⟨j, ?_, hjeq⟩
          have hh : (st.nts ++ [freshName st]).length ≤ j := hj
          simp only [List.length_append, List.length_singleton] at hh
          omega

end BNF
namespace BNF

theorem c2Some_step (fuel : Nat) (ihSeqs : C2SeqsP fuel) : C2SomeP (fuel + 1) := by
  intro st a u2 st1 hinv hok h
  simp only [someTr] at h
  rw [addNt_fresh_eq hinv] at h
  have hinv1 : NtInv (TrSt.mk st.uniq st.errFlag (st.nts ++ [freshName st]) st.rules) := by
    intro n hn hpre
    rcases List.mem_append.mp hn with hin | hin
    · obtain ⟨j, hj, hjeq⟩ := hinv n hin hpre
      exact ⟨j, by simp; omega, hjeq⟩
    · rcases List.mem_singleton.mp hin with rfl
      exact ⟨st.nts.length, by simp, rfl⟩
  rw [addNt_fresh_eq hinv1] at h
  dsimp only at h
  have hu1 : freshName (TrSt.mk st.uniq st.errFlag (st.nts ++ [freshName st]) st.rules)
      = st.uniq ++ Nat.repr (st.nts.length + 1) := by
    show st.uniq ++ Nat.repr (st.nts ++ [freshName st]).length
      = st.uniq ++ Nat.repr (st.nts.length + 1)
    simp
  rw [hu1] at h
  split at h
  · cases h
  · rename_i st3 heq
    simp only [Option.some.injEq, Prod.mk.injEq] at h
    obtain ⟨rfl, hst1⟩ := h
    have hinvM2 : NtInv ⟨st.uniq, st.errFlag,
        (st.nts ++ [freshName st]) ++ [st.uniq ++ Nat.repr (st.nts.length + 1)],
        st.rules⟩ := by
      intro n hn hpre
      rcases List.mem_append.mp hn with hin | hin
      · rcases List.mem_append.mp hin with hin2 | hin2
        · obtain ⟨j, hj, hjeq⟩ := hinv n hin2 hpre
          exact ⟨j, by simp; omega, hjeq⟩
        · rcases List.mem_singleton.mp hin2 with rfl
          exact ⟨st.nts.length, by simp, rfl⟩
      · rcases List.mem_singleton.mp hin with rfl
        exact ⟨st.nts.length + 1, by simp, rfl⟩
    have hallM2 : ∀ sq ∈ a.seqs, RSeqOk (TrSt.mk st.uniq st.errFlag
        ((st.nts ++ [freshName st]) ++ [st.uniq ++ Nat.repr (st.nts.length + 1)])
        st.rules).uniq sq := hok.seqs_ok
    have hlhsM2 : ∀ j, (TrSt.mk st.uniq st.errFlag
        ((st.nts ++ [freshName st]) ++ [st.uniq ++ Nat.repr (st.nts.length + 1)])
        st.rules).nts.length ≤ j →
        st.uniq ++ Nat.repr (st.nts.length + 1) ≠ (TrSt.mk st.uniq st.errFlag
          ((st.nts ++ [freshName st]) ++ [st.uniq ++ Nat.repr (st.nts.length + 1)])
          st.rules).uniq ++ Nat.repr j := by
      show ∀ j, ((st.nts ++ [freshName st]) ++ [st.uniq ++ Nat.repr (st.nts.length + 1)]).length
        ≤ j → st.uniq ++ Nat.repr (st.nts.length + 1) ≠ st.uniq ++ Nat.repr j
      intro j hj heq2
      have hij := append_repr_inj heq2
      simp only [List.length_append, List.length_singleton] at hj
      omega
    obtain ⟨hbaseB, hinvB, rhss, Δr2, hr2, hlen2, hfil2, hf2B, hchar2⟩ :=
      ihSeqs _ (st.uniq ++ Nat.repr (st.nts.length + 1)) a.seqs st3 hinvM2 hallM2 hlhsM2 heq
    have hne12 : st.uniq ++ Nat.repr (st.nts.length + 1) ≠ freshName st := by
      intro heq2
      have := append_repr_inj heq2
      omega
    have hne21 : freshName st ≠ st.uniq ++ Nat.repr (st.nts.length + 1) :=
      fun heq2 => hne12 heq2.symm
    have hfilΔ2u2 : Δr2.filter (fun p => p.1 = freshName st) = [] := by
      rw [List.filter_eq_nil_iff]
      intro p hp
      simp only [decide_eq_true_eq]
      rcases hchar2 p hp with heqp | ⟨j, hj, hjeq⟩
      · rw [heqp]
        exact hne12
      · rw [hjeq]
        intro hcon
        have hij := append_repr_inj (by exact hcon)
        have : ((st.nts ++ [freshName st])
            ++ [st.uniq ++ Nat.repr (st.nts.length + 1)]).length ≤ j := hj
        simp only [List.length_append, List.length_singleton] at this
        omega
    have hbaseSt3 : TrBase st st3 := by
      refine trBase_trans ?_ hbaseB
      exact ⟨rfl, rfl, [freshName st] ++ [st.uniq ++ Nat.repr (st.nts.length + 1)],
        by simp⟩
    have hmem1 : st.uniq ++ Nat.repr (st.nts.length + 1) ∈ st3.nts := by
      obtain ⟨-, -, Δ, hn⟩ := hbaseB
      rw [hn]
      simp
    have hmem2 : freshName st ∈ st3.nts := by
      obtain ⟨-, -, Δ, hn⟩ := hbaseB
      rw [hn]
      simp
    have hcharj : ∀ p ∈ Δr2, ∃ j, st.nts.length ≤ j ∧ p.1 = st.uniq ++ Nat.repr j := by
      intro p hp
      rcases hchar2 p hp with heqp | ⟨j, hj, hjeq⟩
      · exact ⟨st.nts.length + 1, by omega, heqp⟩
      · refine ⟨j, ?_, hjeq⟩
        have hh : ((st.nts ++ [freshName st])
            ++ [st.uniq ++ Nat.repr (st.nts.length + 1)]).length ≤ j := hj
        simp only [List.length_append, List.length_singleton] at hh
        omega
    cases herr : st.errFlag with
    | true =>
        rw [herr] at hst1
        rw [if_pos rfl] at hst1
        subst hst1
        refine ⟨rfl, ?_, ?_, ?_, st.uniq ++ Nat.repr (st.nts.length + 1), rfl, ?_, hne12,
          rhss, Δr2 ++ ([(freshName st, [.nonterm (st.uniq ++ Nat.repr (st.nts.length + 1))]),
            (freshName st, [.nonterm (freshName st),
              .nonterm (st.uniq ++ Nat.repr (st.nts.length + 1))])]
            ++ [(freshName st, [.term ""]), (freshName st, [.nonterm (freshName st), .term ""])]),
          ?_, hlen2, ?_, ?_, ?_, ?_⟩
        · exact trBase_trans hbaseSt3 ⟨rfl, rfl, [], by simp⟩
        · exact ntInv_rules (ntInv_rules hinvB _) _
        · obtain ⟨-, -, Δ, hn⟩ := hbaseSt3
          show freshName st ∈ st3.nts
          exact hmem2
        · exact hmem1
        · show (st3.rules ++ _) ++ _ = st.rules ++ _
          rw [hr2]
          show ((st.rules ++ Δr2) ++ _) ++ _ = st.rules ++ _
          simp [List.append_assoc]
        · rw [List.filter_append, hfil2, List.filter_append]
          rw [show List.filter (fun p => decide (p.1 = st.uniq ++ Nat.repr (st.nts.length + 1)))
            [((freshName st : String), [TSym.nonterm (st.uniq ++ Nat.repr (st.nts.length + 1))]),
              (freshName st, [.nonterm (freshName st),
                .nonterm (st.uniq ++ Nat.repr (st.nts.length + 1))])] = [] from by
            simp [hne21]]
          rw [show List.filter (fun p => decide (p.1 = st.uniq ++ Nat.repr (st.nts.length + 1)))
            [((freshName st : String), [TSym.term ""]),
              (freshName st, [.nonterm (freshName st), .term ""])] = [] from by
            simp [hne21]]
          simp
        · rw [List.filter_append, hfilΔ2u2, List.filter_append]
          simp
        · exact hf2B
        · intro p hp
          rcases List.mem_append.mp hp with hin | hin
          · exact hcharj p hin
          · rcases List.mem_append.mp hin with hin2 | hin2
            · rcases List.mem_cons.mp hin2 with rfl | hin3
              · exact ⟨st.nts.length, le_refl _, rfl⟩
              · rcases List.mem_singleton.mp hin3 with rfl
                exact ⟨st.nts.length, le_refl _, rfl⟩
            · rcases List.mem_cons.mp hin2 with rfl | hin3
              · exact ⟨st.nts.length, le_refl _, rfl⟩
              · rcases List.mem_singleton.mp hin3 with rfl
                exact ⟨st.nts.length, le_refl _, rfl⟩
    | false =>
        rw [herr] at hst1
        rw [if_neg Bool.false_ne_true] at hst1
        subst hst1
        refine ⟨rfl, ?_, ?_, ?_, st.uniq ++ Nat.repr (st.nts.length + 1), rfl, ?_, hne12,
          rhss, Δr2 ++ [(freshName st, [.nonterm (st.uniq ++ Nat.repr (st.nts.length + 1))]),
            (freshName st, [.nonterm (freshName st),
              .nonterm (st.uniq ++ Nat.repr (st.nts.length + 1))])],
          ?_, hlen2, ?_, ?_, ?_, ?_⟩
        · exact trBase_trans hbaseSt3 ⟨rfl, rfl, [], by simp⟩
        · exact ntInv_rules hinvB _
        · exact hmem2
        · exact hmem1
        · show st3.rules ++ _ = st.rules ++ _
          rw [hr2]
          simp [List.append_assoc]
        · rw [List.filter_append, hfil2]
          rw [show List.filter (fun p => decide (p.1 = st.uniq ++ Nat.repr (st.nts.length + 1)))
            [((freshName st : String), [TSym.nonterm (st.uniq ++ Nat.repr (st.nts.length + 1))]),
              (freshName st, [.nonterm (freshName st),
                .nonterm (st.uniq ++ Nat.repr (st.nts.length + 1))])] = [] from by
            simp [hne21]]
          simp
        · rw [List.filter_append, hfilΔ2u2]
          simp
        · exact hf2B
        · intro p hp
          rcases List.mem_append.mp hp with hin | hin
          · exact hcharj p hin
          · rcases List.mem_cons.mp hin with rfl | hin2
            · exact ⟨st.nts.length, le_refl _, rfl⟩
            · rcases List.mem_singleton.mp hin2 with rfl
              exact ⟨st.nts.length, le_refl _, rfl⟩

end BNF
namespace BNF

theorem c2Zero : C2SymP 0 ∧ C2SeqP 0 ∧ C2SeqsP 0 ∧ C2OptP 0 ∧ C2SomeP 0 := by
  refine ⟨?_, ?_, ?_, ?_, ?_⟩
  · intro st s t st1 _ _ h
    exact Option.noConfusion h
  · intro st ns ts st1 _ _ h
    exact Option.noConfusion h
  · intro st lhs sqs st1 _ _ _ h
    exact Option.noConfusion h
  · intro st a u st1 _ _ h
    exact Option.noConfusion h
  · intro st a u2 st1 _ _ h
    exact Option.noConfusion h

theorem c2Bundle (fuel : Nat) :
    C2SymP fuel ∧ C2SeqP fuel ∧ C2SeqsP fuel ∧ C2OptP fuel ∧ C2SomeP fuel := by
  induction fuel with
  | zero => exact c2Zero
  | succ f ih =>
      obtain ⟨hSym, hSeq, hSeqs, hOpt, hSome⟩ := ih
      exact ⟨c2Sym_step f hOpt hSome, c2Seq_step f hSym hSeq,
        c2Seqs_step f hSeq hSeqs, c2Opt_step f hSeqs, c2Some_step f hSeqs⟩

/-- Witness state for the closure theorem: user prefix-free inventory. -/
def wSt : TrSt := ⟨"$-", true, ["S"], []⟩

/-- Witness construct: one alternative consisting of the literal `x`. -/
def wA2 : EBNF.EAlt := .mk [.mk [.lit "x"] none ∅ none] ∅ none

/-- Resulting state of the `opt` closure on the witness construct. -/
def wStO : TrSt := ((optTr 9 wSt wA2).getD ("", wSt)).2

/-- Resulting state of the `some` closure on the witness construct. -/
def wStS : TrSt := ((someTr 9 wSt wA2).getD ("", wSt)).2

/-- C2: `Grammar.fromEBNF` translates an optional construct
`[S1 | … | Sn]` through the `opt` closure into one fresh non-terminal `U`
(the next generated name, never previously registered) with the rule
`U → ε` followed by one rule `U → Si` per alternative, and an iteration
`\x7bS1 | … | Sn\x7d` through the `some` closure into two fresh
non-terminals `U2` (returned) and `U1` with one rule `U1 → Si` per
alternative plus the rules `U2 → U1` and `U2 → U2 U1`; when the error
configuration flag is set it additionally emits `U2 → $error` and
`U2 → U2 $error` (the `$error` token carries the empty name).  The `Si`
right-hand sides are the alternatives' node lists translated symbol by
symbol (`SymRel`). -/
theorem c2_fromEBNF_closures (fuel : Nat) (st : TrSt) (a : EBNF.EAlt)
    (u u2 : String) (stO stS : TrSt)
    (hinv : NtInv st) (hok : RAltOk st.uniq a)
    (hopt : optTr fuel st a = some (u, stO))
    (hsome : someTr fuel st a = some (u2, stS)) :
    (u = freshName st ∧ u ∉ st.nts ∧ u ∈ stO.nts ∧
      ∃ rhss Δr, stO.rules = st.rules ++ Δr ∧ rhss.length = a.seqs.length ∧
        Δr.filter (fun p => p.1 = u) = (u, []) :: rhss.map (fun ts => (u, ts)) ∧
        List.Forall₂ (fun sq ts => List.Forall₂ (SymRel st.uniq) sq.nodes ts)
          a.seqs rhss) ∧
    (u2 = freshName st ∧ u2 ∉ st.nts ∧ u2 ∈ stS.nts ∧
      ∃ u1, u1 = st.uniq ++ Nat.repr (st.nts.length + 1) ∧ u1 ∉ st.nts ∧
        u1 ∈ stS.nts ∧ u1 ≠ u2 ∧
        ∃ rhss Δr, stS.rules = st.rules ++ Δr ∧ rhss.length = a.seqs.length ∧
          Δr.filter (fun p => p.1 = u1) = rhss.map (fun ts => (u1, ts)) ∧
          Δr.filter (fun p => p.1 = u2)
            = [(u2, [.nonterm u1]), (u2, [.nonterm u2, .nonterm u1])]
              ++ (if st.errFlag then [(u2, [.term ""]), (u2, [.nonterm u2, .term ""])]
                else []) ∧
          List.Forall₂ (fun sq ts => List.Forall₂ (SymRel st.uniq) sq.nodes ts)
            a.seqs rhss) := by
  obtain ⟨-, -, -, hOpt, hSome⟩ := c2Bundle fuel
  obtain ⟨hu, hbase, hinvO, humem, rhss, Δr, hr, hlen, hfil, hf2, hchar⟩ :=
    hOpt st a u stO hinv hok hopt
  obtain ⟨hu2, hbase2, hinvS, hu2mem, u1, hu1, hu1mem, hne, rhss2, Δr2, hr2, hlen2,
    hfil1, hfil2, hf22, hchar2⟩ := hSome st a u2 stS hinv hok hsome
  have hufresh : freshName st ∉ st.nts := freshName_not_mem hinv
  have hu1fresh : st.uniq ++ Nat.repr (st.nts.length + 1) ∉ st.nts := by
    intro hmem
    obtain ⟨j, hj, hjeq⟩ := hinv _ hmem (strPre_append _ _)
    have := append_repr_inj hjeq
    omega
  refine ⟨⟨hu, ?_, humem, rhss, Δr, hr, hlen, hfil, hf2⟩,
    hu2, ?_, hu2mem, u1, hu1, ?_, hu1mem, hne,
    rhss2, Δr2, hr2, hlen2, hfil1, hfil2, hf22⟩
  · rw [hu]
    exact hufresh
  · rw [hu2]
    exact hufresh
  · rw [hu1]
    exact hu1fresh

end BNF
namespace BNF

/-- Concrete closure run: both closures on `wSt`/`wA2` produce the
described fresh non-terminals and rules. -/
theorem c2_fromEBNF_closures_witness :
    NtInv wSt ∧ RAltOk wSt.uniq wA2 ∧
    optTr 9 wSt wA2 = some ("$-1", wStO) ∧
    someTr 9 wSt wA2 = some ("$-1", wStS) ∧
    (("$-1" = freshName wSt ∧ "$-1" ∉ wSt.nts ∧ "$-1" ∈ wStO.nts ∧
      ∃ rhss Δr, wStO.rules = wSt.rules ++ Δr ∧ rhss.length = wA2.seqs.length ∧
        Δr.filter (fun p => p.1 = "$-1") = ("$-1", []) :: rhss.map (fun ts => ("$-1", ts)) ∧
        List.Forall₂ (fun sq ts => List.Forall₂ (SymRel wSt.uniq) sq.nodes ts)
          wA2.seqs rhss) ∧
    ("$-1" = freshName wSt ∧ "$-1" ∉ wSt.nts ∧ "$-1" ∈ wStS.nts ∧
      ∃ u1, u1 = wSt.uniq ++ Nat.repr (wSt.nts.length + 1) ∧ u1 ∉ wSt.nts ∧
        u1 ∈ wStS.nts ∧ u1 ≠ "$-1" ∧
        ∃ rhss Δr, wStS.rules = wSt.rules ++ Δr ∧ rhss.length = wA2.seqs.length ∧
          Δr.filter (fun p => p.1 = u1) = rhss.map (fun ts => (u1, ts)) ∧
          Δr.filter (fun p => p.1 = "$-1")
            = [("$-1", [.nonterm u1]), ("$-1", [.nonterm "$-1", .nonterm u1])]
              ++ (if wSt.errFlag then
                  [("$-1", [.term ""]), ("$-1", [.nonterm "$-1", .term ""])]
                else []) ∧
          List.Forall₂ (fun sq ts => List.Forall₂ (SymRel wSt.uniq) sq.nodes ts)
            wA2.seqs rhss)) := by
  have hinv : NtInv wSt := by
    intro n hn hpre
    have hn2 : n ∈ ["S"] := hn
    rcases List.mem_singleton.mp hn2 with rfl
    exact absurd hpre (by decide)
  have hok : RAltOk wSt.uniq wA2 := by
    refine RAltOk.mk _ _ _ ?_
    intro sq hsq
    have hsq2 : sq ∈ [EBNF.ESeq.mk [.lit "x"] none ∅ none] := hsq
    rcases List.mem_singleton.mp hsq2 with rfl
    refine RSeqOk.mk _ _ _ _ ?_
    intro s hs
    have hs2 : s ∈ [EBNF.ESym.lit "x"] := hs
    rcases List.mem_singleton.mp hs2 with rfl
    exact RSymOk.lit _
  exact ⟨hinv, hok, rfl, rfl,
    c2_fromEBNF_closures 9 wSt wA2 "$-1" "$-1" wStO wStS hinv hok rfl rfl⟩

end BNF
